import Mathlib

/-!
Verification of the jetbrainsai2api broker core against its specification.

The Go source is shallowly embedded:
* Go `any` values that come from JSON decoding (and the values the sanitizer
  builds) are modelled by `JValue`.  Go `map[string]any` is modelled as an
  insertion-ordered association list (`List (String × JValue)`) with
  map-update semantics (`jset` updates in place or appends); Go map iteration
  order is unspecified, the model fixes insertion order.  A Go `[]string`
  stored in an `any` is a *different* dynamic type from `[]any`; the model
  keeps that distinction with the `strArr` constructor, because the Go type
  assertion `x.([]any)` fails on a `[]string` value.
* Go float64 numbers are modelled as rationals.
* Recursive schema transformations are defined with explicit fuel
  (`sizeOf` of the input always suffices, proved below), so that every
  definition computes by `rfl`/`decide`.
-/

inductive JValue where
  | null : JValue
  | bool (b : Bool) : JValue
  | num (q : ℚ) : JValue
  | str (s : String) : JValue
  | arr (xs : List JValue) : JValue
  | strArr (xs : List String) : JValue
  | obj (fields : List (String × JValue)) : JValue

namespace JValue

/-- Go map read `m[k]`: the binding of the key (bindings are kept unique by
`jset`). -/
def jget (fs : List (String × JValue)) (k : String) : Option JValue :=
  match fs with
  | [] => none
  | (k2, v) :: rest => if k2 = k then some v else jget rest k

/-- Go map write `m[k] = v`: update in place if the key is present, else
append. -/
def jset (fs : List (String × JValue)) (k : String) (v : JValue) :
    List (String × JValue) :=
  match fs with
  | [] => [(k, v)]
  | (k2, v2) :: rest => if k2 = k then (k2, v) :: rest else (k2, v2) :: jset rest k v

/-- Go `delete(m, k)`. -/
def jdel (fs : List (String × JValue)) (k : String) : List (String × JValue) :=
  match fs with
  | [] => []
  | (k2, v2) :: rest => if k2 = k then rest else (k2, v2) :: jdel rest k

/-- Go `_, ok := m[k]` (presence, regardless of the stored value). -/
def jhas (fs : List (String × JValue)) (k : String) : Bool :=
  (jget fs k).isSome

/-- Go type assertion `x.(map[string]any)`. -/
def asObj : JValue → Option (List (String × JValue))
  | .obj fs => some fs
  | _ => none

/-- Go type assertion `x.([]any)`.  Fails on `[]string` (`strArr`). -/
def asArr : JValue → Option (List JValue)
  | .arr xs => some xs
  | _ => none

/-- Go type assertion `x.(string)`. -/
def asStr : JValue → Option String
  | .str s => some s
  | _ => none

end JValue

mutual
/-- Computable structural size of a `JValue` (fuel bound for the recursive
schema transformations). -/
def jsize : JValue → Nat
  | .null => 1
  | .bool _ => 1
  | .num _ => 1
  | .str _ => 1
  | .strArr _ => 1
  | .arr xs => 1 + jsizeL xs
  | .obj fs => 1 + jsizeF fs
/-- Size of a list of `JValue`s. -/
def jsizeL : List JValue → Nat
  | [] => 0
  | x :: xs => 1 + jsize x + jsizeL xs
/-- Size of an association list of `JValue`s. -/
def jsizeF : List (String × JValue) → Nat
  | [] => 0
  | (_, v) :: fs => 1 + jsize v + jsizeF fs
end

open JValue

/-! ### Tool-schema sanitizer (src/tools_validator.go)

`isValidParamName`, `transformParamName`, `transformPropertySchema`,
`transformProperties`, `transformParameters` and `validateAndTransformTools`
are transcribed from `src/tools_validator.go`.  The memoization caches
(`validatedToolsCache`, `paramTransformCache`) only store previously computed
results and are omitted; the embedding is the underlying pure transformation.
Logging is omitted.  Go byte lengths agree with character counts here because
only ASCII characters pass the name character class. -/

/-- `MaxParamNameLength` from src/tools_validator.go. -/
def MaxParamNameLength : Nat := 64

/-- A character allowed by `ParamNamePattern = ^[a-zA-Z0-9_.-]{1,64}$`. -/
def isAllowedNameChar (c : Char) : Bool :=
  (('a' ≤ c && c ≤ 'z') || ('A' ≤ c && c ≤ 'Z') || ('0' ≤ c && c ≤ '9')
    || c = '_' || c = '.' || c = '-')

/-- `isValidParamName`: length bound plus the regular expression
`^[a-zA-Z0-9_.-]{1,64}$`. -/
def isValidParamName (name : String) : Bool :=
  name.length ≤ MaxParamNameLength &&
    (1 ≤ name.length && name.length ≤ 64 && name.toList.all isAllowedNameChar)

/-- `transformParamName`: keep allowed characters (up to 64), fall back to
`"param"` when nothing is left, truncate to the length limit. -/
def transformParamName (name : String) : String :=
  let kept := String.mk ((name.toList.filter isAllowedNameChar).take MaxParamNameLength)
  let result := if kept = "" then "param" else kept
  String.mk (result.toList.take MaxParamNameLength)

/-- The `anyOf` hint list of `transformPropertySchema` (one hint per option
that is a map carrying a string `type`). -/
def anyOfHints (av : JValue) : List String :=
  match asArr av with
  | some opts =>
    opts.foldl (fun acc o =>
      match asObj o with
      | some om =>
        match (jget om "type").bind asStr with
        | some t =>
          acc ++ [if t = "null" then "empty string for null" else "provide as " ++ t]
        | none => acc
      | none => acc) []
  | none => []

/-- Result of the `anyOf` branch of `transformPropertySchema`. -/
def anyOfResult (av : JValue) : JValue :=
  let hints := anyOfHints av
  let d := if hints ≠ [] then
      "Multi-type field: " ++ String.intercalate " or " hints
    else
      "Multi-type field - provide as string (use 'null' for null values)"
  .obj [("type", .str "string"), ("description", .str d)]

/-- Result of the `oneOf` / `allOf` branches of `transformPropertySchema`. -/
def composerFallback (m : List (String × JValue)) (which : String) : JValue :=
  match jget m "description" with
  | some d => .obj [("type", .str "string"), ("description", d)]
  | none =>
    .obj [("type", .str "string"),
      ("description", .str ("Complex type (" ++ which ++ ") simplified to string"))]

/-- One property's part of the deep-nesting test of
`transformPropertySchema`: is this property a map of declared type
`object`? -/
def flattenInner (kv : String × JValue) : Bool :=
  match asObj kv.2 with
  | some wm =>
    match (jget wm "type").bind asStr with
    | some wt => wt = "object"
    | none => false
  | none => false

/-- The deep-nesting test of `transformPropertySchema`: the property schema
is a map of declared type `object` one of whose own properties is again of
declared type `object`. -/
def flattenCond (v : JValue) : Bool :=
  match asObj v with
  | none => false
  | some vm =>
    match (jget vm "type").bind asStr with
    | some t =>
      if t = "object" then
        match (jget vm "properties").bind asObj with
        | some nps => nps.any flattenInner
        | none => false
      else false
    | none => false

/-- Replacement schema for a deeply nested object property. -/
def nestedStringSchema (validName : String) : JValue :=
  .obj [("type", .str "string"),
    ("description", .str ("Nested object for " ++ validName ++ " - provide as JSON string"))]

/-- One iteration of the property loop inside the `object` case of
`transformPropertySchema`, with the recursive call abstracted as `f`. -/
def innerStep (f : JValue → JValue) (acc : List (String × JValue))
    (kv : String × JValue) : List (String × JValue) :=
  let validName := if isValidParamName kv.1 then kv.1 else transformParamName kv.1
  if isValidParamName validName then
    jset acc validName (if flattenCond kv.2 then nestedStringSchema validName else f kv.2)
  else acc

/-- The property loop inside the `object` case of `transformPropertySchema`,
with the recursive call abstracted as `f`. -/
def innerProps (f : JValue → JValue) (props : List (String × JValue)) :
    List (String × JValue) :=
  props.foldl (innerStep f) []

/-- The `required` filtering of the nested `object` case. -/
def validReqList (reqs : List JValue) : List String :=
  reqs.foldl (fun acc x =>
    match asStr x with
    | some rStr =>
      let validName := if isValidParamName rStr then rStr else transformParamName rStr
      if isValidParamName validName then acc ++ [validName] else acc
    | none => acc) []

/-- The scalar keywords copied verbatim by `transformPropertySchema`. -/
def scalarKeys : List String :=
  ["description", "enum", "pattern", "minimum", "maximum", "minLength",
    "maxLength", "minItems", "maxItems"]

/-- The `format` values the sanitizer keeps. -/
def allowedFormat (f : String) : Bool :=
  f = "email" || f = "uri" || f = "date" || f = "date-time"

/-- One iteration of the scalar-keyword copy loop of
`transformPropertySchema`. -/
def scalarStep (acc : List (String × JValue)) (kv : String × JValue) :
    List (String × JValue) :=
  if scalarKeys.contains kv.1 then jset acc kv.1 kv.2
  else if kv.1 = "format" then
    match asStr kv.2 with
    | some f => if allowedFormat f then jset acc kv.1 kv.2 else acc
    | none => acc
  else acc

/-- The scalar-keyword copy loop at the end of `transformPropertySchema`. -/
def copyScalars (m r : List (String × JValue)) : List (String × JValue) :=
  m.foldl scalarStep r

/-- The final `enum` copy of `transformPropertySchema`. -/
def copyEnum (m r : List (String × JValue)) : List (String × JValue) :=
  match jget m "enum" with
  | some e => jset r "enum" e
  | none => r

/-- The `object` case of `transformPropertySchema` (recursive call abstracted
as `f`; `r` already holds the `type` key). -/
def objectBranch (f : JValue → JValue) (m r : List (String × JValue)) :
    List (String × JValue) :=
  match (jget m "properties").bind asObj with
  | some props =>
    if props.length > 15 then
      jset (jset r "type" (.str "string")) "description"
        (.str "Complex object with many properties - provide as JSON string")
    else
      let r1 := jset r "type" (.str "object")
      let r2 := jset r1 "properties" (.obj (innerProps f props))
      let r3 := match (jget m "required").bind asArr with
        | some reqs =>
          let vr := validReqList reqs
          if vr ≠ [] then jset r2 "required" (.strArr vr) else r2
        | none => r2
      jset r3 "additionalProperties" (.bool false)
  | none =>
    jset (jset r "type" (.str "string")) "description"
      (.str "Object without properties - provide as JSON string")

/-- The `array` case of `transformPropertySchema`. -/
def arrayBranch (m r : List (String × JValue)) : List (String × JValue) :=
  let r1 := jset r "type" (.str "array")
  let items : JValue := match jget m "items" with
    | some it =>
      match asObj it with
      | some itm =>
        match jget itm "type" with
        | some t => .obj [("type", t)]
        | none => .obj [("type", .str "string")]
      | none => .obj [("type", .str "string")]
    | none => .obj [("type", .str "string")]
  jset r1 "items" items

/-- The initial result of the non-composer path of
`transformPropertySchema`: the copied (or defaulted) `type`. -/
def typeBase (m : List (String × JValue)) : List (String × JValue) :=
  match jget m "type" with
  | some t => [("type", t)]
  | none => [("type", .str "string")]

/-- The `switch` of `transformPropertySchema` on the declared type. -/
def tpsCore (f : JValue → JValue) (m : List (String × JValue)) :
    List (String × JValue) :=
  match (jget (typeBase m) "type").bind asStr with
  | some t =>
    if t = "object" then objectBranch f m (typeBase m)
    else if t = "array" then arrayBranch m (typeBase m)
    else typeBase m
  | none => typeBase m

/-- One unfolding of `transformPropertySchema`, with the recursive call
abstracted as `f`. -/
def tpsStep (f : JValue → JValue) (s : JValue) : JValue :=
  match asObj s with
  | none => .obj [("type", .str "string")]
  | some m =>
    if jhas m "anyOf" then anyOfResult ((jget m "anyOf").getD .null)
    else if jhas m "oneOf" then composerFallback m "oneOf"
    else if jhas m "allOf" then composerFallback m "allOf"
    else .obj (copyEnum m (copyScalars m (tpsCore f m)))

/-- Fuelled recursion for `transformPropertySchema`; `jsize` fuel always
suffices (`tps_eq` below). -/
def tpsFuel : Nat → JValue → JValue
  | 0, _ => .obj [("type", .str "string")]
  | Nat.succ n, s => tpsStep (tpsFuel n) s

/-- `transformPropertySchema` from src/tools_validator.go (the error return is
always nil in the source, so the embedding is total). -/
def transformPropertySchema (s : JValue) : JValue :=
  tpsFuel (jsize s) s

/-- One iteration of the `transformProperties` loop. -/
def topStep (acc : List (String × JValue)) (kv : String × JValue) :
    List (String × JValue) :=
  let validName := if isValidParamName kv.1 then kv.1 else transformParamName kv.1
  if isValidParamName validName then
    jset acc validName (transformPropertySchema kv.2)
  else acc

/-- `transformProperties` from src/tools_validator.go (its error path is dead:
`transformPropertySchema` never fails). -/
def transformProperties (properties : List (String × JValue)) :
    List (String × JValue) :=
  properties.foldl topStep []

/-- Description of the synthetic `data` parameter of the extreme-simplification
branch of `transformParameters`. -/
def dataDescription (n : Nat) : String :=
  "Provide all " ++ toString n ++
    " required fields as a single JSON string. Example: \x7b\"field1\":\"value1\",\"field2\":\"value2\"\x7d"

/-- One iteration of the "add first 5 original parameters" loop of the
extreme-simplification branch of `transformParameters`. -/
def collapseStep (st : List (String × JValue) × List String × Nat)
    (kv : String × JValue) : List (String × JValue) × List String × Nat :=
  if st.2.2 ≥ 5 then st
  else
    let validName := if isValidParamName kv.1 then kv.1 else transformParamName kv.1
    if isValidParamName validName then
      (jset st.1 validName (transformPropertySchema kv.2),
        st.2.1 ++ [validName], st.2.2 + 1)
    else st

/-- The "add first 5 original parameters" loop of the extreme-simplification
branch of `transformParameters`: returns updated properties and the list of
added names. -/
def collapseExtras (props : List (String × JValue))
    (start : List (String × JValue)) :
    List (String × JValue) × List String :=
  let st := props.foldl collapseStep (start, [], 0)
  (st.1, st.2.1)

/-- One iteration of the top-level `required` loop of
`transformParameters`: keep valid names, rename salvageable invalid names
(moving the property binding to the new name when one exists), drop the
rest. -/
def reqFold (st : List String × List (String × JValue)) (x : JValue) :
    List String × List (String × JValue) :=
  match asStr x with
  | some reqStr =>
    if isValidParamName reqStr then (st.1 ++ [reqStr], st.2)
    else
      let t := transformParamName reqStr
      if t ≠ reqStr && isValidParamName t then
        let renamed := match (jget st.2 "properties").bind asObj with
          | some props =>
            match jget props reqStr with
            | some originalProp =>
              jset st.2 "properties" (.obj (jset (jdel props reqStr) t originalProp))
            | none => st.2
          | none => st.2
        (st.1 ++ [t], renamed)
      else st
  | none => st

/-- The synthetic `data` parameter schema of the extreme-simplification
branch of `transformParameters`. -/
def dataParamSchema (n : Nat) : JValue :=
  .obj [("type", .str "string"), ("description", .str (dataDescription n))]

/-- The `type` copy of `transformParameters` from src/tools_validator.go
(`transformParameters` below assembles the stages; `none` is Go's nil
parameter map).  The `paramTransformCache` memoization only stores previous
results of this same transformation and is omitted.  Note the `required`
handling in `tpReqStage`: the result stores `required` as a Go `[]string`
(`strArr`), while the reading side asserts `[]any` (`asArr`), which fails
on `strArr`. -/
def tpTypeStage (m : List (String × JValue)) : List (String × JValue) :=
  match jget m "type" with
  | some t => [("type", t)]
  | none => []

/-- The `properties` handling of `transformParameters` (collapse branch for
more than 15 properties, plain transformation otherwise). -/
def tpPropsStage (m r0 : List (String × JValue)) : List (String × JValue) :=
  match (jget m "properties").bind asObj with
  | some props =>
    if props.length > 15 then
      let dataProps : List (String × JValue) :=
        [("data", dataParamSchema props.length)]
      let pa := collapseExtras props dataProps
      jset (jset r0 "properties" (.obj pa.1)) "required"
        (.strArr ("data" :: pa.2))
    else jset r0 "properties" (.obj (transformProperties props))
  | none => r0

/-- The top-level `required` handling of `transformParameters`. -/
def tpReqStage (m r1 : List (String × JValue)) : List (String × JValue) :=
  match (jget m "required").bind asArr with
  | some reqs =>
    let st := reqs.foldl reqFold ([], r1)
    if st.1 ≠ [] then jset st.2 "required" (.strArr st.1) else st.2
  | none => r1

/-- See `tpTypeStage`, `tpPropsStage`, `tpReqStage`; assembles the whole
function. -/
def transformParameters (params : Option (List (String × JValue))) :
    List (String × JValue) :=
  match params with
  | none =>
    [("type", .str "object"), ("properties", .obj []),
      ("additionalProperties", .bool false)]
  | some m =>
    jset (tpReqStage m (tpPropsStage m (tpTypeStage m)))
      "additionalProperties" (.bool false)

/-! Erasure of `required` keys along schema positions (top level and
`properties` values, recursively).  This is the exact damage a second
sanitizer pass inflicts on a first pass's output: the first pass stores
`required` as `[]string`, which the second pass's `[]any` type assertion
rejects. -/

/-- One level of `required`-erasure: drop the `required` key of a schema
object and recurse (via `f`) into the values of its `properties` map. -/
def eraseReqFieldsWith (f : JValue → JValue) (m : List (String × JValue)) :
    List (String × JValue) :=
  (m.filter (fun kv => kv.1 != "required")).map (fun kv =>
    if kv.1 = "properties" then
      (kv.1, match kv.2 with
        | .obj ps => .obj (ps.map (fun pv => (pv.1, f pv.2)))
        | v => v)
    else kv)

/-- One unfolding of `eraseRequiredSchema`. -/
def eraseReqStep (f : JValue → JValue) : JValue → JValue
  | .obj m => .obj (eraseReqFieldsWith f m)
  | v => v

/-- Fuelled recursion for `eraseRequiredSchema`. -/
def eraseReqFuel : Nat → JValue → JValue
  | 0, s => s
  | Nat.succ n, s => eraseReqStep (eraseReqFuel n) s

/-- Remove every `required` entry at a schema position of a schema value. -/
def eraseRequiredSchema (s : JValue) : JValue :=
  eraseReqFuel (jsize s) s

/-- Remove every `required` entry at a schema position of a parameters map. -/
def eraseRequiredParams (m : List (String × JValue)) : List (String × JValue) :=
  eraseReqFieldsWith eraseRequiredSchema m

/-- Are the keys of an association list pairwise distinct? -/
def keysDistinct : List (String × JValue) → Bool
  | [] => true
  | kv :: rest => !(rest.any (fun kv2 => kv2.1 = kv.1)) && keysDistinct rest

/-- An entry the scalar-copy loop can produce: a scalar keyword with any
value, or `format` with an allowed string value. -/
def tailEntry (kv : String × JValue) : Bool :=
  scalarKeys.contains kv.1 ||
    (kv.1 = "format" &&
      (match asStr kv.2 with
       | some f => allowedFormat f
       | none => false))

/-- The shape of the scalar tail appended by `copyScalars`/`copyEnum`. -/
def tailShaped (t : List (String × JValue)) : Bool :=
  t.all tailEntry && keysDistinct t

/-- One unfolding of the schema-closedness check used for the amended C2:
at a schema node, no composer key survives among the node's own keys; the
keys of its `properties` map (when present) are valid parameter names and
its `additionalProperties` is the literal `false`; the check recurses into
the property schemas and the `items` schema.  Verbatim-copied annotation
values (`enum`, `pattern`, numeric bounds, a non-string `type`, ...) are not
schema positions and are not inspected.  `closedPropsPart` is the
`properties` clause of that check. -/
def closedPropsPart (f : JValue → Bool) (m : List (String × JValue)) : Bool :=
  match jget m "properties" with
  | some pv =>
    match pv with
    | .obj ps =>
      ps.all (fun kv => isValidParamName kv.1 && f kv.2) &&
      (match jget m "additionalProperties" with
       | some (.bool false) => true
       | _ => false)
    | _ => false
  | none => true

/-- The `items` recursion of the schema-closedness check. -/
def closedItemsPart (f : JValue → Bool) (m : List (String × JValue)) : Bool :=
  match jget m "items" with
  | some it => f it
  | none => true

/-- See `closedPropsPart`; assembles the whole one-level check. -/
def closedStep (f : JValue → Bool) : JValue → Bool
  | .obj m =>
    !(jhas m "anyOf") && !(jhas m "oneOf") && !(jhas m "allOf") &&
    closedPropsPart f m && closedItemsPart f m
  | _ => true

/-- Fuelled recursion for `closedSchema`. -/
def closedFuel : Nat → JValue → Bool
  | 0, _ => false
  | Nat.succ n, s => closedStep (closedFuel n) s

/-- Schema closedness (amended C2) of a schema value. -/
def closedSchema (s : JValue) : Bool :=
  closedFuel (jsize s) s

/-- One unfolding of the literal C2 claim's predicate: *no* `anyOf` /
`oneOf` / `allOf` key at *any* nesting level, every key of *any*
`properties` map is a valid parameter name, and every map of declared type
`object` carries `additionalProperties: false`; the scan descends into every
value. -/
def claimClosedStep (f : JValue → Bool) : JValue → Bool
  | .obj m =>
    !(jhas m "anyOf") && !(jhas m "oneOf") && !(jhas m "allOf") &&
    (match jget m "properties" with
     | some (.obj ps) => ps.all (fun kv => isValidParamName kv.1)
     | _ => true) &&
    (match (jget m "type").bind asStr with
     | some t =>
       if t = "object" then
         match jget m "additionalProperties" with
         | some (.bool false) => true
         | _ => false
       else true
     | none => true) &&
    m.all (fun kv => f kv.2)
  | .arr xs => xs.all f
  | _ => true

/-- Fuelled recursion for `claimClosed`. -/
def claimClosedFuel : Nat → JValue → Bool
  | 0, _ => false
  | Nat.succ n, s => claimClosedStep (claimClosedFuel n) s

/-- The literal C2 claim's predicate on a value. -/
def claimClosed (s : JValue) : Bool :=
  claimClosedFuel (jsize s) s

/-- `ToolFunction` from src/main.go: name, description and the JSON-schema
parameters map (`none` models a nil map). -/
structure ToolFunction where
  name : String
  description : String
  parameters : Option (List (String × JValue))

/-- `Tool` from src/main.go. -/
structure Tool where
  type : String
  function : ToolFunction

/-- One iteration of `validateAndTransformTools` from
src/tools_validator.go: drop a tool with an invalid name, transform the
parameters otherwise.  The `validatedToolsCache` memoization is omitted (it
only replays previous results of this transformation). -/
def vttStep (acc : List Tool) (t : Tool) : List Tool :=
  if isValidParamName t.function.name then
    acc ++ [{ type := t.type,
              function := { name := t.function.name,
                            description := t.function.description,
                            parameters := some (transformParameters t.function.parameters) } }]
  else acc

/-- See `vttStep`; the whole loop. -/
def validateAndTransformTools (tools : List Tool) : List Tool :=
  tools.foldl vttStep []

/-- `required`-erasure lifted to tools (damage of a second sanitizer pass). -/
def eraseRequiredTools (tools : List Tool) : List Tool :=
  tools.map (fun t =>
    { type := t.type,
      function := { name := t.function.name,
                    description := t.function.description,
                    parameters := match t.function.parameters with
                      | some p => some (eraseRequiredParams p)
                      | none => none } })

/-- A concrete tool whose schema declares `required: ["x"]` (a JSON array,
decoded as `[]any`). -/
def reqDropTool : Tool :=
  ⟨"function", ⟨"mytool", "demo",
    some [("type", .str "object"),
      ("properties", .obj [("x", .obj [("type", .str "string")])]),
      ("required", .arr [.str "x"])]⟩⟩

/-- A concrete tool whose sanitized schema still carries an `anyOf` inside a
verbatim-copied `enum` value, an invalid property name inside that same
`enum` value, and an `items` object schema without `additionalProperties`. -/
def leakyTool : Tool :=
  ⟨"function", ⟨"leaky", "demo",
    some [("type", .str "object"),
      ("properties", .obj [
        ("a", .obj [("type", .str "array"),
          ("items", .obj [("type", .str "object")])]),
        ("b", .obj [("type", .str "string"),
          ("enum", .arr [.obj [("anyOf", .arr []),
            ("properties", .obj [("bad name!", .null)]),
            ("type", .str "object")]])])])]⟩⟩

/-! ### Stream assembler (src/response_handler.go)

`processJetbrainsStream` feeds each decoded upstream event to a handler and
stops when the handler returns false.  An upstream event is a JSON map tagged
by `type`; the embedding models the decoded fields directly.  In the source,
a missing / null / non-string `name` and an empty-string `name` take the same
continuation branch, so `name` is a plain `String` with `""` for all of them;
a missing `content` behaves like `""` in every branch.  Random ids
(`generateShortToolCallID`) and timestamps do not influence the claims and
are not modelled. -/

/-- Decoded upstream stream event (`Content`, `ToolCall`, `FunctionCall`,
`FinishMetadata`, anything else ignored). -/
inductive JBEvent where
  | content (s : String) : JBEvent
  | toolCall (name args : String) : JBEvent
  | functionCall (name args : String) : JBEvent
  | finishMetadata : JBEvent
  | other : JBEvent
  deriving DecidableEq, Repr

/-- A frame written to the client by the streaming handler.  `contentChunk
withRole c` is a chunk whose delta is `{role:"assistant", content:c}` when
`withRole` is true and `{content:c}` otherwise; `toolCallChunk` is the
tool-call delta chunk; `finishChunk r` is the terminal chunk with empty delta
and `finish_reason` `r`; `doneFrame` is the literal `data: [DONE]` frame. -/
inductive JBChunk where
  | contentChunk (withRole : Bool) (c : String) : JBChunk
  | toolCallChunk (name args : String) : JBChunk
  | finishChunk (reason : String) : JBChunk
  | doneFrame : JBChunk
  deriving DecidableEq, Repr

/-- State of `handleStreamingResponse`: whether the role-bearing chunk was
sent, and the current partial tool call (name, accumulated arguments). -/
structure StreamState where
  firstChunkSent : Bool
  currentTool : Option (String × String)
  deriving DecidableEq, Repr

/-- One event step of `handleStreamingResponse`
(src/response_handler.go, lines 61-187): returns emitted chunks, the next
state, and whether to keep reading. -/
def streamStep (st : StreamState) : JBEvent → List JBChunk × StreamState × Bool
  | .content c =>
    if c = "" then ([], st, true)
    else if st.firstChunkSent then ([.contentChunk false c], st, true)
    else ([.contentChunk true c], { st with firstChunkSent := true }, true)
  | .toolCall name args =>
    if name ≠ "" then ([], { st with currentTool := some (name, "") }, true)
    else
      match st.currentTool with
      | some (n, a) => ([], { st with currentTool := some (n, a ++ args) }, true)
      | none => ([], st, true)
  | .functionCall name args =>
    if name ≠ "" then ([], { st with currentTool := some (name, "") }, true)
    else
      match st.currentTool with
      | some (n, a) => ([], { st with currentTool := some (n, a ++ args) }, true)
      | none => ([], st, true)
  | .finishMetadata =>
    ((match st.currentTool with
      | some (n, a) => [JBChunk.toolCallChunk n a]
      | none => []) ++ [JBChunk.finishChunk "tool_calls", JBChunk.doneFrame],
      st, false)
  | .other => ([], st, true)

/-- Drive `streamStep` over the event list, stopping when the step says so
(`processJetbrainsStream`). -/
def streamRun (st : StreamState) : List JBEvent → List JBChunk × StreamState
  | [] => ([], st)
  | e :: es =>
    match streamStep st e with
    | (out, st2, true) => (out ++ (streamRun st2 es).1, (streamRun st2 es).2)
    | (out, st2, false) => (out, st2)

/-- All frames `handleStreamingResponse` writes for an upstream event list. -/
def streamChunks (es : List JBEvent) : List JBChunk :=
  (streamRun ⟨false, none⟩ es).1

/-- State of `handleNonStreamingResponse`: accumulated content parts, current
function name and arguments, collected tool calls, and whether the stream is
finished. -/
structure NonStreamState where
  contentParts : List String
  currentFuncName : String
  currentFuncArgs : String
  toolCalls : List (String × String)
  deriving DecidableEq, Repr

/-- One event step of `handleNonStreamingResponse`
(src/response_handler.go, lines 199-255): note that a named `ToolCall` event
resets the arguments and ignores its own `content`, while a named
`FunctionCall` event resets the arguments and then appends its `content`. -/
def nonStreamStep (st : NonStreamState) : JBEvent → NonStreamState × Bool
  | .content c => ({ st with contentParts := st.contentParts ++ [c] }, true)
  | .toolCall name args =>
    if name ≠ "" then ({ st with currentFuncName := name, currentFuncArgs := "" }, true)
    else ({ st with currentFuncArgs := st.currentFuncArgs ++ args }, true)
  | .functionCall name args =>
    if name ≠ "" then
      ({ st with currentFuncName := name, currentFuncArgs := args }, true)
    else ({ st with currentFuncArgs := st.currentFuncArgs ++ args }, true)
  | .finishMetadata =>
    (if st.currentFuncName ≠ "" then
      { st with toolCalls := st.toolCalls ++ [(st.currentFuncName, st.currentFuncArgs)] }
    else st, false)
  | .other => (st, true)

/-- Drive `nonStreamStep` over the event list. -/
def nonStreamRun (st : NonStreamState) : List JBEvent → NonStreamState
  | [] => st
  | e :: es =>
    match nonStreamStep st e with
    | (st2, true) => nonStreamRun st2 es
    | (st2, false) => st2

/-- Final state of `handleNonStreamingResponse` on an upstream event list. -/
def nonStreamFinal (es : List JBEvent) : NonStreamState :=
  nonStreamRun ⟨[], "", "", []⟩ es

/-- Concatenation of a list of strings (Go `strings.Join(l, "")` and the
concatenation of a `strings.Builder`). -/
def concatAll : List String → String
  | [] => ""
  | s :: rest => s ++ concatAll rest

/-- The `content` string of the non-streaming response
(`strings.Join(contentParts, "")` via `strings.Builder`). -/
def nonStreamContent (es : List JBEvent) : String :=
  concatAll (nonStreamFinal es).contentParts

/-- The `finish_reason` of the non-streaming response. -/
def nonStreamFinishReason (es : List JBEvent) : String :=
  if (nonStreamFinal es).toolCalls ≠ [] then "tool_calls" else "stop"

/-! Specification-side views of an event stream, used to state the assembler
claims. -/

/-- Is the event the `FinishMetadata` terminator? -/
def isFinish : JBEvent → Bool
  | .finishMetadata => true
  | _ => false

/-- The events the assembler actually processes: everything before the first
`FinishMetadata` (the handler stops there). -/
def processedEvents (es : List JBEvent) : List JBEvent :=
  es.takeWhile (fun e => !isFinish e)

/-- Whether a `FinishMetadata` event is reached. -/
def finishReached (es : List JBEvent) : Bool :=
  es.any isFinish

/-- Concatenated `content` of all `Content` events of a list. -/
def contentOfEvents (es : List JBEvent) : String :=
  concatAll (es.map (fun e => match e with
    | .content c => c
    | _ => ""))

/-- The `content` payloads of the `Content` events of a list, in order. -/
def eventContents (es : List JBEvent) : List String :=
  es.filterMap (fun e => match e with
    | .content c => some c
    | _ => none)

/-- Concatenated `content` of the content chunks of an output frame list. -/
def contentOfChunks (cs : List JBChunk) : String :=
  concatAll (cs.map (fun c => match c with
    | .contentChunk _ s => s
    | _ => ""))

/-- Tool-call chunks of an output frame list, as (name, arguments) pairs. -/
def toolCallsOfChunks (cs : List JBChunk) : List (String × String) :=
  cs.filterMap (fun c => match c with
    | .toolCallChunk n a => some (n, a)
    | _ => none)

/-- The claim's reconstruction rule, "an event with a non-empty name begins a
new call and a nameless event appends to the current call's arguments": the
list of calls with the opening event's content seeding the arguments. -/
def reconCalls (es : List JBEvent) : List (String × String) :=
  es.foldl (fun acc e =>
    match e with
    | .toolCall name args =>
      if name ≠ "" then acc ++ [(name, args)]
      else
        match acc.getLast? with
        | some (n, a) => acc.dropLast ++ [(n, a ++ args)]
        | none => acc
    | .functionCall name args =>
      if name ≠ "" then acc ++ [(name, args)]
      else
        match acc.getLast? with
        | some (n, a) => acc.dropLast ++ [(n, a ++ args)]
        | none => acc
    | _ => acc) []

/-- One step of the reconstruction the non-streaming handler actually
performs: only one current call survives; a named `FunctionCall` keeps its own
content as the argument seed, a named `ToolCall` drops it; nameless events
append to the current call. -/
def nsReconStep (acc : Option (String × String)) : JBEvent → Option (String × String)
  | .toolCall name args =>
    if name ≠ "" then some (name, "")
    else
      match acc with
      | some na => some (na.1, na.2 ++ args)
      | none => none
  | .functionCall name args =>
    if name ≠ "" then some (name, args)
    else
      match acc with
      | some na => some (na.1, na.2 ++ args)
      | none => none
  | _ => acc

/-- The non-streaming handler's surviving call for an event list. -/
def reconLastNS (es : List JBEvent) : Option (String × String) :=
  es.foldl nsReconStep none

/-- One step of the reconstruction the streaming handler performs: only one
current call survives and the content of the opening event is always
dropped. -/
def streamReconStep (acc : Option (String × String)) : JBEvent → Option (String × String)
  | .toolCall name args =>
    if name ≠ "" then some (name, "")
    else
      match acc with
      | some na => some (na.1, na.2 ++ args)
      | none => none
  | .functionCall name args =>
    if name ≠ "" then some (name, "")
    else
      match acc with
      | some na => some (na.1, na.2 ++ args)
      | none => none
  | _ => acc

/-- The streaming handler's surviving call for an event list. -/
def reconLastStream (es : List JBEvent) : Option (String × String) :=
  es.foldl streamReconStep none

/-- Does a chunk's delta carry `role:"assistant"`? -/
def isRoleChunk : JBChunk → Bool
  | .contentChunk withRole _ => withRole
  | _ => false

/-- The first non-empty `Content` payload of an event list. -/
def firstContent (es : List JBEvent) : Option String :=
  es.findSome? (fun e =>
    match e with
    | .content c => if c ≠ "" then some c else none
    | _ => none)

/-- The claim of C3 instantiated at one event list: chunk content equals the
content of all `Content` events, and the emitted tool calls are, as a set,
the calls reconstructed by the claim's rule. -/
def assemblerClaimAt (es : List JBEvent) : Prop :=
  contentOfChunks (streamChunks es) = contentOfEvents es ∧
    nonStreamContent es = contentOfEvents es ∧
    (∀ c, c ∈ toolCallsOfChunks (streamChunks es) ↔ c ∈ reconCalls es) ∧
    (∀ c, c ∈ (nonStreamFinal es).toolCalls ↔ c ∈ reconCalls es)

/-! ### Message translator (src/converter.go, first variant, lines 1-115,
and src/utils.go)

`ChatMessage.content` is the decoded Go `interface{}` (string, array of
content blocks, or nil = `JValue.null`).  External collaborators that are not
part of the translation logic are passed as parameters: `canonJson` is the
sonic JSON parse-then-serialize round-trip used to re-canonicalize tool-call
arguments (`none` = parse error, in which case the source keeps the original
string), and `validateImage` is the `ImageValidator.ValidateImageData` check
(its implementation is not under src/). -/

/-- A tool call attached to an assistant message (`ToolCall` from
src/main.go, flattened to the fields the translator reads). -/
structure ToolCallItem where
  id : String
  name : String
  args : String
  deriving DecidableEq, Repr

/-- `ChatMessage` from src/main.go (fields the translator reads). -/
structure ChatMessage where
  role : String
  content : JValue
  toolCalls : List ToolCallItem
  toolCallID : String

/-- `extractTextContent` from src/utils.go: a string passes through, an array
contributes the `text` of each `\x7btype:"text"\x7d` block joined by single
spaces, anything else becomes the empty string. -/
def extractTextContent : JValue → String
  | .str s => s
  | .arr items =>
    String.intercalate " " (items.filterMap (fun item =>
      match asObj item with
      | some im =>
        match (jget im "type").bind asStr with
        | some t =>
          if t = "text" then (jget im "text").bind asStr else none
        | none => none
      | none => none))
  | _ => ""

/-- Modelled from the spec: `ExtractImageDataFromContent` (its implementation
is not under src/).  Per §4.4, a user message "with image" carries an image
blob with a declared media type; text-only content carries none.  The model
reports an image for the first `image_url`/`image` block of a content array
and returns its declared media type and base64 data. -/
def extractImageDataFromContent (content : JValue) : String × String × Bool :=
  match content with
  | .arr items =>
    match items.findSome? (fun item =>
      match asObj item with
      | some im =>
        match (jget im "type").bind asStr with
        | some t =>
          if t = "image_url" || t = "image" then
            some (((jget im "media_type").bind asStr).getD "",
              ((jget im "data").bind asStr).getD "")
          else none
        | none => none
      | none => none) with
    | some md => (md.1, md.2, true)
    | none => ("", "", false)
  | _ => ("", "", false)

/-- Upstream (v8) message variants emitted by src/converter.go. -/
inductive JetbrainsMessage where
  | user_message (content : String) : JetbrainsMessage
  | system_message (content : String) : JetbrainsMessage
  | assistant_message_text (content : String) : JetbrainsMessage
  | assistant_message_tool (id toolName content : String) : JetbrainsMessage
  | tool_message (id toolName result : String) : JetbrainsMessage
  | media_message (mediaType data : String) : JetbrainsMessage
  deriving DecidableEq, Repr

/-- Go `map[string]string` write. -/
def ssetS (m : List (String × String)) (k v : String) : List (String × String) :=
  match m with
  | [] => [(k, v)]
  | (k2, v2) :: rest => if k2 = k then (k2, v) :: rest else (k2, v2) :: ssetS rest k v

/-- Go `map[string]string` read (zero value `""` when absent). -/
def sgetS (m : List (String × String)) (k : String) : String :=
  match m with
  | [] => ""
  | (k2, v) :: rest => if k2 = k then v else sgetS rest k

/-- `openAIToJetbrainsMessages` from src/converter.go (first variant): the
prescan builds the tool-call-id → function-name map, then each message is
translated according to its role. -/
def openAIToJetbrainsMessages (canonJson : String → Option String)
    (validateImage : String → String → Bool)
    (messages : List ChatMessage) : List JetbrainsMessage :=
  let toolMap := messages.foldl (fun m msg =>
    if msg.role = "assistant" then
      msg.toolCalls.foldl (fun m tc =>
        if tc.id ≠ "" && tc.name ≠ "" then ssetS m tc.id tc.name else m) m
    else m) []
  messages.foldl (fun out msg =>
    let textContent := extractTextContent msg.content
    if msg.role = "user" then
      let ei := extractImageDataFromContent msg.content
      if ei.2.2 then
        if validateImage ei.1 ei.2.1 then
          (out ++ [.media_message ei.1 ei.2.1]) ++
            (if textContent ≠ "" then [.user_message textContent] else [])
        else out ++ [.user_message textContent]
      else out ++ [.user_message textContent]
    else if msg.role = "system" then out ++ [.system_message textContent]
    else if msg.role = "assistant" then
      match msg.toolCalls with
      | [] => out ++ [.assistant_message_text textContent]
      | tc :: _ =>
        let args := match canonJson tc.args with
          | some c => c
          | none => tc.args
        out ++ [.assistant_message_tool tc.id tc.name args]
    else if msg.role = "tool" then
      let functionName := sgetS toolMap msg.toolCallID
      if functionName ≠ "" then
        out ++ [.tool_message msg.toolCallID functionName textContent]
      else out
    else out ++ [.user_message textContent]) []

/-- Content made of text blocks with the given texts (the shape of the C5
claim: "content is an array of text blocks"). -/
def textBlocksContent (ts : List String) : JValue :=
  .arr (ts.map (fun t => .obj [("type", .str "text"), ("text", .str t)]))

/-! ### Quota probe (src/jetbrains_api.go)

`extractQuotaUsage` reads `current.current.amount` and
`current.maximum.amount` as decimal strings; `processQuotaData` replaces a
zero maximum by 1 and sets the has-quota flag to `used < max`.  Go parses the
strings with `strconv.ParseFloat`; the embedding parses plain decimal
notation (optionally signed, optional fraction, optional exponent) into exact
decimals.  (`ParseFloat` additionally accepts `inf`/`nan`/hex literals and
rounds to float64; the claims do not depend on those.) -/

/-- Digits to a natural number. -/
def digitsToNat (ds : List Char) : Nat :=
  ds.foldl (fun n c => n * 10 + (c.toNat - '0'.toNat)) 0

/-- An exact decimal number: the value is `num * 10 ^ exp10`.  This models a
parsed float64 amount exactly (decimal strings of practical size are exact;
float64 rounding of extreme literals is not modelled). -/
structure Decimal where
  num : Int
  exp10 : Int
  deriving DecidableEq, Repr

/-- Is the decimal zero (Go `dailyTotal == 0`)? -/
def decIsZero (a : Decimal) : Bool := a.num = 0

/-- Exact order on decimals (Go `<` on the parsed amounts): compare after
scaling both to the smaller exponent. -/
def decLt (a b : Decimal) : Bool :=
  let m := min a.exp10 b.exp10
  a.num * 10 ^ (a.exp10 - m).toNat < b.num * 10 ^ (b.exp10 - m).toNat

/-- The decimal one (Go `dailyTotal = 1`). -/
def decOne : Decimal := ⟨1, 0⟩

/-- The decimal zero (Go's zero-valued `float64`). -/
def decZero : Decimal := ⟨0, 0⟩

/-- Parse a decimal literal (model of `strconv.ParseFloat`; `inf`/`nan`/hex
literals are rejected rather than parsed). -/
def parseDecimal (s : String) : Option Decimal :=
  let cs := s.toList
  let sp : Int × List Char := match cs with
    | '-' :: rest => (-1, rest)
    | '+' :: rest => (1, rest)
    | _ => (1, cs)
  let ip := sp.2.takeWhile Char.isDigit
  let cs2 := sp.2.dropWhile Char.isDigit
  let fr : List Char × List Char := match cs2 with
    | '.' :: rest => (rest.takeWhile Char.isDigit, rest.dropWhile Char.isDigit)
    | _ => ([], cs2)
  if ip.length + fr.1.length = 0 then none
  else
    let mant : Int := sp.1 * (digitsToNat (ip ++ fr.1) : Int)
    let frexp : Int := -(fr.1.length : Int)
    match fr.2 with
    | [] => some ⟨mant, frexp⟩
    | e :: rest =>
      if e = 'e' || e = 'E' then
        let es : Bool × List Char := match rest with
          | '-' :: r2 => (true, r2)
          | '+' :: r2 => (false, r2)
          | _ => (false, rest)
        let ed := es.2.takeWhile Char.isDigit
        let rest3 := es.2.dropWhile Char.isDigit
        if ed ≠ [] ∧ rest3 = [] then
          let ex : Int := if es.1 then -(digitsToNat ed : Int) else (digitsToNat ed : Int)
          some ⟨mant, frexp + ex⟩
        else none
      else none

/-- `extractQuotaUsage` from src/jetbrains_api.go: returns
(dailyUsed, dailyTotal), each 0.0 when missing or unparseable. -/
def extractQuotaUsage (quotaData : List (String × JValue)) : Decimal × Decimal :=
  match (jget quotaData "current").bind asObj with
  | some current =>
    let used : Decimal := match ((jget current "current").bind asObj) with
      | some cu =>
        match (jget cu "amount").bind asStr with
        | some s =>
          match parseDecimal s with
          | some v => v
          | none => decZero
        | none => decZero
      | none => decZero
    let total : Decimal := match ((jget current "maximum").bind asObj) with
      | some mx =>
        match (jget mx "amount").bind asStr with
        | some s =>
          match parseDecimal s with
          | some v => v
          | none => decZero
        | none => decZero
      | none => decZero
    (used, total)
  | none => (decZero, decZero)

/-- The has-quota flag `processQuotaData` stores on the account:
`dailyTotal` of 0 is replaced by 1 ("avoid division by zero"), then
`HasQuota = dailyUsed < dailyTotal`. -/
def processQuotaDataHasQuota (quotaData : List (String × JValue)) : Bool :=
  let ut := extractQuotaUsage quotaData
  let total := if decIsZero ut.2 then decOne else ut.2
  decLt ut.1 total

/-- The C6 claim's has-quota value: the plain truth value of `used < max`. -/
def claimHasQuota (quotaData : List (String × JValue)) : Bool :=
  let ut := extractQuotaUsage quotaData
  decLt ut.1 ut.2

/-! ### TTL+LRU cache (src/cache.go)

The doubly-linked LRU list plus map is modelled as one list in MRU-first
order with unique keys; `moveToFront` is remove-then-cons.  Time is a `Nat`
(UnixNano); `Set` stores `now + duration` as the expiration.  The claims are
about keys, sizes and expirations, so the model is parametric in the stored
value type. -/

/-- `LRUCache`: capacity plus the MRU-first item list (key, value,
expiration). -/
structure LRUCacheModel (α : Type) where
  capacity : Nat
  items : List (String × α × Nat)

/-- `NewCache` generalized over the capacity (the source fixes 1000; the
background sweeper is a memory-hygiene goroutine with no effect on the
operations modelled here). -/
def newCache (α : Type) (capacity : Nat) : LRUCacheModel α :=
  ⟨capacity, []⟩

/-- `LRUCache.Set`: update-and-promote an existing key, else insert at MRU
and evict the LRU entry when over capacity. -/
def lruSet {α : Type} (c : LRUCacheModel α) (key : String) (value : α)
    (now dur : Nat) : LRUCacheModel α :=
  if c.items.any (fun it => it.1 = key) then
    { c with items := (key, value, now + dur) :: c.items.filter (fun it => it.1 ≠ key) }
  else
    let items1 := (key, value, now + dur) :: c.items
    if items1.length > c.capacity then { c with items := items1.dropLast }
    else { c with items := items1 }

/-- `LRUCache.Get`: a missing or expired key is a miss (an expired entry is
not promoted); a hit promotes the entry to MRU. -/
def lruGet {α : Type} (c : LRUCacheModel α) (now : Nat) (key : String) :
    Option α × LRUCacheModel α :=
  match c.items.find? (fun it => it.1 = key) with
  | none => (none, c)
  | some it =>
    if now > it.2.2 then (none, c)
    else (some it.2.1,
      { c with items := (it.1, it.2.1, it.2.2) :: c.items.filter (fun j => j.1 ≠ key) })

/-- Apply a list of `Set` calls (key, value, now, duration). -/
def lruApplySets {α : Type} (calls : List (String × α × Nat × Nat))
    (c : LRUCacheModel α) : LRUCacheModel α :=
  calls.foldl (fun c call => lruSet c call.1 call.2.1 call.2.2.1 call.2.2.2) c

/-! ### Client authentication (src/handlers.go `authenticateClient`; the
copy in src/main.go is identical)

`validClientKeys` is a `map[string]bool` holding `true` for every configured
key; it is modelled as the list of configured keys.  `c.GetHeader` returns
`""` for an absent header, so header presence is modelled as non-emptiness. -/

/-- Outcome of the authentication middleware. -/
inductive AuthOutcome where
  | pass : AuthOutcome
  | unavailable503 : AuthOutcome
  | forbidden403 : AuthOutcome
  | unauthorized401 : AuthOutcome
  deriving DecidableEq, Repr

/-- Go `strings.TrimPrefix(authHeader, "Bearer ")`. -/
def bearerToken (authHeader : String) : String :=
  if authHeader.toList.take 7 = "Bearer ".toList then
    String.mk (authHeader.toList.drop 7)
  else authHeader

/-- `authenticateClient` from src/handlers.go. -/
def authenticateClient (validClientKeys : List String)
    (authHeader xApiKey : String) : AuthOutcome :=
  if validClientKeys = [] then .unavailable503
  else if xApiKey ≠ "" then
    if validClientKeys.contains xApiKey then .pass else .forbidden403
  else if authHeader ≠ "" then
    if validClientKeys.contains (bearerToken authHeader) then .pass
    else .forbidden403
  else .unauthorized401

/-! ### Request statistics (src/main.go `recordRequest`)

Counters are Go int64; they are modelled as unbounded integers (the claims
do not involve wraparound, which would need about 9.2e18 calls).  The wall
timestamps (`time.Now`) do not influence the claim and are omitted from the
record. -/

/-- `RequestRecord` from src/main.go (minus the timestamp). -/
structure RequestRecord where
  success : Bool
  responseTime : Int
  model : String
  account : String
  deriving DecidableEq, Repr

/-- `RequestStats` from src/main.go (aggregate counters and history). -/
structure RequestStats where
  totalRequests : Int
  successfulRequests : Int
  failedRequests : Int
  totalResponseTime : Int
  requestHistory : List RequestRecord
  deriving DecidableEq, Repr

/-- The zero-valued stats the process starts with. -/
def initialStats : RequestStats := ⟨0, 0, 0, 0, []⟩

/-- `recordRequest` from src/main.go: bump the counters, append the record,
trim the history to the last 1000 entries. -/
def recordRequest (st : RequestStats) (success : Bool) (responseTime : Int)
    (model account : String) : RequestStats :=
  let st1 := { st with
    totalRequests := st.totalRequests + 1,
    totalResponseTime := st.totalResponseTime + responseTime }
  let st2 :=
    if success then { st1 with successfulRequests := st1.successfulRequests + 1 }
    else { st1 with failedRequests := st1.failedRequests + 1 }
  let hist := st2.requestHistory ++
    [⟨success, responseTime, model, account⟩]
  { st2 with requestHistory := if hist.length > 1000 then hist.drop 1 else hist }

/-- A call trace folded through `recordRequest` from the initial state. -/
def runRequests (calls : List (Bool × Int × String × String)) : RequestStats :=
  calls.foldl (fun st c => recordRequest st c.1 c.2.1 c.2.2.1 c.2.2.2) initialStats

/-- The records a call trace generates, in order. -/
def recordsOf (calls : List (Bool × Int × String × String)) : List RequestRecord :=
  calls.map (fun c => ⟨c.1, c.2.1, c.2.2.1, c.2.2.2⟩)

/-- The C7 scenario on a capacity-3 cache: `Set(a), Set(b), Set(c)`, then
`Get(a)` at a time before any expiry. -/
def lruAfterGetA : LRUCacheModel Nat :=
  (lruGet (lruApplySets [("a", 0, 0, 100), ("b", 0, 0, 100), ("c", 0, 0, 100)]
    (newCache Nat 3)) 0 "a").2

/-- The C7 scenario final state: ... then `Set(d)`. -/
def lruScenFinal : LRUCacheModel Nat :=
  lruSet lruAfterGetA "d" 0 0 100


/-! ## Theorems -/

/-! ### C7: cache LRU eviction with promotion, and the size bound -/

theorem lruSet_capacity {α : Type} (c : LRUCacheModel α) (k : String) (v : α)
    (now dur : Nat) : (lruSet c k v now dur).capacity = c.capacity := by
  unfold lruSet
  split
  · rfl
  · dsimp only
    split <;> rfl

theorem filter_ne_length_lt {α : Type} (l : List (String × α)) (k : String)
    (h : l.any (fun it => it.1 = k) = true) :
    (l.filter (fun it => it.1 ≠ k)).length < l.length := by
  induction l with
  | nil => simp at h
  | cons x xs ih =>
    simp only [List.any_cons, Bool.or_eq_true] at h
    by_cases hx : x.1 = k
    · have hle : (xs.filter (fun it => decide (it.1 ≠ k))).length ≤ xs.length :=
        List.length_filter_le _ _
      simp [List.filter_cons, hx] at hle ⊢
      omega
    · rcases h with h1 | h2
      · exact absurd (by simpa using h1) hx
      · have hlt := ih h2
        simp [List.filter_cons, hx] at hlt ⊢
        omega

theorem lruSet_length_le {α : Type} (c : LRUCacheModel α) (k : String) (v : α)
    (now dur : Nat) (h : c.items.length ≤ c.capacity) :
    (lruSet c k v now dur).items.length ≤ c.capacity := by
  unfold lruSet
  split
  · rename_i hany
    dsimp only
    have hlt : (c.items.filter (fun it => it.1 ≠ k)).length < c.items.length :=
      filter_ne_length_lt c.items k hany
    simp only [List.length_cons]
    omega
  · dsimp only
    split
    · rename_i hgt
      simp only [List.length_dropLast, List.length_cons]
      omega
    · rename_i hng
      simp only [List.length_cons] at hng ⊢
      omega

theorem lruApplySets_bound {α : Type} (calls : List (String × α × Nat × Nat)) :
    ∀ (c : LRUCacheModel α), c.items.length ≤ c.capacity →
      (lruApplySets calls c).items.length ≤ (lruApplySets calls c).capacity := by
  induction calls with
  | nil => intro c h; simpa [lruApplySets] using h
  | cons call rest ih =>
    intro c h
    have h1 : (lruSet c call.1 call.2.1 call.2.2.1 call.2.2.2).items.length ≤
        (lruSet c call.1 call.2.1 call.2.2.1 call.2.2.2).capacity := by
      rw [lruSet_capacity]
      exact lruSet_length_le c _ _ _ _ h
    have := ih (lruSet c call.1 call.2.1 call.2.2.1 call.2.2.2) h1
    simpa [lruApplySets, List.foldl_cons] using this

/-- C7: on a capacity-3 cache, `Set(a), Set(b), Set(c), Get(a), Set(d)` (all
unexpired) evicts exactly `b` — `a` survives because `Get(a)` promoted it —
leaving exactly the keys d, a, c (MRU first); and after any sequence of `Set`
calls on a cache of any capacity, the number of entries never exceeds the
capacity. -/
theorem lru_eviction_scen_and_bound :
    (lruScenFinal.items.map (fun it => it.1) = ["d", "a", "c"] ∧
      lruAfterGetA.items.map (fun it => it.1) = ["a", "c", "b"]) ∧
    ∀ (α : Type) (cap : Nat) (calls : List (String × α × Nat × Nat)),
      (lruApplySets calls (newCache α cap)).items.length ≤ cap := by
  constructor
  · constructor <;> rfl
  · intro α cap calls
    have h := lruApplySets_bound calls (newCache α cap) (by simp [newCache])
    have hcap : ∀ (cs : List (String × α × Nat × Nat)) (c : LRUCacheModel α),
        (lruApplySets cs c).capacity = c.capacity := by
      intro cs
      induction cs with
      | nil => intro c; rfl
      | cons call rest ih =>
        intro c
        have h1 := ih (lruSet c call.1 call.2.1 call.2.2.1 call.2.2.2)
        have h2 := lruSet_capacity c call.1 call.2.1 call.2.2.1 call.2.2.2
        simp only [lruApplySets, List.foldl_cons] at h1 ⊢
        rw [h1, h2]
    rw [hcap calls (newCache α cap)] at h
    exact h

/-! ### C8: client authentication outcome -/

/-- C8: with no configured keys every request gets 503; otherwise a non-empty
`x-api-key` alone decides (pass iff known, 403 otherwise, regardless of the
Authorization header); otherwise a non-empty Authorization header's Bearer
token decides; with neither header the request gets 401. -/
theorem authenticateClient_spec (keys : List String) (authHeader xApiKey : String) :
    (keys = [] → authenticateClient keys authHeader xApiKey = .unavailable503) ∧
    (keys ≠ [] → xApiKey ≠ "" →
      authenticateClient keys authHeader xApiKey =
        (if keys.contains xApiKey then .pass else .forbidden403)) ∧
    (keys ≠ [] → xApiKey = "" → authHeader ≠ "" →
      authenticateClient keys authHeader xApiKey =
        (if keys.contains (bearerToken authHeader) then .pass else .forbidden403)) ∧
    (keys ≠ [] → xApiKey = "" → authHeader = "" →
      authenticateClient keys authHeader xApiKey = .unauthorized401) := by
  refine ⟨?_, ?_, ?_, ?_⟩
  · intro hk
    simp [authenticateClient, hk]
  · intro hk hx
    simp [authenticateClient, hk, hx]
  · intro hk hx ha
    simp [authenticateClient, hk, hx, ha]
  · intro hk hx ha
    simp [authenticateClient, hk, hx, ha]

theorem authenticateClient_spec_witness :
    authenticateClient ["k1"] "Bearer other" "zz" = .forbidden403 ∧
    authenticateClient ["k1"] "Bearer k1" "" = .pass ∧
    authenticateClient [] "Bearer k1" "" = .unavailable503 ∧
    authenticateClient ["k1"] "" "" = .unauthorized401 := by
  refine ⟨?_, ?_, ?_, ?_⟩
  · have h := (authenticateClient_spec ["k1"] "Bearer other" "zz").2.1
      (by decide) (by decide)
    rw [h]
    rfl
  · have h := (authenticateClient_spec ["k1"] "Bearer k1" "").2.2.1
      (by decide) (by decide) (by decide)
    rw [h]
    rfl
  · exact (authenticateClient_spec [] "Bearer k1" "").1 rfl
  · exact (authenticateClient_spec ["k1"] "" "").2.2.2 (by decide) rfl rfl

/-! ### C9: stats bookkeeping invariant -/

theorem recordRequest_counters (st : RequestStats) (success : Bool)
    (rt : Int) (model account : String) :
    (recordRequest st success rt model account).totalRequests = st.totalRequests + 1 ∧
    (recordRequest st success rt model account).successfulRequests +
      (recordRequest st success rt model account).failedRequests =
      st.successfulRequests + st.failedRequests + 1 ∧
    (recordRequest st success rt model account).totalResponseTime =
      st.totalResponseTime + rt := by
  unfold recordRequest
  cases success <;> simp <;> omega

theorem recordRequest_step_history (st : RequestStats) (success : Bool)
    (rt : Int) (model account : String) :
    (recordRequest st success rt model account).requestHistory =
      (if (st.requestHistory ++
            [(⟨success, rt, model, account⟩ : RequestRecord)]).length > 1000 then
        (st.requestHistory ++
          [(⟨success, rt, model, account⟩ : RequestRecord)]).drop 1
      else st.requestHistory ++
        [(⟨success, rt, model, account⟩ : RequestRecord)]) := by
  unfold recordRequest
  cases success <;> rfl

theorem history_trim_step (rec : List RequestRecord) (r : RequestRecord)
    (hist : List RequestRecord) (h3 : hist = rec.drop (rec.length - 1000)) :
    (if (hist ++ [r]).length > 1000 then (hist ++ [r]).drop 1 else hist ++ [r]) =
      (rec ++ [r]).drop ((rec ++ [r]).length - 1000) := by
  rw [h3]
  by_cases hc : rec.length ≥ 1000
  · have hdroplen : (rec.drop (rec.length - 1000)).length = 1000 := by
      rw [List.length_drop]
      omega
    have hgt : (rec.drop (rec.length - 1000) ++ [r]).length > 1000 := by
      simp [hdroplen]
    rw [if_pos hgt]
    have h1000 : 1 ≤ (rec.drop (rec.length - 1000)).length := by omega
    rw [List.drop_append_of_le_length h1000, List.drop_drop]
    have harith : rec.length - 1000 + 1 = (rec ++ [r]).length - 1000 := by
      simp only [List.length_append, List.length_cons, List.length_nil]
      omega
    rw [harith]
    have hidx : (rec ++ [r]).length - 1000 ≤ rec.length := by
      simp only [List.length_append, List.length_cons, List.length_nil]
      omega
    rw [List.drop_append_of_le_length hidx]
  · have hlen : (rec.drop (rec.length - 1000)).length = rec.length := by
      rw [List.length_drop]
      omega
    have hng : ¬ (rec.drop (rec.length - 1000) ++ [r]).length > 1000 := by
      simp only [List.length_append, hlen, List.length_cons, List.length_nil]
      omega
    rw [if_neg hng]
    have hz1 : rec.length - 1000 = 0 := by omega
    have hz2 : (rec ++ [r]).length - 1000 = 0 := by
      simp only [List.length_append, List.length_cons, List.length_nil]
      omega
    rw [hz1, hz2, List.drop_zero, List.drop_zero]

theorem stats_aux (calls : List (Bool × Int × String × String)) :
    ∀ (st : RequestStats) (rec : List RequestRecord),
      st.totalRequests = st.successfulRequests + st.failedRequests →
      st.totalResponseTime = (rec.map (fun r => r.responseTime)).sum →
      st.requestHistory = rec.drop (rec.length - 1000) →
      (calls.foldl (fun st c => recordRequest st c.1 c.2.1 c.2.2.1 c.2.2.2) st).totalRequests =
          (calls.foldl (fun st c => recordRequest st c.1 c.2.1 c.2.2.1 c.2.2.2) st).successfulRequests +
          (calls.foldl (fun st c => recordRequest st c.1 c.2.1 c.2.2.1 c.2.2.2) st).failedRequests ∧
        (calls.foldl (fun st c => recordRequest st c.1 c.2.1 c.2.2.1 c.2.2.2) st).totalResponseTime =
          ((rec ++ recordsOf calls).map (fun r => r.responseTime)).sum ∧
        (calls.foldl (fun st c => recordRequest st c.1 c.2.1 c.2.2.1 c.2.2.2) st).requestHistory =
          (rec ++ recordsOf calls).drop ((rec ++ recordsOf calls).length - 1000) := by
  induction calls with
  | nil =>
    intro st rec h1 h2 h3
    simpa [recordsOf] using ⟨h1, h2, h3⟩
  | cons c rest ih =>
    intro st rec h1 h2 h3
    have hc := recordRequest_counters st c.1 c.2.1 c.2.2.1 c.2.2.2
    have hstep1 : (recordRequest st c.1 c.2.1 c.2.2.1 c.2.2.2).totalRequests =
        (recordRequest st c.1 c.2.1 c.2.2.1 c.2.2.2).successfulRequests +
        (recordRequest st c.1 c.2.1 c.2.2.1 c.2.2.2).failedRequests := by
      rw [hc.1, hc.2.1, h1]
    have hstep2 : (recordRequest st c.1 c.2.1 c.2.2.1 c.2.2.2).totalResponseTime =
        ((rec ++ [(⟨c.1, c.2.1, c.2.2.1, c.2.2.2⟩ : RequestRecord)]).map
          (fun x => x.responseTime)).sum := by
      rw [hc.2.2, h2]
      simp
    have hstep3 : (recordRequest st c.1 c.2.1 c.2.2.1 c.2.2.2).requestHistory =
        (rec ++ [(⟨c.1, c.2.1, c.2.2.1, c.2.2.2⟩ : RequestRecord)]).drop
          ((rec ++ [(⟨c.1, c.2.1, c.2.2.1, c.2.2.2⟩ : RequestRecord)]).length - 1000) := by
      rw [recordRequest_step_history]
      exact history_trim_step rec _ _ h3
    have hres := ih (recordRequest st c.1 c.2.1 c.2.2.1 c.2.2.2)
      (rec ++ [(⟨c.1, c.2.1, c.2.2.1, c.2.2.2⟩ : RequestRecord)]) hstep1 hstep2 hstep3
    simpa [recordsOf, List.append_assoc] using hres

/-- C9: after every `recordRequest` trace, `TotalRequests` equals
`SuccessfulRequests + FailedRequests`, `TotalResponseTime` is the sum of all
recorded response times, and the request history holds at most 1000 records,
dropping the oldest first when the bound is exceeded. -/
theorem recordRequest_invariants (calls : List (Bool × Int × String × String)) :
    (runRequests calls).totalRequests =
        (runRequests calls).successfulRequests + (runRequests calls).failedRequests ∧
      (runRequests calls).totalResponseTime =
        ((recordsOf calls).map (fun r => r.responseTime)).sum ∧
      (runRequests calls).requestHistory.length ≤ 1000 ∧
      (runRequests calls).requestHistory =
        (recordsOf calls).drop ((recordsOf calls).length - 1000) := by
  have h := stats_aux calls initialStats [] rfl rfl rfl
  simp only [List.nil_append] at h
  have hlen : (runRequests calls).requestHistory.length ≤ 1000 := by
    have h3 : (runRequests calls).requestHistory =
        (recordsOf calls).drop ((recordsOf calls).length - 1000) := h.2.2
    rw [h3, List.length_drop]
    omega
  exact ⟨h.1, h.2.1, hlen, h.2.2⟩

/-! ### C4: streaming content passthrough — terminal chunk (code bug) -/

/-- C4 evaluation at the claim's input: for upstream
`Content "hel", Content "lo", FinishMetadata` the streaming handler emits the
two content chunks exactly as the claim expects (first with the role, second
without), followed by `data: [DONE]` — but the terminal chunk's
`finish_reason` is the hard-coded `"tool_calls"`, not `"stop"`. -/
theorem streaming_finish_reason_eval :
    streamChunks [.content "hel", .content "lo", .finishMetadata] =
      [.contentChunk true "hel", .contentChunk false "lo",
        .finishChunk "tool_calls", .doneFrame] ∧
    ("tool_calls" : String) ≠ "stop" := by
  exact ⟨rfl, by decide⟩

/-! ### C10: empty content deltas are suppressed -/

theorem streamRun_cons_cont {st : StreamState} {e : JBEvent}
    {out : List JBChunk} {st2 : StreamState}
    (h : streamStep st e = (out, st2, true)) (es : List JBEvent) :
    streamRun st (e :: es) =
      (out ++ (streamRun st2 es).1, (streamRun st2 es).2) := by
  simp [streamRun, h]

theorem streamRun_cons_stop {st : StreamState} {e : JBEvent}
    {out : List JBChunk} {st2 : StreamState}
    (h : streamStep st e = (out, st2, false)) (es : List JBEvent) :
    streamRun st (e :: es) = (out, st2) := by
  simp [streamRun, h]

theorem streamStep_silent (st : StreamState) (e : JBEvent)
    (he : (∃ n a, e = .toolCall n a) ∨ (∃ n a, e = .functionCall n a) ∨ e = .other) :
    ∃ st2, streamStep st e = ([], st2, true) ∧
      st2.firstChunkSent = st.firstChunkSent := by
  rcases he with ⟨n, a, rfl⟩ | ⟨n, a, rfl⟩ | rfl
  · by_cases hn : n = ""
    · cases hct : st.currentTool with
      | none => exact ⟨st, by simp [streamStep, hn, hct], rfl⟩
      | some na =>
        exact ⟨{ st with currentTool := some (na.1, na.2 ++ a) },
          by simp [streamStep, hn, hct], rfl⟩
    · exact ⟨{ st with currentTool := some (n, "") }, by simp [streamStep, hn], rfl⟩
  · by_cases hn : n = ""
    · cases hct : st.currentTool with
      | none => exact ⟨st, by simp [streamStep, hn, hct], rfl⟩
      | some na =>
        exact ⟨{ st with currentTool := some (na.1, na.2 ++ a) },
          by simp [streamStep, hn, hct], rfl⟩
    · exact ⟨{ st with currentTool := some (n, "") }, by simp [streamStep, hn], rfl⟩
  · exact ⟨st, rfl, rfl⟩

theorem processedEvents_cons_skip (e : JBEvent) (h : isFinish e = false)
    (es : List JBEvent) : processedEvents (e :: es) = e :: processedEvents es := by
  simp [processedEvents, List.takeWhile, h]

theorem processedEvents_cons_finish (es : List JBEvent) :
    processedEvents (.finishMetadata :: es) = [] := rfl

theorem firstContent_cons_content (c : String) (es : List JBEvent) :
    firstContent (.content c :: es) =
      (if c ≠ "" then some c else firstContent es) := by
  by_cases hc : c = "" <;> simp [firstContent, List.findSome?, hc]

theorem firstContent_cons_other (e : JBEvent)
    (h : ∀ c, e ≠ .content c) (es : List JBEvent) :
    firstContent (e :: es) = firstContent es := by
  cases e with
  | content c => exact absurd rfl (h c)
  | toolCall n a => simp [firstContent, List.findSome?]
  | functionCall n a => simp [firstContent, List.findSome?]
  | finishMetadata => simp [firstContent, List.findSome?]
  | other => simp [firstContent, List.findSome?]

theorem streamRun_elim_empty (es1 : List JBEvent) :
    ∀ (st : StreamState) (es2 : List JBEvent),
      streamRun st (es1 ++ .content "" :: es2) = streamRun st (es1 ++ es2) := by
  induction es1 with
  | nil =>
    intro st es2
    simp only [List.nil_append]
    have hstep : streamStep st (.content "") = ([], st, true) := by
      simp [streamStep]
    rw [streamRun_cons_cont hstep]
    simp
  | cons e rest ih =>
    intro st es2
    simp only [List.cons_append]
    rcases hstep : streamStep st e with ⟨out, st2, cont⟩
    cases cont with
    | true =>
      rw [streamRun_cons_cont hstep, streamRun_cons_cont hstep, ih]
    | false =>
      rw [streamRun_cons_stop hstep, streamRun_cons_stop hstep]

theorem streamRun_role_chunks (es : List JBEvent) :
    ∀ (st : StreamState),
      ((streamRun st es).1.filter isRoleChunk) =
        (if st.firstChunkSent then []
         else
           match firstContent (processedEvents es) with
           | some c => [.contentChunk true c]
           | none => []) := by
  induction es with
  | nil =>
    intro st
    simp only [streamRun, List.filter_nil, processedEvents, List.takeWhile_nil]
    by_cases hf : st.firstChunkSent <;> simp [hf, firstContent]
  | cons e rest ih =>
    intro st
    cases e with
    | content c =>
      by_cases hc : c = ""
      · subst hc
        have hstep : streamStep st (.content "") = ([], st, true) := by
          simp [streamStep]
        rw [streamRun_cons_cont hstep]
        simp only [List.nil_append]
        rw [ih st, processedEvents_cons_skip _ (by simp [isFinish]),
          firstContent_cons_content]
        simp
      · by_cases hf : st.firstChunkSent
        · have hstep : streamStep st (.content c) =
              ([.contentChunk false c], st, true) := by
            simp [streamStep, hc, hf]
          rw [streamRun_cons_cont hstep]
          simp only [List.filter_append]
          rw [ih st]
          simp [isRoleChunk, hf]
        · have hstep : streamStep st (.content c) =
              ([.contentChunk true c], { st with firstChunkSent := true }, true) := by
            simp [streamStep, hc, hf]
          rw [streamRun_cons_cont hstep]
          simp only [List.filter_append]
          rw [ih { st with firstChunkSent := true }]
          rw [processedEvents_cons_skip _ (by simp [isFinish]),
            firstContent_cons_content]
          simp [isRoleChunk, hf, hc]
    | toolCall name args =>
      obtain ⟨st2, hstep, hfcs⟩ := streamStep_silent st (.toolCall name args)
        (Or.inl ⟨name, args, rfl⟩)
      rw [streamRun_cons_cont hstep]
      simp only [List.nil_append]
      rw [ih st2, hfcs,
        processedEvents_cons_skip _ (by simp [isFinish]),
        firstContent_cons_other _ (by intro c h; cases h)]
    | functionCall name args =>
      obtain ⟨st2, hstep, hfcs⟩ := streamStep_silent st (.functionCall name args)
        (Or.inr (Or.inl ⟨name, args, rfl⟩))
      rw [streamRun_cons_cont hstep]
      simp only [List.nil_append]
      rw [ih st2, hfcs,
        processedEvents_cons_skip _ (by simp [isFinish]),
        firstContent_cons_other _ (by intro c h; cases h)]
    | finishMetadata =>
      have hstep : streamStep st .finishMetadata =
          ((match st.currentTool with
            | some na => [JBChunk.toolCallChunk na.1 na.2]
            | none => []) ++ [JBChunk.finishChunk "tool_calls", JBChunk.doneFrame],
            st, false) := by
        cases hct : st.currentTool <;> simp [streamStep, hct]
      rw [streamRun_cons_stop hstep]
      have hchunks : (((match st.currentTool with
          | some na => [JBChunk.toolCallChunk na.1 na.2]
          | none => []) ++ [JBChunk.finishChunk "tool_calls", JBChunk.doneFrame],
            st) : List JBChunk × StreamState).1.filter isRoleChunk = [] := by
        cases hct : st.currentTool <;> simp [hct, isRoleChunk]
      rw [hchunks, processedEvents_cons_finish]
      by_cases hf : st.firstChunkSent <;> simp [hf, firstContent]
    | other =>
      obtain ⟨st2, hstep, hfcs⟩ := streamStep_silent st .other (Or.inr (Or.inr rfl))
      rw [streamRun_cons_cont hstep]
      simp only [List.nil_append]
      rw [ih st2, hfcs,
        processedEvents_cons_skip _ (by simp [isFinish]),
        firstContent_cons_other _ (by intro c h; cases h)]

/-- C10: an empty-content `Content` event produces no chunk at all and does
not trigger the role-bearing chunk (deleting it from the stream changes
nothing); and the unique role-carrying chunk is precisely the one produced by
the first `Content` event with non-empty content (none when there is no such
event before the stream ends). -/
theorem empty_content_suppressed :
    (∀ (es1 es2 : List JBEvent),
      streamChunks (es1 ++ .content "" :: es2) = streamChunks (es1 ++ es2)) ∧
    (∀ es : List JBEvent,
      (streamChunks es).filter isRoleChunk =
        (match firstContent (processedEvents es) with
         | some c => [.contentChunk true c]
         | none => [])) := by
  constructor
  · intro es1 es2
    unfold streamChunks
    rw [streamRun_elim_empty]
  · intro es
    unfold streamChunks
    rw [streamRun_role_chunks]
    simp

/-! ### C3: assembler stream equivalence -/

theorem concatAll_append (a b : List String) :
    concatAll (a ++ b) = concatAll a ++ concatAll b := by
  induction a with
  | nil => simp [concatAll]
  | cons x xs ih => simp [concatAll, ih, String.append_assoc]

theorem contentOfChunks_append (a b : List JBChunk) :
    contentOfChunks (a ++ b) = contentOfChunks a ++ contentOfChunks b := by
  unfold contentOfChunks
  rw [List.map_append, concatAll_append]

theorem contentOfEvents_eq_join (es : List JBEvent) :
    contentOfEvents es = concatAll (eventContents es) := by
  induction es with
  | nil => rfl
  | cons e rest ih =>
    cases e <;>
      simp only [contentOfEvents, eventContents, List.map_cons,
        List.filterMap_cons, concatAll] <;>
      simp only [contentOfEvents, eventContents] at ih <;>
      simp [concatAll, ih]

theorem streamRun_content (es : List JBEvent) :
    ∀ (st : StreamState),
      contentOfChunks (streamRun st es).1 = contentOfEvents (processedEvents es) := by
  induction es with
  | nil =>
    intro st
    simp [streamRun, contentOfChunks, processedEvents, contentOfEvents, concatAll]
  | cons e rest ih =>
    intro st
    cases e with
    | content c =>
      by_cases hc : c = ""
      · subst hc
        have hstep : streamStep st (.content "") = ([], st, true) := by
          simp [streamStep]
        rw [streamRun_cons_cont hstep]
        simp only [List.nil_append]
        rw [ih st, processedEvents_cons_skip _ (by simp [isFinish])]
        simp [contentOfEvents, concatAll]
      · by_cases hf : st.firstChunkSent
        · have hstep : streamStep st (.content c) =
              ([.contentChunk false c], st, true) := by
            simp [streamStep, hc, hf]
          rw [streamRun_cons_cont hstep, contentOfChunks_append, ih st,
            processedEvents_cons_skip _ (by simp [isFinish])]
          simp [contentOfChunks, contentOfEvents, concatAll]
        · have hstep : streamStep st (.content c) =
              ([.contentChunk true c], { st with firstChunkSent := true }, true) := by
            simp [streamStep, hc, hf]
          rw [streamRun_cons_cont hstep, contentOfChunks_append,
            ih { st with firstChunkSent := true },
            processedEvents_cons_skip _ (by simp [isFinish])]
          simp [contentOfChunks, contentOfEvents, concatAll]
    | toolCall name args =>
      obtain ⟨st2, hstep, _⟩ := streamStep_silent st (.toolCall name args)
        (Or.inl ⟨name, args, rfl⟩)
      rw [streamRun_cons_cont hstep]
      simp only [List.nil_append]
      rw [ih st2, processedEvents_cons_skip _ (by simp [isFinish])]
      simp [contentOfEvents, concatAll]
    | functionCall name args =>
      obtain ⟨st2, hstep, _⟩ := streamStep_silent st (.functionCall name args)
        (Or.inr (Or.inl ⟨name, args, rfl⟩))
      rw [streamRun_cons_cont hstep]
      simp only [List.nil_append]
      rw [ih st2, processedEvents_cons_skip _ (by simp [isFinish])]
      simp [contentOfEvents, concatAll]
    | finishMetadata =>
      have hstep : streamStep st .finishMetadata =
          ((match st.currentTool with
            | some na => [JBChunk.toolCallChunk na.1 na.2]
            | none => []) ++ [JBChunk.finishChunk "tool_calls", JBChunk.doneFrame],
            st, false) := by
        cases hct : st.currentTool <;> simp [streamStep, hct]
      rw [streamRun_cons_stop hstep, processedEvents_cons_finish]
      cases hct : st.currentTool <;>
        simp [hct, contentOfChunks, contentOfEvents, concatAll]
    | other =>
      obtain ⟨st2, hstep, _⟩ := streamStep_silent st .other (Or.inr (Or.inr rfl))
      rw [streamRun_cons_cont hstep]
      simp only [List.nil_append]
      rw [ih st2, processedEvents_cons_skip _ (by simp [isFinish])]
      simp [contentOfEvents, concatAll]

theorem finishReached_cons (e : JBEvent) (es : List JBEvent) :
    finishReached (e :: es) = (isFinish e || finishReached es) := by
  simp [finishReached, List.any_cons]

theorem toolCallsOfChunks_append (a b : List JBChunk) :
    toolCallsOfChunks (a ++ b) = toolCallsOfChunks a ++ toolCallsOfChunks b := by
  unfold toolCallsOfChunks
  rw [List.filterMap_append]

theorem streamStep_silent_tool (st : StreamState) (e : JBEvent)
    (he : (∃ n a, e = .toolCall n a) ∨ (∃ n a, e = .functionCall n a) ∨ e = .other) :
    ∃ st2, streamStep st e = ([], st2, true) ∧
      st2.firstChunkSent = st.firstChunkSent ∧
      st2.currentTool = streamReconStep st.currentTool e := by
  rcases he with ⟨n, a, rfl⟩ | ⟨n, a, rfl⟩ | rfl
  · by_cases hn : n = ""
    · cases hct : st.currentTool with
      | none =>
        exact ⟨st, by simp [streamStep, hn, hct], rfl, by simp [streamReconStep, hn, hct]⟩
      | some na =>
        exact ⟨{ st with currentTool := some (na.1, na.2 ++ a) },
          by simp [streamStep, hn, hct], rfl, by simp [streamReconStep, hn, hct]⟩
    · exact ⟨{ st with currentTool := some (n, "") },
        by simp [streamStep, hn], rfl, by simp [streamReconStep, hn]⟩
  · by_cases hn : n = ""
    · cases hct : st.currentTool with
      | none =>
        exact ⟨st, by simp [streamStep, hn, hct], rfl, by simp [streamReconStep, hn, hct]⟩
      | some na =>
        exact ⟨{ st with currentTool := some (na.1, na.2 ++ a) },
          by simp [streamStep, hn, hct], rfl, by simp [streamReconStep, hn, hct]⟩
    · exact ⟨{ st with currentTool := some (n, "") },
        by simp [streamStep, hn], rfl, by simp [streamReconStep, hn]⟩
  · exact ⟨st, rfl, rfl, by simp [streamReconStep]⟩

theorem streamRun_tools (es : List JBEvent) :
    ∀ (st : StreamState),
      toolCallsOfChunks (streamRun st es).1 =
        (if finishReached es then
          (match (processedEvents es).foldl streamReconStep st.currentTool with
           | some nc => [nc]
           | none => []) else []) := by
  induction es with
  | nil =>
    intro st
    simp [streamRun, toolCallsOfChunks, finishReached]
  | cons e rest ih =>
    intro st
    cases e with
    | content c =>
      by_cases hc : c = ""
      · have hstep : streamStep st (.content "") = ([], st, true) := by
          simp [streamStep]
        subst hc
        rw [streamRun_cons_cont hstep]
        simp only [List.nil_append]
        rw [ih st, finishReached_cons,
          processedEvents_cons_skip _ (by simp [isFinish])]
        simp [isFinish, streamReconStep, List.foldl_cons]
      · by_cases hf : st.firstChunkSent
        · have hstep : streamStep st (.content c) =
              ([.contentChunk false c], st, true) := by
            simp [streamStep, hc, hf]
          rw [streamRun_cons_cont hstep, toolCallsOfChunks_append]
          rw [ih st, finishReached_cons,
            processedEvents_cons_skip _ (by simp [isFinish])]
          simp [isFinish, toolCallsOfChunks, streamReconStep, List.foldl_cons]
        · have hstep : streamStep st (.content c) =
              ([.contentChunk true c], { st with firstChunkSent := true }, true) := by
            simp [streamStep, hc, hf]
          rw [streamRun_cons_cont hstep, toolCallsOfChunks_append]
          rw [ih { st with firstChunkSent := true }, finishReached_cons,
            processedEvents_cons_skip _ (by simp [isFinish])]
          simp [isFinish, toolCallsOfChunks, streamReconStep, List.foldl_cons]
    | toolCall name args =>
      obtain ⟨st2, hstep, _, htool⟩ := streamStep_silent_tool st (.toolCall name args)
        (Or.inl ⟨name, args, rfl⟩)
      rw [streamRun_cons_cont hstep]
      simp only [List.nil_append]
      rw [ih st2, htool, finishReached_cons,
        processedEvents_cons_skip _ (by simp [isFinish])]
      simp [isFinish, List.foldl_cons]
    | functionCall name args =>
      obtain ⟨st2, hstep, _, htool⟩ := streamStep_silent_tool st (.functionCall name args)
        (Or.inr (Or.inl ⟨name, args, rfl⟩))
      rw [streamRun_cons_cont hstep]
      simp only [List.nil_append]
      rw [ih st2, htool, finishReached_cons,
        processedEvents_cons_skip _ (by simp [isFinish])]
      simp [isFinish, List.foldl_cons]
    | finishMetadata =>
      have hstep : streamStep st .finishMetadata =
          ((match st.currentTool with
            | some na => [JBChunk.toolCallChunk na.1 na.2]
            | none => []) ++ [JBChunk.finishChunk "tool_calls", JBChunk.doneFrame],
            st, false) := by
        cases hct : st.currentTool <;> simp [streamStep, hct]
      rw [streamRun_cons_stop hstep, finishReached_cons, processedEvents_cons_finish]
      cases hct : st.currentTool <;>
        simp [hct, toolCallsOfChunks, isFinish]
    | other =>
      obtain ⟨st2, hstep, _, htool⟩ := streamStep_silent_tool st .other
        (Or.inr (Or.inr rfl))
      rw [streamRun_cons_cont hstep]
      simp only [List.nil_append]
      rw [ih st2, htool, finishReached_cons,
        processedEvents_cons_skip _ (by simp [isFinish])]
      simp [isFinish, List.foldl_cons]

theorem nonStreamRun_cons_cont {st : NonStreamState} {e : JBEvent}
    {st2 : NonStreamState} (h : nonStreamStep st e = (st2, true))
    (es : List JBEvent) : nonStreamRun st (e :: es) = nonStreamRun st2 es := by
  simp [nonStreamRun, h]

theorem nonStreamRun_cons_stop {st : NonStreamState} {e : JBEvent}
    {st2 : NonStreamState} (h : nonStreamStep st e = (st2, false))
    (es : List JBEvent) : nonStreamRun st (e :: es) = st2 := by
  simp [nonStreamRun, h]

theorem nonStreamStep_silent (st : NonStreamState) (e : JBEvent)
    (he : (∃ n a, e = .toolCall n a) ∨ (∃ n a, e = .functionCall n a) ∨ e = .other) :
    ∃ st2, nonStreamStep st e = (st2, true) ∧
      st2.contentParts = st.contentParts ∧ st2.toolCalls = st.toolCalls := by
  rcases he with ⟨n, a, rfl⟩ | ⟨n, a, rfl⟩ | rfl
  · by_cases hn : n = ""
    · exact ⟨{ st with currentFuncArgs := st.currentFuncArgs ++ a },
        by simp [nonStreamStep, hn], rfl, rfl⟩
    · exact ⟨{ st with currentFuncName := n, currentFuncArgs := "" },
        by simp [nonStreamStep, hn], rfl, rfl⟩
  · by_cases hn : n = ""
    · exact ⟨{ st with currentFuncArgs := st.currentFuncArgs ++ a },
        by simp [nonStreamStep, hn], rfl, rfl⟩
    · exact ⟨{ st with currentFuncName := n, currentFuncArgs := a },
        by simp [nonStreamStep, hn], rfl, rfl⟩
  · exact ⟨st, rfl, rfl, rfl⟩

theorem nonStreamRun_content_aux (es : List JBEvent) :
    ∀ (st : NonStreamState),
      (nonStreamRun st es).contentParts =
        st.contentParts ++ eventContents (processedEvents es) := by
  induction es with
  | nil =>
    intro st
    simp [nonStreamRun, processedEvents, eventContents]
  | cons e rest ih =>
    intro st
    cases e with
    | content c =>
      have hstep : nonStreamStep st (.content c) =
          ({ st with contentParts := st.contentParts ++ [c] }, true) := rfl
      rw [nonStreamRun_cons_cont hstep]
      rw [ih { st with contentParts := st.contentParts ++ [c] },
        processedEvents_cons_skip _ (by simp [isFinish])]
      simp [eventContents, List.filterMap_cons]
    | toolCall name args =>
      obtain ⟨st2, hstep, hcp, _⟩ := nonStreamStep_silent st (.toolCall name args)
        (Or.inl ⟨name, args, rfl⟩)
      rw [nonStreamRun_cons_cont hstep, ih st2, hcp,
        processedEvents_cons_skip _ (by simp [isFinish])]
      simp [eventContents, List.filterMap_cons]
    | functionCall name args =>
      obtain ⟨st2, hstep, hcp, _⟩ := nonStreamStep_silent st (.functionCall name args)
        (Or.inr (Or.inl ⟨name, args, rfl⟩))
      rw [nonStreamRun_cons_cont hstep, ih st2, hcp,
        processedEvents_cons_skip _ (by simp [isFinish])]
      simp [eventContents, List.filterMap_cons]
    | finishMetadata =>
      have hstep : nonStreamStep st .finishMetadata =
          ((if st.currentFuncName ≠ "" then
            { st with toolCalls := st.toolCalls ++
                [(st.currentFuncName, st.currentFuncArgs)] }
          else st), false) := rfl
      rw [nonStreamRun_cons_stop hstep, processedEvents_cons_finish]
      by_cases hn : st.currentFuncName = "" <;>
        simp [hn, eventContents, processedEvents]
    | other =>
      obtain ⟨st2, hstep, hcp, _⟩ := nonStreamStep_silent st .other
        (Or.inr (Or.inr rfl))
      rw [nonStreamRun_cons_cont hstep, ih st2, hcp,
        processedEvents_cons_skip _ (by simp [isFinish])]
      simp [eventContents, List.filterMap_cons]

theorem nonStreamRun_tools_aux (es : List JBEvent) :
    ∀ (st : NonStreamState) (acc : Option (String × String)),
      (if st.currentFuncName = "" then acc = none
       else acc = some (st.currentFuncName, st.currentFuncArgs)) →
      (nonStreamRun st es).toolCalls =
        st.toolCalls ++
          (if finishReached es then
            (match (processedEvents es).foldl nsReconStep acc with
             | some nc => [nc]
             | none => []) else []) := by
  induction es with
  | nil =>
    intro st acc hinv
    simp [nonStreamRun, finishReached]
  | cons e rest ih =>
    intro st acc hinv
    cases e with
    | content c =>
      have hstep : nonStreamStep st (.content c) =
          ({ st with contentParts := st.contentParts ++ [c] }, true) := rfl
      rw [nonStreamRun_cons_cont hstep]
      rw [ih { st with contentParts := st.contentParts ++ [c] } acc hinv,
        finishReached_cons, processedEvents_cons_skip _ (by simp [isFinish])]
      simp [isFinish, nsReconStep, List.foldl_cons]
    | toolCall name args =>
      by_cases hn : name = ""
      · subst hn
        have hstep : nonStreamStep st (.toolCall "" args) =
            ({ st with currentFuncArgs := st.currentFuncArgs ++ args }, true) := by
          simp [nonStreamStep]
        rw [nonStreamRun_cons_cont hstep]
        have hinv2 : (if ({ st with currentFuncArgs := st.currentFuncArgs ++ args } :
            NonStreamState).currentFuncName = "" then
              nsReconStep acc (.toolCall "" args) = none
            else nsReconStep acc (.toolCall "" args) =
              some (({ st with currentFuncArgs := st.currentFuncArgs ++ args } :
                NonStreamState).currentFuncName,
                ({ st with currentFuncArgs := st.currentFuncArgs ++ args } :
                NonStreamState).currentFuncArgs)) := by
          by_cases hm : st.currentFuncName = "" <;> simp [hm] at hinv ⊢ <;>
            simp [nsReconStep, hinv]
        rw [ih _ _ hinv2, finishReached_cons,
          processedEvents_cons_skip _ (by simp [isFinish])]
        simp [isFinish, List.foldl_cons]
      · have hstep : nonStreamStep st (.toolCall name args) =
            ({ st with currentFuncName := name, currentFuncArgs := "" }, true) := by
          simp [nonStreamStep, hn]
        rw [nonStreamRun_cons_cont hstep]
        have hinv2 : (if ({ st with currentFuncName := name, currentFuncArgs := "" } :
            NonStreamState).currentFuncName = "" then
              nsReconStep acc (.toolCall name args) = none
            else nsReconStep acc (.toolCall name args) =
              some (name, "")) := by
          simp [hn, nsReconStep]
        rw [ih _ _ hinv2, finishReached_cons,
          processedEvents_cons_skip _ (by simp [isFinish])]
        simp [isFinish, List.foldl_cons]
    | functionCall name args =>
      by_cases hn : name = ""
      · subst hn
        have hstep : nonStreamStep st (.functionCall "" args) =
            ({ st with currentFuncArgs := st.currentFuncArgs ++ args }, true) := by
          simp [nonStreamStep]
        rw [nonStreamRun_cons_cont hstep]
        have hinv2 : (if ({ st with currentFuncArgs := st.currentFuncArgs ++ args } :
            NonStreamState).currentFuncName = "" then
              nsReconStep acc (.functionCall "" args) = none
            else nsReconStep acc (.functionCall "" args) =
              some (({ st with currentFuncArgs := st.currentFuncArgs ++ args } :
                NonStreamState).currentFuncName,
                ({ st with currentFuncArgs := st.currentFuncArgs ++ args } :
                NonStreamState).currentFuncArgs)) := by
          by_cases hm : st.currentFuncName = "" <;> simp [hm] at hinv ⊢ <;>
            simp [nsReconStep, hinv]
        rw [ih _ _ hinv2, finishReached_cons,
          processedEvents_cons_skip _ (by simp [isFinish])]
        simp [isFinish, List.foldl_cons]
      · have hstep : nonStreamStep st (.functionCall name args) =
            ({ st with currentFuncName := name, currentFuncArgs := args }, true) := by
          simp [nonStreamStep, hn]
        rw [nonStreamRun_cons_cont hstep]
        have hinv2 : (if ({ st with currentFuncName := name, currentFuncArgs := args } :
            NonStreamState).currentFuncName = "" then
              nsReconStep acc (.functionCall name args) = none
            else nsReconStep acc (.functionCall name args) =
              some (name, args)) := by
          simp [hn, nsReconStep]
        rw [ih _ _ hinv2, finishReached_cons,
          processedEvents_cons_skip _ (by simp [isFinish])]
        simp [isFinish, List.foldl_cons]
    | finishMetadata =>
      have hstep : nonStreamStep st .finishMetadata =
          ((if st.currentFuncName ≠ "" then
            { st with toolCalls := st.toolCalls ++
                [(st.currentFuncName, st.currentFuncArgs)] }
          else st), false) := rfl
      rw [nonStreamRun_cons_stop hstep, finishReached_cons,
        processedEvents_cons_finish]
      by_cases hn : st.currentFuncName = ""
      · simp [hn] at hinv
        simp [hn, hinv, isFinish, processedEvents]
      · simp [hn] at hinv
        simp [hn, hinv, isFinish, processedEvents]
    | other =>
      have hstep : nonStreamStep st .other = (st, true) := rfl
      rw [nonStreamRun_cons_cont hstep]
      rw [ih st acc hinv, finishReached_cons,
        processedEvents_cons_skip _ (by simp [isFinish])]
      simp [isFinish, nsReconStep, List.foldl_cons]

/-- C3 fails as stated: with upstream events
`FunctionCall(name="a", content="1"), ToolCall(name="b", content="2"),
FunctionCall(name="", content="3"), FinishMetadata, Content "x"` the
assemblers emit no content (the `Content` event after `FinishMetadata` is
never read) although the `Content` events carry `"x"`, and they emit the
single call `("b", "3")` although the claim's reconstruction rule yields the
set `("a","1"), ("b","23")`: the first call is overwritten and the `ToolCall`
opener's content `"2"` is discarded. -/
theorem assembler_claim_counterexample :
    streamChunks [.functionCall "a" "1", .toolCall "b" "2",
        .functionCall "" "3", .finishMetadata, .content "x"] =
      [.toolCallChunk "b" "3", .finishChunk "tool_calls", .doneFrame] ∧
    (nonStreamFinal [.functionCall "a" "1", .toolCall "b" "2",
        .functionCall "" "3", .finishMetadata, .content "x"]).toolCalls =
      [("b", "3")] ∧
    reconCalls [.functionCall "a" "1", .toolCall "b" "2",
        .functionCall "" "3", .finishMetadata, .content "x"] =
      [("a", "1"), ("b", "23")] ∧
    contentOfEvents [.functionCall "a" "1", .toolCall "b" "2",
        .functionCall "" "3", .finishMetadata, .content "x"] = "x" ∧
    ¬ assemblerClaimAt [.functionCall "a" "1", .toolCall "b" "2",
        .functionCall "" "3", .finishMetadata, .content "x"] := by
  refine ⟨rfl, rfl, rfl, rfl, ?_⟩
  intro h
  exact absurd h.1 (by decide)

/-- C3 amended: for every upstream event sequence, the concatenated content
of the emitted chunks (and of the non-streaming response) equals the
concatenated content of the `Content` events *up to the first
`FinishMetadata`*, and the assembled tool calls consist of exactly the *last*
call reconstructed under the "name starts, nameless continues" rule — earlier
calls are overwritten — provided a `FinishMetadata` is processed (no call is
emitted otherwise); the streaming assembler starts every call with empty
arguments (discarding the opening event's content), and the non-streaming
assembler keeps the opening content for a `FunctionCall` opener but discards
it for a `ToolCall` opener. -/
theorem assembler_equivalence_amended (es : List JBEvent) :
    contentOfChunks (streamChunks es) = contentOfEvents (processedEvents es) ∧
    nonStreamContent es = contentOfEvents (processedEvents es) ∧
    toolCallsOfChunks (streamChunks es) =
      (if finishReached es then
        (match reconLastStream (processedEvents es) with
         | some nc => [nc]
         | none => []) else []) ∧
    (nonStreamFinal es).toolCalls =
      (if finishReached es then
        (match reconLastNS (processedEvents es) with
         | some nc => [nc]
         | none => []) else []) := by
  refine ⟨?_, ?_, ?_, ?_⟩
  · exact streamRun_content es ⟨false, none⟩
  · unfold nonStreamContent nonStreamFinal
    rw [nonStreamRun_content_aux es ⟨[], "", "", []⟩]
    rw [contentOfEvents_eq_join]
    rfl
  · exact streamRun_tools es ⟨false, none⟩
  · unfold nonStreamFinal reconLastNS
    rw [nonStreamRun_tools_aux es ⟨[], "", "", []⟩ none (by simp)]
    rfl

/-! ### C5: user message fan-out -/

theorem extractImage_textBlocks (ts : List String) :
    extractImageDataFromContent (textBlocksContent ts) = ("", "", false) := by
  unfold extractImageDataFromContent textBlocksContent
  have h : ∀ (l : List String), List.findSome? (fun item =>
      match asObj item with
      | some im =>
        match (jget im "type").bind asStr with
        | some t =>
          if t = "image_url" || t = "image" then
            some (((jget im "media_type").bind asStr).getD "",
              ((jget im "data").bind asStr).getD "")
          else none
        | none => none
      | none => none)
      (l.map (fun t => JValue.obj [("type", .str "text"), ("text", .str t)])) = none := by
    intro l
    induction l with
    | nil => rfl
    | cons x xs ih =>
      simp only [List.map_cons, List.findSome?]
      rw [show (match asObj (JValue.obj [("type", .str "text"), ("text", .str x)]) with
        | some im =>
          match (jget im "type").bind asStr with
          | some t =>
            if t = "image_url" || t = "image" then
              some (((jget im "media_type").bind asStr).getD "",
                ((jget im "data").bind asStr).getD "")
            else none
          | none => none
        | none => none) = (none : Option (String × String)) from rfl]
      exact ih
  dsimp only
  rw [h ts]

theorem extractText_textBlocks (ts : List String) :
    extractTextContent (textBlocksContent ts) = String.intercalate " " ts := by
  unfold extractTextContent textBlocksContent
  dsimp only
  rw [List.filterMap_map]
  have h : ((fun item =>
      match asObj item with
      | some im =>
        match (jget im "type").bind asStr with
        | some t => if t = "text" then (jget im "text").bind asStr else none
        | none => none
      | none => none) ∘
      (fun t => JValue.obj [("type", .str "text"), ("text", .str t)])) =
      (some : String → Option String) := by
    funext t
    rfl
  rw [h, List.filterMap_some]

/-- C5 fails as stated: a user message whose content is the two text blocks
`"a"`, `"b"` is translated to the single entry `user_message "a b"` (the
blocks joined by a space), not to two `user_message` entries. -/
theorem user_fanout_counterexample :
    openAIToJetbrainsMessages (fun _ => none) (fun _ _ => false)
        [⟨"user", textBlocksContent ["a", "b"], [], ""⟩] =
      [.user_message "a b"] ∧
    openAIToJetbrainsMessages (fun _ => none) (fun _ _ => false)
        [⟨"user", textBlocksContent ["a", "b"], [], ""⟩] ≠
      [.user_message "a", .user_message "b"] := by
  exact ⟨rfl, by decide⟩

/-- C5 amended: an image-free user message whose content is an array of text
blocks contributes exactly *one* `user_message` entry to the upstream list,
whose content is the blocks' texts joined by single spaces, in order (the
translation of the preceding messages is unaffected). -/
theorem user_text_blocks_single_entry (canonJson : String → Option String)
    (validateImage : String → String → Bool) (msgs : List ChatMessage)
    (ts : List String) :
    openAIToJetbrainsMessages canonJson validateImage
        (msgs ++ [⟨"user", textBlocksContent ts, [], ""⟩]) =
      openAIToJetbrainsMessages canonJson validateImage msgs ++
        [.user_message (String.intercalate " " ts)] := by
  unfold openAIToJetbrainsMessages
  rw [List.foldl_append, List.foldl_append]
  rw [show ∀ (m : List (String × String)),
      List.foldl (fun m msg =>
        if msg.role = "assistant" then
          msg.toolCalls.foldl (fun m tc =>
            if tc.id ≠ "" && tc.name ≠ "" then ssetS m tc.id tc.name else m) m
        else m) m [(⟨"user", textBlocksContent ts, [], ""⟩ : ChatMessage)] = m by
    intro m
    simp]
  rw [List.foldl_cons, List.foldl_nil]
  simp only [extractImage_textBlocks, extractText_textBlocks]
  simp

/-! ### C6: quota probe semantics -/

/-- C6 fails as stated: on a quota response with
`current.current.amount = "0"` and `current.maximum.amount = "0"`, the code
sets has-quota to true (the zero maximum is replaced by 1 before the
comparison), while `used < max` is `0 < 0 = false`. -/
theorem quota_probe_counterexample :
    processQuotaDataHasQuota
        [("current", .obj [("current", .obj [("amount", .str "0")]),
          ("maximum", .obj [("amount", .str "0")])])] = true ∧
    claimHasQuota
        [("current", .obj [("current", .obj [("amount", .str "0")]),
          ("maximum", .obj [("amount", .str "0")])])] = false := by
  exact ⟨by decide, by decide⟩

/-- C6 amended: the probe reads the decimal strings
`current.current.amount` (used) and `current.maximum.amount` (max) and sets
has-quota to `used < max`, except that a parsed max of 0 (also the result of
a missing or unparseable field) is replaced by 1 before the comparison. -/
theorem quota_probe_amended (quotaData : List (String × JValue)) :
    processQuotaDataHasQuota quotaData =
      (if decIsZero (extractQuotaUsage quotaData).2 then
        decLt (extractQuotaUsage quotaData).1 decOne
      else claimHasQuota quotaData) := by
  unfold processQuotaDataHasQuota claimHasQuota
  by_cases h : decIsZero (extractQuotaUsage quotaData).2 = true <;> simp [h]

/-! ### Association-list infrastructure for the sanitizer proofs -/

/-- A successful `jget` read is a binding of the list. -/
theorem jget_mem : ∀ {fs : List (String × JValue)} {k : String} {v : JValue},
    jget fs k = some v → (k, v) ∈ fs := by
  intro fs
  induction fs with
  | nil => intro k v h; simp [jget] at h
  | cons kv rest ih =>
    intro k v h
    obtain ⟨k2, v2⟩ := kv
    simp only [jget] at h
    by_cases hk : k2 = k
    · rw [if_pos hk] at h
      cases h
      subst hk
      exact List.mem_cons_self _ _
    · rw [if_neg hk] at h
      exact List.mem_cons_of_mem _ (ih h)

/-- A key reads as `none` exactly when it is absent from the key list. -/
theorem jget_none_keys : ∀ {fs : List (String × JValue)} {k : String},
    jget fs k = none ↔ k ∉ fs.map Prod.fst := by
  intro fs
  induction fs with
  | nil => intro k; simp [jget]
  | cons kv rest ih =>
    intro k
    obtain ⟨k2, v2⟩ := kv
    simp only [jget, List.map_cons, List.mem_cons]
    by_cases hk : k2 = k
    · rw [if_pos hk]
      simp [hk]
    · rw [if_neg hk]
      rw [ih]
      constructor
      · intro h hmem
        rcases hmem with hmem | hmem
        · exact hk hmem.symm
        · exact h hmem
      · intro h hmem
        exact h (Or.inr hmem)

/-- Writing an absent key appends the binding. -/
theorem jset_of_none : ∀ {fs : List (String × JValue)} {k : String}
    (v : JValue), jget fs k = none → jset fs k v = fs ++ [(k, v)] := by
  intro fs
  induction fs with
  | nil => intro k v _; simp [jset]
  | cons kv rest ih =>
    intro k v h
    obtain ⟨k2, v2⟩ := kv
    simp only [jget] at h
    by_cases hk : k2 = k
    · rw [if_pos hk] at h; cases h
    · rw [if_neg hk] at h
      simp only [jset, if_neg hk, List.cons_append, List.cons.injEq, true_and]
      exact ih v h

/-- Rewriting a key with the value it already holds is a no-op. -/
theorem jset_self : ∀ {fs : List (String × JValue)} {k : String} {v : JValue},
    jget fs k = some v → jset fs k v = fs := by
  intro fs
  induction fs with
  | nil => intro k v h; simp [jget] at h
  | cons kv rest ih =>
    intro k v h
    obtain ⟨k2, v2⟩ := kv
    simp only [jget] at h
    by_cases hk : k2 = k
    · rw [if_pos hk] at h
      cases h
      simp [jset, if_pos hk]
    · rw [if_neg hk] at h
      simp [jset, if_neg hk, ih h]

/-- Reading through a concatenation when the left part misses the key. -/
theorem jget_append_right : ∀ {a b : List (String × JValue)} {k : String},
    jget a k = none → jget (a ++ b) k = jget b k := by
  intro a
  induction a with
  | nil => intro b k _; rfl
  | cons kv rest ih =>
    intro b k h
    obtain ⟨k2, v2⟩ := kv
    simp only [jget] at h ⊢
    by_cases hk : k2 = k
    · rw [if_pos hk] at h; cases h
    · rw [if_neg hk] at h ⊢
      exact ih h

/-- Reading through a concatenation when the left part has the key. -/
theorem jget_append_left : ∀ {a : List (String × JValue)} {k : String}
    {v : JValue} (b : List (String × JValue)),
    jget a k = some v → jget (a ++ b) k = some v := by
  intro a
  induction a with
  | nil => intro k v b h; simp [jget] at h
  | cons kv rest ih =>
    intro k v b h
    obtain ⟨k2, v2⟩ := kv
    simp only [jget] at h ⊢
    by_cases hk : k2 = k
    · rw [if_pos hk] at h ⊢; exact h
    · rw [if_neg hk] at h ⊢
      exact ih b h

/-- Writing through a concatenation when the left part misses the key. -/
theorem jset_append_right : ∀ {a : List (String × JValue)} {k : String}
    (b : List (String × JValue)) (v : JValue),
    jget a k = none → jset (a ++ b) k v = a ++ jset b k v := by
  intro a
  induction a with
  | nil => intro k b v _; rfl
  | cons kv rest ih =>
    intro k b v h
    obtain ⟨k2, v2⟩ := kv
    simp only [jget] at h
    by_cases hk : k2 = k
    · rw [if_pos hk] at h; cases h
    · rw [if_neg hk] at h
      simp only [jset, List.cons_append, if_neg hk, List.cons.injEq, true_and]
      exact ih b v h

/-- Every binding of `jset fs k v` is a binding of `fs` or the written one. -/
theorem jset_mem : ∀ {fs : List (String × JValue)} {k : String} {v : JValue}
    {kv2 : String × JValue}, kv2 ∈ jset fs k v → kv2 ∈ fs ∨ kv2 = (k, v) := by
  intro fs
  induction fs with
  | nil => intro k v kv2 h; simp [jset] at h; exact Or.inr h
  | cons kv rest ih =>
    intro k v kv2 h
    obtain ⟨k2, v2⟩ := kv
    simp only [jset] at h
    by_cases hk : k2 = k
    · rw [if_pos hk] at h
      rcases List.mem_cons.mp h with h | h
      · subst hk; exact Or.inr (by rw [h])
      · exact Or.inl (List.mem_cons_of_mem _ h)
    · rw [if_neg hk] at h
      rcases List.mem_cons.mp h with h | h
      · exact Or.inl (by rw [h]; exact List.mem_cons_self _ _)
      · rcases ih h with h | h
        · exact Or.inl (List.mem_cons_of_mem _ h)
        · exact Or.inr h

/-- The keys after a write: unchanged for an in-place update, the written
key appended for a fresh one. -/
theorem jset_keys : ∀ {fs : List (String × JValue)} (k : String) (v : JValue),
    (jset fs k v).map Prod.fst =
      if (jget fs k).isSome then fs.map Prod.fst else fs.map Prod.fst ++ [k] := by
  intro fs
  induction fs with
  | nil => intro k v; simp [jset, jget]
  | cons kv rest ih =>
    intro k v
    obtain ⟨k2, v2⟩ := kv
    by_cases hk : k2 = k
    · subst hk
      simp [jset, jget]
    · simp only [jset, jget, if_neg hk, List.map_cons, ih k v]
      by_cases hs : (jget rest k).isSome
      · simp [hs]
      · simp [hs]

/-- `keysDistinct` is `Nodup` of the key list. -/
theorem keysDistinct_iff : ∀ {fs : List (String × JValue)},
    keysDistinct fs = true ↔ (fs.map Prod.fst).Nodup := by
  intro fs
  induction fs with
  | nil => simp [keysDistinct]
  | cons kv rest ih =>
    simp only [keysDistinct, List.map_cons, List.nodup_cons, Bool.and_eq_true,
      Bool.not_eq_true']
    rw [ih]
    constructor
    · intro ⟨h1, h2⟩
      refine ⟨?_, h2⟩
      intro hmem
      rcases List.mem_map.mp hmem with ⟨kv2, hkv2, hfst⟩
      have : rest.any (fun kv2 => kv2.1 = kv.1) = true :=
        List.any_eq_true.mpr ⟨kv2, hkv2, by simp [hfst]⟩
      rw [h1] at this
      cases this
    · intro ⟨h1, h2⟩
      refine ⟨?_, h2⟩
      by_contra hany
      rw [Bool.not_eq_false] at hany
      rcases List.any_eq_true.mp hany with ⟨kv2, hkv2, heq⟩
      exact h1 (List.mem_map.mpr ⟨kv2, hkv2, by simpa using heq⟩)

/-- `jset` preserves key distinctness. -/
theorem keysDistinct_jset {fs : List (String × JValue)} {k : String}
    {v : JValue} (h : keysDistinct fs = true) :
    keysDistinct (jset fs k v) = true := by
  rw [keysDistinct_iff] at h ⊢
  rw [jset_keys]
  by_cases hs : (jget fs k).isSome
  · rw [if_pos hs]; exact h
  · rw [if_neg hs]
    have hk : k ∉ fs.map Prod.fst := by
      rw [← jget_none_keys]
      cases hj : jget fs k
      · rfl
      · rw [hj] at hs; simp at hs
    rw [List.nodup_append]
    refine ⟨h, List.nodup_singleton k, ?_⟩
    intro a ha hb
    simp at hb
    exact hk (hb ▸ ha)

/-! ### Size lemmas -/

/-- Every value has positive size. -/
theorem jsize_pos : ∀ v : JValue, 1 ≤ jsize v := by
  intro v
  cases v <;> simp [jsize]

/-- A binding's value is smaller than the association list. -/
theorem memF_size : ∀ {fs : List (String × JValue)} {kv : String × JValue},
    kv ∈ fs → jsize kv.2 < jsizeF fs := by
  intro fs
  induction fs with
  | nil => intro kv h; cases h
  | cons kv2 rest ih =>
    intro kv h
    obtain ⟨k2, v2⟩ := kv2
    rcases List.mem_cons.mp h with h | h
    · rw [h]; simp [jsizeF]; omega
    · have := ih h
      simp [jsizeF]
      omega

/-- A binding's value is smaller than the wrapping object. -/
theorem memF_size_obj {fs : List (String × JValue)} {kv : String × JValue}
    (h : kv ∈ fs) : jsize kv.2 < jsize (JValue.obj fs) := by
  have := memF_size h
  simp [jsize]
  omega

/-- `asObj` inverted. -/
theorem asObj_eq_some {v : JValue} {fs : List (String × JValue)}
    (h : asObj v = some fs) : v = .obj fs := by
  cases v <;> simp [asObj] at h <;> simp [h]

/-- `asArr` inverted. -/
theorem asArr_eq_some {v : JValue} {xs : List JValue}
    (h : asArr v = some xs) : v = .arr xs := by
  cases v <;> simp [asArr] at h <;> simp [h]

/-- `asStr` inverted. -/
theorem asStr_eq_some {v : JValue} {s : String}
    (h : asStr v = some s) : v = .str s := by
  cases v <;> simp [asStr] at h <;> simp [h]

/-- A property value sits strictly inside the schema object that declares
it. -/
theorem size_chain {m props : List (String × JValue)} {kv : String × JValue}
    (hp : (jget m "properties").bind asObj = some props) (hw : kv ∈ props) :
    jsize kv.2 < jsize (JValue.obj m) := by
  rcases Option.bind_eq_some.mp hp with ⟨pv, hpv, hobj⟩
  have hpveq := asObj_eq_some hobj
  subst hpveq
  have h1 : jsize kv.2 < jsize (JValue.obj props) := memF_size_obj hw
  have h2 : jsize (JValue.obj props) < jsizeF m := memF_size (jget_mem hpv)
  simp [jsize] at h1 h2 ⊢
  omega

/-! ### Fuel and congruence machinery -/

/-- Pointwise-equal element checks give equal `List.all`. -/
theorem all_congr_mem {α : Type} {l : List α} {p q : α → Bool}
    (h : ∀ x ∈ l, p x = q x) : l.all p = l.all q := by
  induction l with
  | nil => rfl
  | cons x xs ih =>
    simp only [List.all_cons]
    rw [h x (List.mem_cons_self _ _),
      ih (fun y hy => h y (List.mem_cons_of_mem _ hy))]

/-- The inner property fold only applies its function to property values. -/
theorem innerFold_congr (f g : JValue → JValue) :
    ∀ (props acc : List (String × JValue)),
    (∀ kv ∈ props, f kv.2 = g kv.2) →
    props.foldl (innerStep f) acc = props.foldl (innerStep g) acc := by
  intro props
  induction props with
  | nil => intro acc _; rfl
  | cons kv rest ih =>
    intro acc h
    simp only [List.foldl_cons]
    have hstep : innerStep f acc kv = innerStep g acc kv := by
      simp only [innerStep, h kv (List.mem_cons_self _ _)]
    rw [hstep]
    exact ih _ (fun kv2 hkv2 => h kv2 (List.mem_cons_of_mem _ hkv2))

/-- `innerProps` congruence. -/
theorem innerProps_congr {f g : JValue → JValue}
    {props : List (String × JValue)} (h : ∀ kv ∈ props, f kv.2 = g kv.2) :
    innerProps f props = innerProps g props :=
  innerFold_congr f g props [] h

/-- `objectBranch` congruence. -/
theorem objectBranch_congr {f g : JValue → JValue}
    {m r : List (String × JValue)}
    (h : ∀ props, (jget m "properties").bind asObj = some props →
      ∀ kv ∈ props, f kv.2 = g kv.2) :
    objectBranch f m r = objectBranch g m r := by
  unfold objectBranch
  split
  · rename_i props hp
    by_cases hlen : props.length > 15
    · simp only [if_pos hlen]
    · simp only [if_neg hlen]
      rw [innerProps_congr (h props hp)]
  · rfl

/-- One transformation step only calls the recursive function on strictly
smaller values. -/
theorem tpsStep_congr : ∀ {s : JValue} {f g : JValue → JValue},
    (∀ w, jsize w < jsize s → f w = g w) → tpsStep f s = tpsStep g s := by
  intro s f g h
  cases s
  case obj m =>
    have hcore : tpsCore f m = tpsCore g m := by
      unfold tpsCore
      split
      · rename_i t _
        by_cases h1 : t = "object"
        · simp only [if_pos h1]
          apply objectBranch_congr
          intro props hp kv hkv
          exact h kv.2 (size_chain hp hkv)
        · simp only [if_neg h1]
      · rfl
    simp only [tpsStep, asObj]
    rw [hcore]
  all_goals rfl

/-- Any two sufficient fuels compute the same transformation. -/
theorem tpsFuel_irrel : ∀ (n : Nat) {m : Nat} {s : JValue},
    jsize s ≤ n → jsize s ≤ m → tpsFuel n s = tpsFuel m s := by
  intro n
  induction n with
  | zero => intro m s hn _; exfalso; have := jsize_pos s; omega
  | succ n ih =>
    intro m s hn hm
    cases m with
    | zero => exfalso; have := jsize_pos s; omega
    | succ m2 =>
      simp only [tpsFuel]
      apply tpsStep_congr
      intro w hw
      exact ih (by omega) (by omega)

/-- The canonical recursion equation of `transformPropertySchema`. -/
theorem tps_eq (s : JValue) :
    transformPropertySchema s = tpsStep transformPropertySchema s := by
  unfold transformPropertySchema
  cases hn : jsize s with
  | zero => exfalso; have := jsize_pos s; omega
  | succ n =>
    simp only [tpsFuel]
    apply tpsStep_congr
    intro w hw
    show tpsFuel n w = tpsFuel (jsize w) w
    exact tpsFuel_irrel n (by omega) (le_refl _)

/-- `eraseReqFieldsWith` congruence. -/
theorem eraseReqFieldsWith_congr {f g : JValue → JValue}
    {m : List (String × JValue)}
    (h : ∀ kv ∈ m, ∀ ps, kv.2 = JValue.obj ps → ∀ pv ∈ ps, f pv.2 = g pv.2) :
    eraseReqFieldsWith f m = eraseReqFieldsWith g m := by
  unfold eraseReqFieldsWith
  apply List.map_congr_left
  intro kv hkv
  have hkvm : kv ∈ m := List.mem_of_mem_filter hkv
  by_cases hp : kv.1 = "properties"
  · simp only [if_pos hp]
    cases hv : kv.2 with
    | obj ps =>
      simp only [Prod.mk.injEq, true_and, JValue.obj.injEq]
      apply List.map_congr_left
      intro pv hpv
      rw [h kv hkvm ps hv pv hpv]
    | null => rfl
    | bool b => rfl
    | num q => rfl
    | str s2 => rfl
    | arr xs => rfl
    | strArr xs => rfl
  · simp only [if_neg hp]

/-- One erasure step only calls the recursive function on strictly smaller
values. -/
theorem eraseReqStep_congr {s : JValue} {f g : JValue → JValue}
    (h : ∀ w, jsize w < jsize s → f w = g w) :
    eraseReqStep f s = eraseReqStep g s := by
  cases s
  case obj m =>
    simp only [eraseReqStep, JValue.obj.injEq]
    apply eraseReqFieldsWith_congr
    intro kv hkv ps hps pv hpv
    apply h
    have h1 : jsize pv.2 < jsize kv.2 := by rw [hps]; exact memF_size_obj hpv
    have h2 : jsize kv.2 < jsize (JValue.obj m) := memF_size_obj hkv
    omega
  all_goals rfl

/-- Any two sufficient fuels compute the same erasure. -/
theorem eraseReqFuel_irrel : ∀ (n : Nat) {m : Nat} {s : JValue},
    jsize s ≤ n → jsize s ≤ m → eraseReqFuel n s = eraseReqFuel m s := by
  intro n
  induction n with
  | zero => intro m s hn _; exfalso; have := jsize_pos s; omega
  | succ n ih =>
    intro m s hn hm
    cases m with
    | zero => exfalso; have := jsize_pos s; omega
    | succ m2 =>
      simp only [eraseReqFuel]
      apply eraseReqStep_congr
      intro w hw
      exact ih (by omega) (by omega)

/-- The canonical recursion equation of `eraseRequiredSchema`. -/
theorem eraseReq_eq (s : JValue) :
    eraseRequiredSchema s = eraseReqStep eraseRequiredSchema s := by
  unfold eraseRequiredSchema
  cases hn : jsize s with
  | zero => exfalso; have := jsize_pos s; omega
  | succ n =>
    simp only [eraseReqFuel]
    apply eraseReqStep_congr
    intro w hw
    show eraseReqFuel n w = eraseReqFuel (jsize w) w
    exact eraseReqFuel_irrel n (by omega) (le_refl _)

/-- Erasure unfolded on an object. -/
theorem eraseReq_obj (m : List (String × JValue)) :
    eraseRequiredSchema (.obj m) = .obj (eraseReqFieldsWith eraseRequiredSchema m) := by
  rw [eraseReq_eq]; rfl

/-- Erasure fixes non-objects. -/
theorem eraseReq_nonobj {s : JValue} (h : asObj s = none) :
    eraseRequiredSchema s = s := by
  rw [eraseReq_eq]
  cases s
  case obj m => simp [asObj] at h
  all_goals rfl

/-- `closedPropsPart` congruence. -/
theorem closedPropsPart_congr {f g : JValue → Bool}
    {m : List (String × JValue)}
    (h : ∀ w, jsize w < jsize (JValue.obj m) → f w = g w) :
    closedPropsPart f m = closedPropsPart g m := by
  unfold closedPropsPart
  cases hp : jget m "properties" with
  | none => rfl
  | some pv =>
    cases pv with
    | obj ps =>
      have h2 : jsize (JValue.obj ps) < jsize (JValue.obj m) :=
        memF_size_obj (jget_mem hp)
      have hall : ps.all (fun kv => isValidParamName kv.1 && f kv.2) =
          ps.all (fun kv => isValidParamName kv.1 && g kv.2) := by
        apply all_congr_mem
        intro kv hkv
        have h1 : jsize kv.2 < jsize (JValue.obj ps) := memF_size_obj hkv
        rw [h kv.2 (by omega)]
      dsimp only
      rw [hall]
    | null => rfl
    | bool b => rfl
    | num q => rfl
    | str s2 => rfl
    | arr xs => rfl
    | strArr xs => rfl

/-- `closedItemsPart` congruence. -/
theorem closedItemsPart_congr {f g : JValue → Bool}
    {m : List (String × JValue)}
    (h : ∀ w, jsize w < jsize (JValue.obj m) → f w = g w) :
    closedItemsPart f m = closedItemsPart g m := by
  unfold closedItemsPart
  cases hi : jget m "items" with
  | none => rfl
  | some it =>
    have hsz : jsize it < jsize (JValue.obj m) := memF_size_obj (jget_mem hi)
    dsimp only
    rw [h it hsz]

/-- One closedness step only calls the recursive function on strictly
smaller values. -/
theorem closedStep_congr {s : JValue} {f g : JValue → Bool}
    (h : ∀ w, jsize w < jsize s → f w = g w) :
    closedStep f s = closedStep g s := by
  cases s
  case obj m =>
    simp only [closedStep]
    rw [closedPropsPart_congr h, closedItemsPart_congr h]
  all_goals rfl

/-- Any two sufficient fuels compute the same closedness check. -/
theorem closedFuel_irrel : ∀ (n : Nat) {m : Nat} {s : JValue},
    jsize s ≤ n → jsize s ≤ m → closedFuel n s = closedFuel m s := by
  intro n
  induction n with
  | zero => intro m s hn _; exfalso; have := jsize_pos s; omega
  | succ n ih =>
    intro m s hn hm
    cases m with
    | zero => exfalso; have := jsize_pos s; omega
    | succ m2 =>
      simp only [closedFuel]
      apply closedStep_congr
      intro w hw
      exact ih (by omega) (by omega)

/-- The canonical recursion equation of `closedSchema`. -/
theorem closed_eq (s : JValue) :
    closedSchema s = closedStep closedSchema s := by
  unfold closedSchema
  cases hn : jsize s with
  | zero => exfalso; have := jsize_pos s; omega
  | succ n =>
    simp only [closedFuel]
    apply closedStep_congr
    intro w hw
    show closedFuel n w = closedFuel (jsize w) w
    exact closedFuel_irrel n (by omega) (le_refl _)

/-! ### Scalar-tail machinery -/

/-- A tail entry's key is a scalar keyword or `format`. -/
theorem tailKey_mem {kv : String × JValue} (h : tailEntry kv = true) :
    kv.1 ∈ scalarKeys ++ ["format"] := by
  simp only [tailEntry, Bool.or_eq_true, Bool.and_eq_true] at h
  rcases h with h | ⟨h, _⟩
  · exact List.mem_append_left _ (List.mem_of_elem_eq_true h)
  · rw [decide_eq_true_iff] at h
    rw [h]
    simp

/-- A tail entry's key differs from every non-scalar keyword. -/
theorem tailKey_ne {kv : String × JValue} (h : tailEntry kv = true)
    {k : String} (hk : k ∉ scalarKeys ++ ["format"]) : kv.1 ≠ k := by
  intro heq
  exact hk (heq ▸ tailKey_mem h)

/-- A tail holds no binding for a non-scalar keyword. -/
theorem tail_jget_none {t : List (String × JValue)} (ht : tailShaped t = true)
    {k : String} (hk : k ∉ scalarKeys ++ ["format"]) : jget t k = none := by
  rw [jget_none_keys]
  intro hmem
  rcases List.mem_map.mp hmem with ⟨kv, hkv, hfst⟩
  rw [tailShaped, Bool.and_eq_true] at ht
  have hent := List.all_eq_true.mp ht.1 kv hkv
  exact tailKey_ne hent hk hfst

/-- A tail's keys are fresh in any list that misses all scalar keywords. -/
theorem tail_fresh {t h2 : List (String × JValue)} (ht : tailShaped t = true)
    (hh : ∀ k, k ∈ scalarKeys ++ ["format"] → jget h2 k = none) :
    ∀ kv ∈ t, jget h2 kv.1 = none := by
  intro kv hkv
  rw [tailShaped, Bool.and_eq_true] at ht
  exact hh kv.1 (tailKey_mem (List.all_eq_true.mp ht.1 kv hkv))

/-- The scalar-copy step skips non-scalar keys. -/
theorem scalarStep_skip {acc : List (String × JValue)} {kv : String × JValue}
    (h1 : scalarKeys.contains kv.1 = false) (h2 : kv.1 ≠ "format") :
    scalarStep acc kv = acc := by
  unfold scalarStep
  simp only [h1, Bool.false_eq_true, if_false, if_neg h2]

/-- The scalar-copy step never writes into a prefix without scalar keys. -/
theorem scalarStep_append {h : List (String × JValue)}
    (hh : ∀ k, k ∈ scalarKeys ++ ["format"] → jget h k = none)
    (acc : List (String × JValue)) (kv : String × JValue) :
    scalarStep (h ++ acc) kv = h ++ scalarStep acc kv := by
  unfold scalarStep
  by_cases hc : scalarKeys.contains kv.1
  · simp only [hc, if_true]
    exact jset_append_right _ _
      (hh kv.1 (List.mem_append_left _ (List.mem_of_elem_eq_true hc)))
  · simp only [Bool.not_eq_true] at hc
    simp only [hc, Bool.false_eq_true, if_false]
    by_cases hf : kv.1 = "format"
    · simp only [if_pos hf]
      cases has : asStr kv.2 with
      | none => rfl
      | some f =>
        by_cases haf : allowedFormat f
        · simp only [haf, if_true]
          exact jset_append_right _ _ (hh kv.1 (by rw [hf]; simp))
        · simp only [haf, Bool.false_eq_true, if_false]
    · simp only [if_neg hf]

/-- The scalar-copy loop never writes into a prefix without scalar keys. -/
theorem copyScalars_append {m h acc : List (String × JValue)}
    (hh : ∀ k, k ∈ scalarKeys ++ ["format"] → jget h k = none) :
    copyScalars m (h ++ acc) = h ++ copyScalars m acc := by
  unfold copyScalars
  induction m generalizing acc with
  | nil => rfl
  | cons kv rest ih =>
    simp only [List.foldl_cons]
    rw [scalarStep_append hh, ih]

/-- The `enum` copy never writes into a prefix without an `enum` key. -/
theorem copyEnum_append {m h acc : List (String × JValue)}
    (hh : jget h "enum" = none) :
    copyEnum m (h ++ acc) = h ++ copyEnum m acc := by
  unfold copyEnum
  cases jget m "enum" with
  | none => rfl
  | some e => exact jset_append_right _ _ hh

/-- Writing a tail entry preserves tail shape. -/
theorem tailShaped_jset {t : List (String × JValue)} {k : String} {v : JValue}
    (ht : tailShaped t = true) (he : tailEntry (k, v) = true) :
    tailShaped (jset t k v) = true := by
  rw [tailShaped, Bool.and_eq_true] at ht ⊢
  refine ⟨?_, keysDistinct_jset ht.2⟩
  rw [List.all_eq_true]
  intro kv hkv
  rcases jset_mem hkv with h | h
  · exact List.all_eq_true.mp ht.1 kv h
  · rw [h]; exact he

/-- The scalar-copy step preserves tail shape. -/
theorem tailShaped_scalarStep {t : List (String × JValue)}
    (ht : tailShaped t = true) (kv : String × JValue) :
    tailShaped (scalarStep t kv) = true := by
  unfold scalarStep
  by_cases hc : scalarKeys.contains kv.1
  · simp only [hc, if_true]
    apply tailShaped_jset ht
    show tailEntry (kv.1, kv.2) = true
    unfold tailEntry
    simp only [Bool.or_eq_true]
    exact Or.inl hc
  · simp only [Bool.not_eq_true] at hc
    simp only [hc, Bool.false_eq_true, if_false]
    by_cases hf : kv.1 = "format"
    · simp only [if_pos hf]
      cases has : asStr kv.2 with
      | none => exact ht
      | some f =>
        by_cases haf : allowedFormat f
        · simp only [haf, if_true]
          apply tailShaped_jset ht
          simp [tailEntry, hf, has, haf]
        · simp only [haf, Bool.false_eq_true, if_false]; exact ht
    · simp only [if_neg hf]; exact ht

/-- The scalar-copy loop preserves tail shape. -/
theorem tailShaped_copyScalars {m t : List (String × JValue)}
    (ht : tailShaped t = true) : tailShaped (copyScalars m t) = true := by
  unfold copyScalars
  induction m generalizing t with
  | nil => exact ht
  | cons kv rest ih =>
    simp only [List.foldl_cons]
    exact ih (tailShaped_scalarStep ht kv)

/-- The `enum` copy preserves tail shape. -/
theorem tailShaped_copyEnum {m t : List (String × JValue)}
    (ht : tailShaped t = true) : tailShaped (copyEnum m t) = true := by
  unfold copyEnum
  cases jget m "enum" with
  | none => exact ht
  | some e => exact tailShaped_jset ht (by simp [tailEntry, scalarKeys])

/-- Copying the scalars of a tail-shaped list into a list whose keys are
disjoint from it appends the tail verbatim. -/
theorem copyScalars_self : ∀ {t : List (String × JValue)}
    {r : List (String × JValue)}, tailShaped t = true →
    (∀ kv ∈ t, jget r kv.1 = none) → copyScalars t r = r ++ t := by
  intro t
  induction t with
  | nil => intro r _ _; simp [copyScalars]
  | cons kv rest ih =>
    intro r ht hfresh
    obtain ⟨k, v⟩ := kv
    rw [tailShaped, Bool.and_eq_true] at ht
    have hent : tailEntry (k, v) = true :=
      List.all_eq_true.mp ht.1 (k, v) (List.mem_cons_self _ _)
    have hdist := ht.2
    rw [keysDistinct, Bool.and_eq_true, Bool.not_eq_true'] at hdist
    have hrest : tailShaped rest = true := by
      rw [tailShaped, Bool.and_eq_true]
      refine ⟨?_, hdist.2⟩
      rw [List.all_eq_true]
      intro kv2 hkv2
      exact List.all_eq_true.mp ht.1 kv2 (List.mem_cons_of_mem _ hkv2)
    have hkfresh : jget r k = none := hfresh (k, v) (List.mem_cons_self _ _)
    have hstep : scalarStep r (k, v) = r ++ [(k, v)] := by
      unfold scalarStep
      simp only [tailEntry, Bool.or_eq_true, Bool.and_eq_true] at hent
      rcases hent with hc | ⟨hf, hrest2⟩
      · simp only [hc, if_true]
        exact jset_of_none v hkfresh
      · rw [decide_eq_true_iff] at hf
        have hcne : scalarKeys.contains k = false := by
          rw [hf]; decide
        simp only [hcne, Bool.false_eq_true, if_false, if_pos hf]
        cases has : asStr v with
        | none => rw [has] at hrest2; cases hrest2
        | some f =>
          rw [has] at hrest2
          dsimp only at hrest2 ⊢
          rw [if_pos hrest2]
          exact jset_of_none v hkfresh
    show List.foldl scalarStep r ((k, v) :: rest) = r ++ (k, v) :: rest
    rw [List.foldl_cons]
    show copyScalars rest (scalarStep r (k, v)) = r ++ (k, v) :: rest
    rw [hstep, ih hrest ?_]
    · simp
    · intro kv2 hkv2
      rw [jget_append_right (hfresh kv2 (List.mem_cons_of_mem _ hkv2))]
      have hne : kv2.1 ≠ k := by
        intro heq
        have : rest.any (fun kv3 => kv3.1 = k) = true :=
          List.any_eq_true.mpr ⟨kv2, hkv2, by simp [heq]⟩
        rw [hdist.1] at this
        cases this
      simp [jget, Ne.symm hne]

/-- The `enum` copy is a no-op when the target already holds the value the
source would write. -/
theorem copyEnum_noop {m r : List (String × JValue)}
    (h : ∀ e, jget m "enum" = some e → jget r "enum" = some e) :
    copyEnum m r = r := by
  unfold copyEnum
  cases he : jget m "enum" with
  | none => rfl
  | some e => exact jset_self (h e he)

/-- `required`-erasure fixes a tail-shaped list. -/
theorem eraseReqFieldsWith_tail {t : List (String × JValue)}
    (ht : tailShaped t = true) (f : JValue → JValue) :
    eraseReqFieldsWith f t = t := by
  rw [tailShaped, Bool.and_eq_true] at ht
  unfold eraseReqFieldsWith
  have hfilter : t.filter (fun kv => kv.1 != "required") = t := by
    apply List.filter_eq_self.mpr
    intro kv hkv
    have hent := List.all_eq_true.mp ht.1 kv hkv
    simp only [bne_iff_ne, ne_eq, decide_eq_true_eq]
    exact tailKey_ne hent (by decide)
  rw [hfilter]
  have hmap : ∀ kv ∈ t, (if kv.1 = "properties" then
      (kv.1, match kv.2 with
        | JValue.obj ps => JValue.obj (ps.map (fun pv => (pv.1, f pv.2)))
        | v => v)
    else kv) = kv := by
    intro kv hkv
    have hent := List.all_eq_true.mp ht.1 kv hkv
    rw [if_neg (tailKey_ne hent (by decide))]
  calc t.map _ = t.map id := List.map_congr_left hmap
    _ = t := List.map_id t

/-! ### Characterization of the inner property loop -/

/-- Every entry the inner property fold produces has a valid name, and its
value is either a nested-object replacement schema or the transform of an
original property value that failed the deep-nesting test. -/
theorem innerFold_entries (f : JValue → JValue) (P : List (String × JValue)) :
    ∀ (props acc : List (String × JValue)), (∀ kv ∈ props, kv ∈ P) →
    (∀ kv ∈ acc, isValidParamName kv.1 = true ∧
      ((∃ k0, kv.2 = nestedStringSchema k0) ∨
       ∃ k0 w, (k0, w) ∈ P ∧ flattenCond w = false ∧ kv.2 = f w)) →
    ∀ kv ∈ props.foldl (innerStep f) acc,
      isValidParamName kv.1 = true ∧
      ((∃ k0, kv.2 = nestedStringSchema k0) ∨
       ∃ k0 w, (k0, w) ∈ P ∧ flattenCond w = false ∧ kv.2 = f w) := by
  intro props
  induction props with
  | nil => intro acc _ hacc kv hkv; exact hacc kv hkv
  | cons kv2 rest ih =>
    intro acc hsub hacc kv hkv
    rw [List.foldl_cons] at hkv
    refine ih _ (fun kv3 h3 => hsub kv3 (List.mem_cons_of_mem _ h3)) ?_ kv hkv
    intro kv3 h3
    unfold innerStep at h3
    by_cases hv : isValidParamName
        (if isValidParamName kv2.1 then kv2.1 else transformParamName kv2.1)
    · rw [if_pos hv] at h3
      rcases jset_mem h3 with h4 | h4
      · exact hacc kv3 h4
      · rw [h4]
        refine ⟨hv, ?_⟩
        by_cases hfl : flattenCond kv2.2
        · exact Or.inl ⟨_, by rw [if_pos hfl]⟩
        · refine Or.inr ⟨kv2.1, kv2.2, hsub kv2 (List.mem_cons_self _ _), ?_, ?_⟩
          · simp at hfl; exact hfl
          · rw [if_neg hfl]
    · rw [if_neg hv] at h3
      exact hacc kv3 h3

/-- `innerProps` entry characterization. -/
theorem innerProps_entries (f : JValue → JValue)
    (props : List (String × JValue)) :
    ∀ kv ∈ innerProps f props,
      isValidParamName kv.1 = true ∧
      ((∃ k0, kv.2 = nestedStringSchema k0) ∨
       ∃ k0 w, (k0, w) ∈ props ∧ flattenCond w = false ∧ kv.2 = f w) :=
  innerFold_entries f props props [] (fun _ h => h) (fun kv h => absurd h (List.not_mem_nil kv))

/-- The inner property fold keeps keys distinct. -/
theorem innerFold_distinct (f : JValue → JValue) :
    ∀ (props acc : List (String × JValue)), keysDistinct acc = true →
    keysDistinct (props.foldl (innerStep f) acc) = true := by
  intro props
  induction props with
  | nil => intro acc h; exact h
  | cons kv rest ih =>
    intro acc h
    rw [List.foldl_cons]
    apply ih
    unfold innerStep
    by_cases hv : isValidParamName
        (if isValidParamName kv.1 then kv.1 else transformParamName kv.1)
    · rw [if_pos hv]; exact keysDistinct_jset h
    · rw [if_neg hv]; exact h

/-- `innerProps` keys are distinct. -/
theorem innerProps_distinct (f : JValue → JValue)
    (props : List (String × JValue)) :
    keysDistinct (innerProps f props) = true :=
  innerFold_distinct f props [] rfl

/-- Writing one key grows an association list by at most one binding. -/
theorem jset_length_le : ∀ (fs : List (String × JValue)) (k : String)
    (v : JValue), (jset fs k v).length ≤ fs.length + 1 := by
  intro fs
  induction fs with
  | nil => intro k v; simp [jset]
  | cons kv rest ih =>
    intro k v
    obtain ⟨k2, v2⟩ := kv
    simp only [jset]
    by_cases hk : k2 = k
    · rw [if_pos hk]; simp
    · rw [if_neg hk]
      simp only [List.length_cons]
      have := ih k v
      omega

/-- The inner property fold adds at most one binding per property. -/
theorem innerFold_length (f : JValue → JValue) :
    ∀ (props acc : List (String × JValue)),
    (props.foldl (innerStep f) acc).length ≤ acc.length + props.length := by
  intro props
  induction props with
  | nil => intro acc; simp
  | cons kv rest ih =>
    intro acc
    rw [List.foldl_cons]
    have h1 : (innerStep f acc kv).length ≤ acc.length + 1 := by
      unfold innerStep
      by_cases hv : isValidParamName
          (if isValidParamName kv.1 then kv.1 else transformParamName kv.1)
      · rw [if_pos hv]; exact jset_length_le _ _ _
      · rw [if_neg hv]; omega
    have h2 := ih (innerStep f acc kv)
    simp only [List.length_cons]
    omega

/-- `innerProps` never has more entries than the declared properties. -/
theorem innerProps_length (f : JValue → JValue)
    (props : List (String × JValue)) :
    (innerProps f props).length ≤ props.length := by
  have := innerFold_length f props []
  simpa using this

/-- On a list of valid, distinct, non-deeply-nested properties the inner
fold is a plain map of the recursive transform. -/
theorem innerFold_map (f : JValue → JValue) :
    ∀ (l acc : List (String × JValue)),
    (∀ kv ∈ l, isValidParamName kv.1 = true ∧ flattenCond kv.2 = false) →
    (l.map Prod.fst).Nodup →
    (∀ kv ∈ l, jget acc kv.1 = none) →
    l.foldl (innerStep f) acc = acc ++ l.map (fun kv => (kv.1, f kv.2)) := by
  intro l
  induction l with
  | nil => intro acc _ _ _; simp
  | cons kv rest ih =>
    intro acc hgood hnd hfresh
    obtain ⟨k, v⟩ := kv
    have hg := hgood (k, v) (List.mem_cons_self _ _)
    have hstep : innerStep f acc (k, v) = acc ++ [(k, f v)] := by
      unfold innerStep
      simp only [if_pos hg.1]
      rw [if_neg (show ¬flattenCond v = true by rw [hg.2]; simp)]
      exact jset_of_none _ (hfresh (k, v) (List.mem_cons_self _ _))
    rw [List.foldl_cons, hstep]
    rw [List.map_cons, List.nodup_cons] at hnd
    rw [ih (acc ++ [(k, f v)])
      (fun kv2 h2 => hgood kv2 (List.mem_cons_of_mem _ h2)) hnd.2 ?_]
    · simp
    · intro kv2 h2
      rw [jget_append_right (hfresh kv2 (List.mem_cons_of_mem _ h2))]
      have hne : k ≠ kv2.1 := by
        intro heq
        exact hnd.1 (List.mem_map.mpr ⟨kv2, h2, heq.symm⟩)
      simp [jget, hne]

/-- `innerProps` on valid, distinct, non-deeply-nested properties. -/
theorem innerProps_map {f : JValue → JValue} {l : List (String × JValue)}
    (hgood : ∀ kv ∈ l, isValidParamName kv.1 = true ∧ flattenCond kv.2 = false)
    (hnd : (l.map Prod.fst).Nodup) :
    innerProps f l = l.map (fun kv => (kv.1, f kv.2)) := by
  have := innerFold_map f l [] hgood hnd (fun kv _ => rfl)
  simpa using this

/-- On a list of valid, distinct property names `transformProperties` is a
plain map of `transformPropertySchema`. -/
theorem topFold_map :
    ∀ (l acc : List (String × JValue)),
    (∀ kv ∈ l, isValidParamName kv.1 = true) →
    (l.map Prod.fst).Nodup →
    (∀ kv ∈ l, jget acc kv.1 = none) →
    l.foldl topStep acc =
      acc ++ l.map (fun kv => (kv.1, transformPropertySchema kv.2)) := by
  intro l
  induction l with
  | nil => intro acc _ _ _; simp
  | cons kv rest ih =>
    intro acc hgood hnd hfresh
    obtain ⟨k, v⟩ := kv
    have hg := hgood (k, v) (List.mem_cons_self _ _)
    have hstep : topStep acc (k, v) = acc ++ [(k, transformPropertySchema v)] := by
      unfold topStep
      simp only [if_pos hg]
      exact jset_of_none _ (hfresh (k, v) (List.mem_cons_self _ _))
    rw [List.foldl_cons, hstep]
    rw [List.map_cons, List.nodup_cons] at hnd
    rw [ih (acc ++ [(k, transformPropertySchema v)])
      (fun kv2 h2 => hgood kv2 (List.mem_cons_of_mem _ h2)) hnd.2 ?_]
    · simp
    · intro kv2 h2
      rw [jget_append_right (hfresh kv2 (List.mem_cons_of_mem _ h2))]
      have hne : k ≠ kv2.1 := by
        intro heq
        exact hnd.1 (List.mem_map.mpr ⟨kv2, h2, heq.symm⟩)
      simp [jget, hne]

/-- `transformProperties` on valid, distinct property names. -/
theorem transformProperties_map {l : List (String × JValue)}
    (hgood : ∀ kv ∈ l, isValidParamName kv.1 = true)
    (hnd : (l.map Prod.fst).Nodup) :
    transformProperties l =
      l.map (fun kv => (kv.1, transformPropertySchema kv.2)) := by
  have := topFold_map l [] hgood hnd (fun kv _ => rfl)
  simpa [transformProperties] using this

/-! ### Heads of the transformation output -/

/-- The empty list has no scalar keyword. -/
theorem hns_nil :
    ∀ k, k ∈ scalarKeys ++ ["format"] →
      jget ([] : List (String × JValue)) k = none :=
  fun _ _ => rfl

/-- Extending a scalar-free head by a non-scalar key keeps it scalar-free. -/
theorem hns_cons {k2 : String} {v : JValue} {rest : List (String × JValue)}
    (hk2 : k2 ∉ scalarKeys ++ ["format"])
    (hrest : ∀ k, k ∈ scalarKeys ++ ["format"] → jget rest k = none) :
    ∀ k, k ∈ scalarKeys ++ ["format"] → jget ((k2, v) :: rest) k = none := by
  intro k hk
  have hne : k2 ≠ k := fun heq => hk2 (heq ▸ hk)
  simp only [jget, if_neg hne]
  exact hrest k hk

/-- A single `description` binding is a tail. -/
theorem tailShaped_descr (d : JValue) :
    tailShaped [("description", d)] = true := by
  rw [tailShaped]
  have h : tailEntry ("description", d) = true := by
    unfold tailEntry
    rw [show scalarKeys.contains "description" = true from by decide]
    rfl
  simp [h, keysDistinct]

/-- An absent key in `jhas` terms. -/
theorem jhas_false {fs : List (String × JValue)} {k : String}
    (h : jhas fs k = false) : jget fs k = none := by
  unfold jhas at h
  cases hj : jget fs k
  · rfl
  · rw [hj] at h; cases h

/-- The combined copy phase appends a tail after a scalar-free head. -/
theorem copy_phase (m h t0 : List (String × JValue))
    (hh : ∀ k, k ∈ scalarKeys ++ ["format"] → jget h k = none)
    (ht0 : tailShaped t0 = true) :
    ∃ t, tailShaped t = true ∧
      copyEnum m (copyScalars m (h ++ t0)) = h ++ t := by
  refine ⟨copyEnum m (copyScalars m t0), ?_, ?_⟩
  · exact tailShaped_copyEnum (tailShaped_copyScalars ht0)
  · rw [copyScalars_append hh, copyEnum_append (hh "enum" (by decide))]

/-- The combined copy phase started on a bare scalar-free head. -/
theorem copy_phase0 (m h : List (String × JValue))
    (hh : ∀ k, k ∈ scalarKeys ++ ["format"] → jget h k = none) :
    ∃ t, tailShaped t = true ∧
      copyEnum m (copyScalars m h) = h ++ t := by
  have := copy_phase m h [] hh rfl
  rwa [List.append_nil] at this

/-- Constraint form of a known scalar `type` value. -/
theorem strV_constraint {sv : String} (h : sv ≠ "object" ∧ sv ≠ "array") :
    ∀ tv, asStr (JValue.str sv) = some tv → tv ≠ "object" ∧ tv ≠ "array" := by
  intro tv htv
  simp [asStr] at htv
  rw [← htv]
  exact h

/-- Normal form of one `transformPropertySchema` pass: the output is an
object whose head is one of three shapes (scalar `type`, `array` with a
one-key `items`, or the full `object` result), followed by a tail of copied
scalar keywords. -/
theorem tps_normal_form (s : JValue) :
    (∃ V t, tailShaped t = true ∧
       transformPropertySchema s = .obj (("type", V) :: t) ∧
       ∀ tv, asStr V = some tv → tv ≠ "object" ∧ tv ≠ "array") ∨
    (∃ IT t, tailShaped t = true ∧
       transformPropertySchema s = .obj (("type", .str "array") ::
         ("items", .obj [("type", IT)]) :: t)) ∨
    (∃ m props reqPart t, tailShaped t = true ∧
       s = .obj m ∧
       jget m "anyOf" = none ∧ jget m "oneOf" = none ∧
       jget m "allOf" = none ∧
       jget m "type" = some (.str "object") ∧
       (jget m "properties").bind asObj = some props ∧
       props.length ≤ 15 ∧
       (reqPart = [] ∨ ∃ vr, reqPart = [("required", JValue.strArr vr)]) ∧
       transformPropertySchema s = .obj (("type", .str "object") ::
         ("properties", .obj (innerProps transformPropertySchema props)) ::
         (reqPart ++ ("additionalProperties", JValue.bool false) :: t))) := by
  rw [tps_eq s]
  cases s
  case null =>
    exact Or.inl ⟨.str "string", [], rfl, rfl,
      strV_constraint ⟨by decide, by decide⟩⟩
  case bool b =>
    exact Or.inl ⟨.str "string", [], rfl, rfl,
      strV_constraint ⟨by decide, by decide⟩⟩
  case num q =>
    exact Or.inl ⟨.str "string", [], rfl, rfl,
      strV_constraint ⟨by decide, by decide⟩⟩
  case str s2 =>
    exact Or.inl ⟨.str "string", [], rfl, rfl,
      strV_constraint ⟨by decide, by decide⟩⟩
  case arr xs =>
    exact Or.inl ⟨.str "string", [], rfl, rfl,
      strV_constraint ⟨by decide, by decide⟩⟩
  case strArr xs =>
    exact Or.inl ⟨.str "string", [], rfl, rfl,
      strV_constraint ⟨by decide, by decide⟩⟩
  case obj m =>
  by_cases hany : jhas m "anyOf"
  · obtain ⟨d, hd⟩ : ∃ d, anyOfResult ((jget m "anyOf").getD JValue.null) =
        .obj [("type", .str "string"), ("description", .str d)] := by
      unfold anyOfResult
      exact ⟨_, rfl⟩
    refine Or.inl ⟨.str "string", [("description", .str d)],
      tailShaped_descr _, ?_, strV_constraint ⟨by decide, by decide⟩⟩
    simp only [tpsStep, asObj]
    rw [if_pos hany, hd]
  by_cases hone : jhas m "oneOf"
  · obtain ⟨d, hd⟩ : ∃ d, composerFallback m "oneOf" =
        .obj [("type", .str "string"), ("description", d)] := by
      unfold composerFallback
      cases jget m "description"
      · exact ⟨_, rfl⟩
      · exact ⟨_, rfl⟩
    refine Or.inl ⟨.str "string", [("description", d)],
      tailShaped_descr _, ?_, strV_constraint ⟨by decide, by decide⟩⟩
    simp only [tpsStep, asObj]
    rw [if_neg hany, if_pos hone, hd]
  by_cases hall : jhas m "allOf"
  · obtain ⟨d, hd⟩ : ∃ d, composerFallback m "allOf" =
        .obj [("type", .str "string"), ("description", d)] := by
      unfold composerFallback
      cases jget m "description"
      · exact ⟨_, rfl⟩
      · exact ⟨_, rfl⟩
    refine Or.inl ⟨.str "string", [("description", d)],
      tailShaped_descr _, ?_, strV_constraint ⟨by decide, by decide⟩⟩
    simp only [tpsStep, asObj]
    rw [if_neg hany, if_neg hone, if_pos hall, hd]
  have hstep : tpsStep transformPropertySchema (JValue.obj m) =
      .obj (copyEnum m (copyScalars m (tpsCore transformPropertySchema m))) := by
    simp only [tpsStep, asObj]
    rw [if_neg hany, if_neg hone, if_neg hall]
  cases ht : jget m "type" with
  | none =>
    have hTB : typeBase m = [("type", JValue.str "string")] := by
      unfold typeBase; rw [ht]
    have hcore : tpsCore transformPropertySchema m =
        [("type", JValue.str "string")] := by
      unfold tpsCore
      rw [hTB]
      rfl
    obtain ⟨t, htt, heqt⟩ := copy_phase0 m [("type", JValue.str "string")]
      (hns_cons (by decide) hns_nil)
    refine Or.inl ⟨.str "string", t, htt, ?_,
      strV_constraint ⟨by decide, by decide⟩⟩
    rw [hstep, hcore, heqt]
    rfl
  | some tv =>
    have hTB : typeBase m = [("type", tv)] := by
      unfold typeBase; rw [ht]
    cases has : asStr tv with
    | none =>
      have hcore : tpsCore transformPropertySchema m = [("type", tv)] := by
        unfold tpsCore
        rw [hTB, show jget [("type", tv)] "type" = some tv from rfl,
          Option.some_bind, has]
      obtain ⟨t, htt, heqt⟩ := copy_phase0 m [("type", tv)]
        (hns_cons (by decide) hns_nil)
      refine Or.inl ⟨tv, t, htt, ?_, ?_⟩
      · rw [hstep, hcore, heqt]
        rfl
      · intro tv2 htv2
        rw [has] at htv2
        cases htv2
    | some sv =>
      by_cases hobj : sv = "object"
      · subst hobj
        have htv : tv = JValue.str "object" := asStr_eq_some has
        subst htv
        have hcore : tpsCore transformPropertySchema m =
            objectBranch transformPropertySchema m
              [("type", JValue.str "object")] := by
          unfold tpsCore
          rw [hTB]
          rfl
        cases hp : (jget m "properties").bind asObj with
        | none =>
          have hob : objectBranch transformPropertySchema m
              [("type", JValue.str "object")] =
              [("type", JValue.str "string"),
               ("description", JValue.str "Object without properties - provide as JSON string")] := by
            unfold objectBranch
            rw [hp]
            rfl
          obtain ⟨t, htt, heqt⟩ := copy_phase m [("type", JValue.str "string")]
            [("description", JValue.str "Object without properties - provide as JSON string")]
            (hns_cons (by decide) hns_nil) (tailShaped_descr _)
          refine Or.inl ⟨.str "string", t, htt, ?_,
            strV_constraint ⟨by decide, by decide⟩⟩
          rw [hstep, hcore, hob]
          show JValue.obj (copyEnum m (copyScalars m
            ([("type", JValue.str "string")] ++
             [("description", JValue.str "Object without properties - provide as JSON string")]))) = _
          rw [heqt]
          rfl
        | some props =>
          by_cases hlen : props.length > 15
          · have hob : objectBranch transformPropertySchema m
                [("type", JValue.str "object")] =
                [("type", JValue.str "string"),
                 ("description", JValue.str "Complex object with many properties - provide as JSON string")] := by
              unfold objectBranch
              rw [hp]
              dsimp only
              rw [if_pos hlen]
              rfl
            obtain ⟨t, htt, heqt⟩ := copy_phase m [("type", JValue.str "string")]
              [("description", JValue.str "Complex object with many properties - provide as JSON string")]
              (hns_cons (by decide) hns_nil) (tailShaped_descr _)
            refine Or.inl ⟨.str "string", t, htt, ?_,
              strV_constraint ⟨by decide, by decide⟩⟩
            rw [hstep, hcore, hob]
            show JValue.obj (copyEnum m (copyScalars m
              ([("type", JValue.str "string")] ++
               [("description", JValue.str "Complex object with many properties - provide as JSON string")]))) = _
            rw [heqt]
            rfl
          · obtain ⟨reqPart, hreq, hob⟩ : ∃ reqPart,
                (reqPart = [] ∨ ∃ vr, reqPart = [("required", JValue.strArr vr)]) ∧
                objectBranch transformPropertySchema m
                  [("type", JValue.str "object")] =
                  ("type", JValue.str "object") ::
                  ("properties", JValue.obj (innerProps transformPropertySchema props)) ::
                  (reqPart ++ [("additionalProperties", JValue.bool false)]) := by
              unfold objectBranch
              rw [hp]
              dsimp only
              rw [if_neg hlen]
              cases hr : (jget m "required").bind asArr with
              | none => exact ⟨[], Or.inl rfl, rfl⟩
              | some reqs =>
                by_cases hvr : validReqList reqs ≠ []
                · refine ⟨[("required", JValue.strArr (validReqList reqs))],
                    Or.inr ⟨_, rfl⟩, ?_⟩
                  dsimp only
                  rw [if_pos hvr]
                  rfl
                · refine ⟨[], Or.inl rfl, ?_⟩
                  dsimp only
                  rw [if_neg hvr]
                  rfl
            have hnsE2 : ∀ k, k ∈ scalarKeys ++ ["format"] →
                jget (("type", JValue.str "object") ::
                  ("properties", JValue.obj (innerProps transformPropertySchema props)) ::
                  (reqPart ++ [("additionalProperties", JValue.bool false)])) k = none := by
              apply hns_cons (by decide)
              apply hns_cons (by decide)
              rcases hreq with hreq | ⟨vr, hreq⟩
              · rw [hreq]
                simp only [List.nil_append]
                exact hns_cons (by decide) hns_nil
              · rw [hreq]
                simp only [List.singleton_append]
                exact hns_cons (by decide) (hns_cons (by decide) hns_nil)
            obtain ⟨t, htt, heqt⟩ := copy_phase0 m
              (("type", JValue.str "object") ::
               ("properties", JValue.obj (innerProps transformPropertySchema props)) ::
               (reqPart ++ [("additionalProperties", JValue.bool false)])) hnsE2
            refine Or.inr (Or.inr ⟨m, props, reqPart, t, htt, rfl,
              jhas_false (by simpa using hany), jhas_false (by simpa using hone),
              jhas_false (by simpa using hall), ht, hp, by omega, hreq, ?_⟩)
            rw [hstep, hcore, hob, heqt]
            simp only [List.cons_append, List.append_assoc, List.singleton_append,
              List.nil_append]
      · by_cases harr : sv = "array"
        · subst harr
          have htv : tv = JValue.str "array" := asStr_eq_some has
          subst htv
          have hcore : tpsCore transformPropertySchema m =
              arrayBranch m [("type", JValue.str "array")] := by
            unfold tpsCore
            rw [hTB]
            rfl
          obtain ⟨IT, hIT⟩ : ∃ IT, arrayBranch m [("type", JValue.str "array")] =
              [("type", JValue.str "array"), ("items", JValue.obj [("type", IT)])] := by
            unfold arrayBranch
            cases hit : jget m "items" with
            | none => exact ⟨.str "string", rfl⟩
            | some it =>
              cases it with
              | obj itm =>
                dsimp only [asObj]
                cases hitt : jget itm "type" with
                | none => exact ⟨.str "string", rfl⟩
                | some t2 => exact ⟨t2, rfl⟩
              | null => exact ⟨.str "string", rfl⟩
              | bool b => exact ⟨.str "string", rfl⟩
              | num q => exact ⟨.str "string", rfl⟩
              | str s2 => exact ⟨.str "string", rfl⟩
              | arr xs => exact ⟨.str "string", rfl⟩
              | strArr xs => exact ⟨.str "string", rfl⟩
          obtain ⟨t, htt, heqt⟩ := copy_phase0 m
            [("type", JValue.str "array"), ("items", JValue.obj [("type", IT)])]
            (hns_cons (by decide) (hns_cons (by decide) hns_nil))
          refine Or.inr (Or.inl ⟨IT, t, htt, ?_⟩)
          rw [hstep, hcore, hIT, heqt]
          rfl
        · have hcore : tpsCore transformPropertySchema m = [("type", tv)] := by
            unfold tpsCore
            rw [hTB, show jget [("type", tv)] "type" = some tv from rfl,
              Option.some_bind, has]
            dsimp only
            rw [if_neg hobj, if_neg harr]
          obtain ⟨t, htt, heqt⟩ := copy_phase0 m [("type", tv)]
            (hns_cons (by decide) hns_nil)
          refine Or.inl ⟨tv, t, htt, ?_, ?_⟩
          · rw [hstep, hcore, heqt]
            rfl
          · intro tv2 htv2
            rw [has] at htv2
            cases htv2
            exact ⟨hobj, harr⟩

/-! ### Flatten-condition propagation -/

/-- `jget` skips a head entry with a different key. -/
theorem jget_cons_ne {k2 k : String} (v : JValue)
    (rest : List (String × JValue)) (h : k2 ≠ k) :
    jget ((k2, v) :: rest) k = jget rest k := by
  simp only [jget, if_neg h]

/-- `jget` reads the head entry. -/
theorem jget_cons_self (k : String) (v : JValue)
    (rest : List (String × JValue)) :
    jget ((k, v) :: rest) k = some v := by
  simp [jget]

/-- The nested-object replacement schema fails the deep-nesting test. -/
theorem flatten_nested (k0 : String) :
    flattenCond (nestedStringSchema k0) = false := rfl

/-- The nested-object replacement schema is a fixed point of the
transformation. -/
theorem tps_nested_fix (k0 : String) :
    transformPropertySchema (nestedStringSchema k0) = nestedStringSchema k0 := by
  rw [tps_eq]
  rfl

/-- The nested-object replacement schema is a fixed point of the erasure. -/
theorem erase_nested_fix (k0 : String) :
    eraseRequiredSchema (nestedStringSchema k0) = nestedStringSchema k0 := by
  rw [eraseReq_eq]
  rfl

/-- The inner deep-nesting test fails on the nested replacement schema. -/
theorem flattenInner_nested (k : String) (k0 : String) :
    flattenInner (k, nestedStringSchema k0) = false := rfl

/-- The inner deep-nesting test on a transformed schema: a transformed
schema reads as declared type `object` only in the full `object` case. -/
theorem flattenInner_tps {k : String} {w : JValue}
    (hw : flattenInner (k, transformPropertySchema w) = true) :
    ∃ mw pw, w = .obj mw ∧ jget mw "type" = some (.str "object") ∧
      (jget mw "properties").bind asObj = some pw := by
  rcases tps_normal_form w with
    ⟨V, t, htt, heq, hV⟩ | ⟨IT, t, htt, heq⟩ |
    ⟨mw, pw, reqPart, t, htt, hweq, _, _, _, htype, hp, _, _, heq⟩
  · exfalso
    rw [heq] at hw
    unfold flattenInner at hw
    dsimp only [asObj] at hw
    rw [jget_cons_self, Option.some_bind] at hw
    cases has : asStr V with
    | none => rw [has] at hw; cases hw
    | some tv =>
      rw [has] at hw
      dsimp only at hw
      rw [decide_eq_true_iff] at hw
      exact (hV tv has).1 hw
  · exfalso
    rw [heq] at hw
    unfold flattenInner at hw
    dsimp only [asObj] at hw
    rw [jget_cons_self, Option.some_bind] at hw
    dsimp only [asStr] at hw
    rw [decide_eq_true_iff] at hw
    exact absurd hw (by decide)
  · exact ⟨mw, pw, hweq, htype, hp⟩

/-- If a schema fails the deep-nesting test, so does its transform. -/
theorem flatten_tps_false {z : JValue} (hz : flattenCond z = false) :
    flattenCond (transformPropertySchema z) = false := by
  rcases tps_normal_form z with
    ⟨V, t, htt, heq, hV⟩ | ⟨IT, t, htt, heq⟩ |
    ⟨mz, props, reqPart, t, htt, hzeq, _, _, _, htype, hp, _, _, heq⟩
  · rw [heq]
    unfold flattenCond
    dsimp only [asObj]
    rw [jget_cons_self, Option.some_bind]
    cases has : asStr V with
    | none => rfl
    | some tv =>
      dsimp only
      rw [if_neg (hV tv has).1]
  · rw [heq]
    unfold flattenCond
    dsimp only [asObj]
    rw [jget_cons_self, Option.some_bind]
    dsimp only [asStr]
    rw [if_neg (by decide)]
  · rw [heq]
    unfold flattenCond
    dsimp only [asObj]
    rw [jget_cons_self, Option.some_bind]
    dsimp only [asStr]
    rw [if_pos rfl]
    rw [jget_cons_ne _ _ (by decide), jget_cons_self]
    dsimp only [asObj, Option.some_bind]
    apply List.any_eq_false.mpr
    intro kv hkv
    rcases innerProps_entries transformPropertySchema props kv hkv with
      ⟨hvalid, hchar⟩
    simp only [Bool.not_eq_true]
    rcases hchar with ⟨k0, hkv2⟩ | ⟨k0, w, hwmem, hwfl, hkv2⟩
    · have : flattenInner (kv.1, kv.2) = false := by
        rw [hkv2]; exact flattenInner_nested kv.1 k0
      exact this
    · by_contra hne
      rw [Bool.not_eq_false] at hne
      have hfi : flattenInner (kv.1, transformPropertySchema w) = true := by
        rw [← hkv2]; exact hne
      rcases flattenInner_tps hfi with ⟨mw, pw, hweq, hwtype, hwp⟩
      -- then z itself would pass the deep-nesting test
      have hzt : flattenCond z = true := by
        rw [hzeq]
        unfold flattenCond
        dsimp only [asObj]
        rw [htype, Option.some_bind]
        dsimp only [asStr]
        rw [if_pos rfl, hp]
        dsimp only
        apply List.any_eq_true.mpr
        refine ⟨(k0, w), hwmem, ?_⟩
        unfold flattenInner
        rw [hweq]
        dsimp only [asObj]
        rw [hwtype, Option.some_bind]
        dsimp only [asStr]
        decide
      rw [hzeq] at hz hzt
      rw [hzt] at hz
      cases hz

/-! ### Second-pass computation on normal forms -/

/-- `eraseReqFieldsWith` distributes over concatenation. -/
theorem eraseReqFieldsWith_append (f : JValue → JValue)
    (a b : List (String × JValue)) :
    eraseReqFieldsWith f (a ++ b) =
      eraseReqFieldsWith f a ++ eraseReqFieldsWith f b := by
  unfold eraseReqFieldsWith
  rw [List.filter_append, List.map_append]

/-- A scalar-headed normal form is a fixed point of the transformation. -/
theorem tps_fix_scalar {V : JValue} {t : List (String × JValue)}
    (htt : tailShaped t = true)
    (hV : ∀ tv, asStr V = some tv → tv ≠ "object" ∧ tv ≠ "array") :
    transformPropertySchema (.obj (("type", V) :: t)) =
      .obj (("type", V) :: t) := by
  rw [tps_eq]
  have hj : ∀ k, k ∉ scalarKeys ++ ["format"] → k ≠ "type" →
      jget (("type", V) :: t) k = none := by
    intro k hk1 hk2
    rw [jget_cons_ne _ _ (Ne.symm hk2)]
    exact tail_jget_none htt hk1
  have hanyF : jhas (("type", V) :: t) "anyOf" = false := by
    unfold jhas; rw [hj "anyOf" (by decide) (by decide)]; rfl
  have honeF : jhas (("type", V) :: t) "oneOf" = false := by
    unfold jhas; rw [hj "oneOf" (by decide) (by decide)]; rfl
  have hallF : jhas (("type", V) :: t) "allOf" = false := by
    unfold jhas; rw [hj "allOf" (by decide) (by decide)]; rfl
  simp only [tpsStep, asObj]
  rw [if_neg (by rw [hanyF]; simp), if_neg (by rw [honeF]; simp),
    if_neg (by rw [hallF]; simp)]
  have hTB : typeBase (("type", V) :: t) = [("type", V)] := by
    unfold typeBase
    rw [jget_cons_self]
  have hcore : tpsCore transformPropertySchema (("type", V) :: t) =
      [("type", V)] := by
    unfold tpsCore
    rw [hTB, jget_cons_self, Option.some_bind]
    cases has : asStr V with
    | none => rfl
    | some tv =>
      dsimp only
      rw [if_neg (hV tv has).1, if_neg (hV tv has).2]
  rw [hcore]
  have hsplit : copyScalars (("type", V) :: t) [("type", V)] =
      [("type", V)] ++ t := by
    show copyScalars t (scalarStep [("type", V)] ("type", V)) = _
    rw [scalarStep_skip (by simp [scalarKeys]) (by simp)]
    exact copyScalars_self htt (tail_fresh htt (hns_cons (by decide) hns_nil))
  rw [hsplit]
  have henum : copyEnum (("type", V) :: t) ([("type", V)] ++ t) =
      [("type", V)] ++ t := by
    apply copyEnum_noop
    intro e he
    rw [jget_cons_ne _ _ (by decide)] at he
    rw [jget_append_right (show jget [("type", V)] "enum" = none by simp [jget])]
    exact he
  rw [henum]
  rfl

/-- A scalar-headed normal form is a fixed point of the erasure. -/
theorem erase_fix_scalar {V : JValue} {t : List (String × JValue)}
    (htt : tailShaped t = true) :
    eraseRequiredSchema (.obj (("type", V) :: t)) =
      .obj (("type", V) :: t) := by
  rw [eraseReq_obj]
  show JValue.obj
    (eraseReqFieldsWith eraseRequiredSchema ([("type", V)] ++ t)) = _
  rw [eraseReqFieldsWith_append, eraseReqFieldsWith_tail htt]
  rfl

/-- An array-headed normal form is a fixed point of the transformation. -/
theorem tps_fix_array {IT : JValue} {t : List (String × JValue)}
    (htt : tailShaped t = true) :
    transformPropertySchema (.obj (("type", .str "array") ::
      ("items", .obj [("type", IT)]) :: t)) =
      .obj (("type", .str "array") :: ("items", .obj [("type", IT)]) :: t) := by
  rw [tps_eq]
  have hj : ∀ k, k ∉ scalarKeys ++ ["format"] → k ≠ "type" → k ≠ "items" →
      jget (("type", JValue.str "array") ::
        ("items", JValue.obj [("type", IT)]) :: t) k = none := by
    intro k hk1 hk2 hk3
    rw [jget_cons_ne _ _ (Ne.symm hk2), jget_cons_ne _ _ (Ne.symm hk3)]
    exact tail_jget_none htt hk1
  have hanyF : jhas (("type", JValue.str "array") ::
      ("items", JValue.obj [("type", IT)]) :: t) "anyOf" = false := by
    unfold jhas; rw [hj "anyOf" (by decide) (by decide) (by decide)]; rfl
  have honeF : jhas (("type", JValue.str "array") ::
      ("items", JValue.obj [("type", IT)]) :: t) "oneOf" = false := by
    unfold jhas; rw [hj "oneOf" (by decide) (by decide) (by decide)]; rfl
  have hallF : jhas (("type", JValue.str "array") ::
      ("items", JValue.obj [("type", IT)]) :: t) "allOf" = false := by
    unfold jhas; rw [hj "allOf" (by decide) (by decide) (by decide)]; rfl
  simp only [tpsStep, asObj]
  rw [if_neg (by rw [hanyF]; simp), if_neg (by rw [honeF]; simp),
    if_neg (by rw [hallF]; simp)]
  have hTB : typeBase (("type", JValue.str "array") ::
      ("items", JValue.obj [("type", IT)]) :: t) =
      [("type", JValue.str "array")] := by
    unfold typeBase
    rw [jget_cons_self]
  have hit : jget (("type", JValue.str "array") ::
      ("items", JValue.obj [("type", IT)]) :: t) "items" =
      some (JValue.obj [("type", IT)]) := by
    rw [jget_cons_ne _ _ (by decide), jget_cons_self]
  have hcore : tpsCore transformPropertySchema
      (("type", JValue.str "array") ::
        ("items", JValue.obj [("type", IT)]) :: t) =
      [("type", JValue.str "array"), ("items", JValue.obj [("type", IT)])] := by
    unfold tpsCore
    rw [hTB, jget_cons_self, Option.some_bind]
    dsimp only [asStr]
    rw [if_neg (by decide), if_pos rfl]
    unfold arrayBranch
    rw [hit]
    rfl
  rw [hcore]
  have hsplit : copyScalars (("type", JValue.str "array") ::
      ("items", JValue.obj [("type", IT)]) :: t)
      [("type", JValue.str "array"), ("items", JValue.obj [("type", IT)])] =
      [("type", JValue.str "array"), ("items", JValue.obj [("type", IT)])] ++ t := by
    show copyScalars t (scalarStep (scalarStep
      [("type", JValue.str "array"), ("items", JValue.obj [("type", IT)])]
      ("type", JValue.str "array")) ("items", JValue.obj [("type", IT)])) = _
    rw [scalarStep_skip (by simp [scalarKeys]) (by simp),
      scalarStep_skip (by simp [scalarKeys]) (by simp)]
    exact copyScalars_self htt (tail_fresh htt
      (hns_cons (by decide) (hns_cons (by decide) hns_nil)))
  rw [hsplit]
  have henum : copyEnum (("type", JValue.str "array") ::
      ("items", JValue.obj [("type", IT)]) :: t)
      ([("type", JValue.str "array"), ("items", JValue.obj [("type", IT)])] ++ t) =
      [("type", JValue.str "array"), ("items", JValue.obj [("type", IT)])] ++ t := by
    apply copyEnum_noop
    intro e he
    rw [jget_cons_ne _ _ (by decide), jget_cons_ne _ _ (by decide)] at he
    rw [jget_append_right (show jget [("type", JValue.str "array"),
      ("items", JValue.obj [("type", IT)])] "enum" = none by simp [jget])]
    exact he
  rw [henum]
  rfl

/-- An array-headed normal form is a fixed point of the erasure. -/
theorem erase_fix_array {IT : JValue} {t : List (String × JValue)}
    (htt : tailShaped t = true) :
    eraseRequiredSchema (.obj (("type", .str "array") ::
      ("items", .obj [("type", IT)]) :: t)) =
      .obj (("type", .str "array") :: ("items", .obj [("type", IT)]) :: t) := by
  rw [eraseReq_obj]
  show JValue.obj (eraseReqFieldsWith eraseRequiredSchema
    ([("type", JValue.str "array"), ("items", JValue.obj [("type", IT)])] ++ t)) = _
  rw [eraseReqFieldsWith_append, eraseReqFieldsWith_tail htt]
  rfl

/-- The second pass on a full `object` normal form: the `required` key —
stored as a Go `[]string`, which the `[]any` type assertion of the reading
side rejects — is dropped, the properties are transformed again, and the
head and tail are otherwise kept. -/
theorem tps_obj_pass2 {SP reqPart t : List (String × JValue)}
    (htt : tailShaped t = true)
    (hreq : reqPart = [] ∨ ∃ vr, reqPart = [("required", JValue.strArr vr)])
    (hSPlen : SP.length ≤ 15) :
    transformPropertySchema (.obj (("type", .str "object") ::
      ("properties", .obj SP) ::
      (reqPart ++ ("additionalProperties", JValue.bool false) :: t))) =
    .obj (("type", .str "object") ::
      ("properties", .obj (innerProps transformPropertySchema SP)) ::
      ("additionalProperties", JValue.bool false) :: t) := by
  rcases hreq with hreq | ⟨vr, hreq⟩ <;> subst hreq
  · rw [tps_eq]
    simp only [List.nil_append]
    have hj : ∀ k, k ∉ scalarKeys ++ ["format"] → k ≠ "type" →
        k ≠ "properties" → k ≠ "additionalProperties" →
        jget (("type", JValue.str "object") :: ("properties", JValue.obj SP) ::
          ("additionalProperties", JValue.bool false) :: t) k = none := by
      intro k h1 h2 h3 h4
      rw [jget_cons_ne _ _ (Ne.symm h2), jget_cons_ne _ _ (Ne.symm h3),
        jget_cons_ne _ _ (Ne.symm h4)]
      exact tail_jget_none htt h1
    have hanyF : jhas (("type", JValue.str "object") ::
        ("properties", JValue.obj SP) ::
        ("additionalProperties", JValue.bool false) :: t) "anyOf" = false := by
      unfold jhas
      rw [hj "anyOf" (by decide) (by decide) (by decide) (by decide)]; rfl
    have honeF : jhas (("type", JValue.str "object") ::
        ("properties", JValue.obj SP) ::
        ("additionalProperties", JValue.bool false) :: t) "oneOf" = false := by
      unfold jhas
      rw [hj "oneOf" (by decide) (by decide) (by decide) (by decide)]; rfl
    have hallF : jhas (("type", JValue.str "object") ::
        ("properties", JValue.obj SP) ::
        ("additionalProperties", JValue.bool false) :: t) "allOf" = false := by
      unfold jhas
      rw [hj "allOf" (by decide) (by decide) (by decide) (by decide)]; rfl
    simp only [tpsStep, asObj]
    rw [if_neg (by rw [hanyF]; simp), if_neg (by rw [honeF]; simp),
      if_neg (by rw [hallF]; simp)]
    have hTB : typeBase (("type", JValue.str "object") ::
        ("properties", JValue.obj SP) ::
        ("additionalProperties", JValue.bool false) :: t) =
        [("type", JValue.str "object")] := by
      unfold typeBase
      rw [jget_cons_self]
    have hprops : jget (("type", JValue.str "object") ::
        ("properties", JValue.obj SP) ::
        ("additionalProperties", JValue.bool false) :: t) "properties" =
        some (JValue.obj SP) := by
      rw [jget_cons_ne _ _ (by decide), jget_cons_self]
    have hreqn : jget (("type", JValue.str "object") ::
        ("properties", JValue.obj SP) ::
        ("additionalProperties", JValue.bool false) :: t) "required" = none :=
      hj "required" (by decide) (by decide) (by decide) (by decide)
    have hcore : tpsCore transformPropertySchema
        (("type", JValue.str "object") :: ("properties", JValue.obj SP) ::
          ("additionalProperties", JValue.bool false) :: t) =
        [("type", JValue.str "object"),
         ("properties", JValue.obj (innerProps transformPropertySchema SP)),
         ("additionalProperties", JValue.bool false)] := by
      unfold tpsCore
      rw [hTB, jget_cons_self, Option.some_bind]
      dsimp only [asStr]
      rw [if_pos rfl]
      unfold objectBranch
      rw [hprops]
      dsimp only [asObj, Option.some_bind]
      rw [if_neg (by omega)]
      rw [hreqn]
      rfl
    rw [hcore]
    have hsplit : copyScalars (("type", JValue.str "object") ::
        ("properties", JValue.obj SP) ::
        ("additionalProperties", JValue.bool false) :: t)
        [("type", JValue.str "object"),
         ("properties", JValue.obj (innerProps transformPropertySchema SP)),
         ("additionalProperties", JValue.bool false)] =
        [("type", JValue.str "object"),
         ("properties", JValue.obj (innerProps transformPropertySchema SP)),
         ("additionalProperties", JValue.bool false)] ++ t := by
      show copyScalars t (scalarStep (scalarStep (scalarStep
        [("type", JValue.str "object"),
         ("properties", JValue.obj (innerProps transformPropertySchema SP)),
         ("additionalProperties", JValue.bool false)]
        ("type", JValue.str "object")) ("properties", JValue.obj SP))
        ("additionalProperties", JValue.bool false)) = _
      rw [scalarStep_skip (by simp [scalarKeys]) (by simp),
        scalarStep_skip (by simp [scalarKeys]) (by simp),
        scalarStep_skip (by simp [scalarKeys]) (by simp)]
      exact copyScalars_self htt (tail_fresh htt
        (hns_cons (by decide) (hns_cons (by decide)
          (hns_cons (by decide) hns_nil))))
    rw [hsplit]
    have henum : copyEnum (("type", JValue.str "object") ::
        ("properties", JValue.obj SP) ::
        ("additionalProperties", JValue.bool false) :: t)
        ([("type", JValue.str "object"),
          ("properties", JValue.obj (innerProps transformPropertySchema SP)),
          ("additionalProperties", JValue.bool false)] ++ t) =
        [("type", JValue.str "object"),
         ("properties", JValue.obj (innerProps transformPropertySchema SP)),
         ("additionalProperties", JValue.bool false)] ++ t := by
      apply copyEnum_noop
      intro e he
      rw [jget_cons_ne _ _ (by decide), jget_cons_ne _ _ (by decide),
        jget_cons_ne _ _ (by decide)] at he
      rw [jget_append_right (show jget
        [("type", JValue.str "object"),
         ("properties", JValue.obj (innerProps transformPropertySchema SP)),
         ("additionalProperties", JValue.bool false)] "enum" = none
        by simp [jget])]
      exact he
    rw [henum]
    rfl
  · rw [tps_eq]
    simp only [List.cons_append, List.nil_append]
    have hj : ∀ k, k ∉ scalarKeys ++ ["format"] → k ≠ "type" →
        k ≠ "properties" → k ≠ "required" → k ≠ "additionalProperties" →
        jget (("type", JValue.str "object") :: ("properties", JValue.obj SP) ::
          ("required", JValue.strArr vr) ::
          ("additionalProperties", JValue.bool false) :: t) k = none := by
      intro k h1 h2 h3 h4 h5
      rw [jget_cons_ne _ _ (Ne.symm h2), jget_cons_ne _ _ (Ne.symm h3),
        jget_cons_ne _ _ (Ne.symm h4), jget_cons_ne _ _ (Ne.symm h5)]
      exact tail_jget_none htt h1
    have hanyF : jhas (("type", JValue.str "object") ::
        ("properties", JValue.obj SP) :: ("required", JValue.strArr vr) ::
        ("additionalProperties", JValue.bool false) :: t) "anyOf" = false := by
      unfold jhas
      rw [hj "anyOf" (by decide) (by decide) (by decide) (by decide) (by decide)]
      rfl
    have honeF : jhas (("type", JValue.str "object") ::
        ("properties", JValue.obj SP) :: ("required", JValue.strArr vr) ::
        ("additionalProperties", JValue.bool false) :: t) "oneOf" = false := by
      unfold jhas
      rw [hj "oneOf" (by decide) (by decide) (by decide) (by decide) (by decide)]
      rfl
    have hallF : jhas (("type", JValue.str "object") ::
        ("properties", JValue.obj SP) :: ("required", JValue.strArr vr) ::
        ("additionalProperties", JValue.bool false) :: t) "allOf" = false := by
      unfold jhas
      rw [hj "allOf" (by decide) (by decide) (by decide) (by decide) (by decide)]
      rfl
    simp only [tpsStep, asObj]
    rw [if_neg (by rw [hanyF]; simp), if_neg (by rw [honeF]; simp),
      if_neg (by rw [hallF]; simp)]
    have hTB : typeBase (("type", JValue.str "object") ::
        ("properties", JValue.obj SP) :: ("required", JValue.strArr vr) ::
        ("additionalProperties", JValue.bool false) :: t) =
        [("type", JValue.str "object")] := by
      unfold typeBase
      rw [jget_cons_self]
    have hprops : jget (("type", JValue.str "object") ::
        ("properties", JValue.obj SP) :: ("required", JValue.strArr vr) ::
        ("additionalProperties", JValue.bool false) :: t) "properties" =
        some (JValue.obj SP) := by
      rw [jget_cons_ne _ _ (by decide), jget_cons_self]
    have hreqv : jget (("type", JValue.str "object") ::
        ("properties", JValue.obj SP) :: ("required", JValue.strArr vr) ::
        ("additionalProperties", JValue.bool false) :: t) "required" =
        some (JValue.strArr vr) := by
      rw [jget_cons_ne _ _ (by decide), jget_cons_ne _ _ (by decide),
        jget_cons_self]
    have hcore : tpsCore transformPropertySchema
        (("type", JValue.str "object") :: ("properties", JValue.obj SP) ::
          ("required", JValue.strArr vr) ::
          ("additionalProperties", JValue.bool false) :: t) =
        [("type", JValue.str "object"),
         ("properties", JValue.obj (innerProps transformPropertySchema SP)),
         ("additionalProperties", JValue.bool false)] := by
      unfold tpsCore
      rw [hTB, jget_cons_self, Option.some_bind]
      dsimp only [asStr]
      rw [if_pos rfl]
      unfold objectBranch
      rw [hprops]
      dsimp only [asObj, Option.some_bind]
      rw [if_neg (by omega)]
      rw [hreqv]
      rfl
    rw [hcore]
    have hsplit : copyScalars (("type", JValue.str "object") ::
        ("properties", JValue.obj SP) :: ("required", JValue.strArr vr) ::
        ("additionalProperties", JValue.bool false) :: t)
        [("type", JValue.str "object"),
         ("properties", JValue.obj (innerProps transformPropertySchema SP)),
         ("additionalProperties", JValue.bool false)] =
        [("type", JValue.str "object"),
         ("properties", JValue.obj (innerProps transformPropertySchema SP)),
         ("additionalProperties", JValue.bool false)] ++ t := by
      show copyScalars t (scalarStep (scalarStep (scalarStep (scalarStep
        [("type", JValue.str "object"),
         ("properties", JValue.obj (innerProps transformPropertySchema SP)),
         ("additionalProperties", JValue.bool false)]
        ("type", JValue.str "object")) ("properties", JValue.obj SP))
        ("required", JValue.strArr vr))
        ("additionalProperties", JValue.bool false)) = _
      rw [scalarStep_skip (by simp [scalarKeys]) (by simp),
        scalarStep_skip (by simp [scalarKeys]) (by simp),
        scalarStep_skip (by simp [scalarKeys]) (by simp),
        scalarStep_skip (by simp [scalarKeys]) (by simp)]
      exact copyScalars_self htt (tail_fresh htt
        (hns_cons (by decide) (hns_cons (by decide)
          (hns_cons (by decide) hns_nil))))
    rw [hsplit]
    have henum : copyEnum (("type", JValue.str "object") ::
        ("properties", JValue.obj SP) :: ("required", JValue.strArr vr) ::
        ("additionalProperties", JValue.bool false) :: t)
        ([("type", JValue.str "object"),
          ("properties", JValue.obj (innerProps transformPropertySchema SP)),
          ("additionalProperties", JValue.bool false)] ++ t) =
        [("type", JValue.str "object"),
         ("properties", JValue.obj (innerProps transformPropertySchema SP)),
         ("additionalProperties", JValue.bool false)] ++ t := by
      apply copyEnum_noop
      intro e he
      rw [jget_cons_ne _ _ (by decide), jget_cons_ne _ _ (by decide),
        jget_cons_ne _ _ (by decide), jget_cons_ne _ _ (by decide)] at he
      rw [jget_append_right (show jget
        [("type", JValue.str "object"),
         ("properties", JValue.obj (innerProps transformPropertySchema SP)),
         ("additionalProperties", JValue.bool false)] "enum" = none
        by simp [jget])]
      exact he
    rw [henum]
    rfl

/-- Erasure of a full `object` normal form: drops the `required` binding
and recurses into the property values. -/
theorem erase_obj_head {SP reqPart t : List (String × JValue)}
    (htt : tailShaped t = true)
    (hreq : reqPart = [] ∨ ∃ vr, reqPart = [("required", JValue.strArr vr)]) :
    eraseRequiredSchema (.obj (("type", .str "object") ::
      ("properties", .obj SP) ::
      (reqPart ++ ("additionalProperties", JValue.bool false) :: t))) =
    .obj (("type", .str "object") ::
      ("properties", .obj (SP.map (fun kv => (kv.1, eraseRequiredSchema kv.2)))) ::
      ("additionalProperties", JValue.bool false) :: t) := by
  rcases hreq with hreq | ⟨vr, hreq⟩ <;> subst hreq
  · rw [eraseReq_obj]
    show JValue.obj (eraseReqFieldsWith eraseRequiredSchema
      ([("type", JValue.str "object"), ("properties", JValue.obj SP),
        ("additionalProperties", JValue.bool false)] ++ t)) = _
    rw [eraseReqFieldsWith_append, eraseReqFieldsWith_tail htt]
    rfl
  · rw [eraseReq_obj]
    show JValue.obj (eraseReqFieldsWith eraseRequiredSchema
      ([("type", JValue.str "object"), ("properties", JValue.obj SP),
        ("required", JValue.strArr vr),
        ("additionalProperties", JValue.bool false)] ++ t)) = _
    rw [eraseReqFieldsWith_append, eraseReqFieldsWith_tail htt]
    rfl

/-- Size-bounded main induction: a second transformation pass equals
`required`-erasure of the first pass's output. -/
theorem tps_tps_bounded : ∀ (N : Nat) (s : JValue), jsize s ≤ N →
    transformPropertySchema (transformPropertySchema s) =
      eraseRequiredSchema (transformPropertySchema s) := by
  intro N
  induction N with
  | zero => intro s hs; exfalso; have := jsize_pos s; omega
  | succ N ih =>
    intro s hs
    rcases tps_normal_form s with
      ⟨V, t, htt, heq, hV⟩ | ⟨IT, t, htt, heq⟩ |
      ⟨m, props, reqPart, t, htt, hseq, _, _, _, _, hp, hlen, hreq, heq⟩
    · rw [heq, tps_fix_scalar htt hV, erase_fix_scalar htt]
    · rw [heq, tps_fix_array htt, erase_fix_array htt]
    · subst hseq
      have hSPlen : (innerProps transformPropertySchema props).length ≤ 15 :=
        le_trans (innerProps_length _ props) hlen
      rw [heq, tps_obj_pass2 htt hreq hSPlen, erase_obj_head htt hreq]
      have hSP := innerProps_entries transformPropertySchema props
      have hgood : ∀ kv ∈ innerProps transformPropertySchema props,
          isValidParamName kv.1 = true ∧ flattenCond kv.2 = false := by
        intro kv hkv
        rcases hSP kv hkv with ⟨hvalid, hchar⟩
        refine ⟨hvalid, ?_⟩
        rcases hchar with ⟨k0, hkv2⟩ | ⟨k0, w, hwmem, hwfl, hkv2⟩
        · rw [hkv2]; exact flatten_nested k0
        · rw [hkv2]; exact flatten_tps_false hwfl
      have hfix : ∀ kv ∈ innerProps transformPropertySchema props,
          transformPropertySchema kv.2 = eraseRequiredSchema kv.2 := by
        intro kv hkv
        rcases hSP kv hkv with ⟨hvalid, hchar⟩
        rcases hchar with ⟨k0, hkv2⟩ | ⟨k0, w, hwmem, hwfl, hkv2⟩
        · rw [hkv2, tps_nested_fix, erase_nested_fix]
        · rw [hkv2]
          apply ih
          have hsz : jsize w < jsize (JValue.obj m) := size_chain hp hwmem
          omega
      have hnd : ((innerProps transformPropertySchema props).map Prod.fst).Nodup :=
        keysDistinct_iff.mp (innerProps_distinct _ props)
      rw [innerProps_map hgood hnd]
      have hmap : (innerProps transformPropertySchema props).map
            (fun kv => (kv.1, transformPropertySchema kv.2)) =
          (innerProps transformPropertySchema props).map
            (fun kv => (kv.1, eraseRequiredSchema kv.2)) :=
        List.map_congr_left (fun kv hkv => by rw [hfix kv hkv])
      rw [hmap]

/-- **Second pass of `transformPropertySchema`.**  On any schema value the
second pass equals `required`-erasure of the first pass's output. -/
theorem tps_second_pass (s : JValue) :
    transformPropertySchema (transformPropertySchema s) =
      eraseRequiredSchema (transformPropertySchema s) :=
  tps_tps_bounded (jsize s) s (le_refl _)

/-! ### Top-level parameter map characterization -/

/-- In a property map with only valid names, an invalid name reads as
absent. -/
theorem jget_invalid_none {ps : List (String × JValue)} {k : String}
    (hvalid : ∀ kv ∈ ps, isValidParamName kv.1 = true)
    (hk : isValidParamName k = false) : jget ps k = none := by
  rw [jget_none_keys]
  intro hmem
  rcases List.mem_map.mp hmem with ⟨kv, hkv, hfst⟩
  have := hvalid kv hkv
  rw [hfst] at this
  rw [this] at hk
  cases hk

/-- The top-level `required` loop never changes the result map when the
already-built properties all carry valid names: the rename branch looks up
the (invalid) original name, which cannot be a key. -/
theorem reqFold_snd : ∀ (reqs : List JValue) (st1 : List String)
    (r : List (String × JValue)),
    (∀ ps, (jget r "properties").bind asObj = some ps →
      ∀ kv ∈ ps, isValidParamName kv.1 = true) →
    (reqs.foldl reqFold (st1, r)).2 = r := by
  intro reqs
  induction reqs with
  | nil => intro st1 r _; rfl
  | cons x rest ih =>
    intro st1 r hr
    rw [List.foldl_cons]
    have hstep : ∃ st1b, reqFold (st1, r) x = (st1b, r) := by
      unfold reqFold
      cases hx : asStr x with
      | none => exact ⟨st1, rfl⟩
      | some reqStr =>
        dsimp only
        by_cases hv : isValidParamName reqStr
        · rw [if_pos hv]
          exact ⟨st1 ++ [reqStr], rfl⟩
        · rw [if_neg hv]
          by_cases ht : transformParamName reqStr ≠ reqStr ∧
              isValidParamName (transformParamName reqStr) = true
          · rw [if_pos (by simp [ht.1, ht.2])]
            refine ⟨st1 ++ [transformParamName reqStr], ?_⟩
            cases hp : (jget r "properties").bind asObj with
            | none => rfl
            | some props =>
              dsimp only
              rw [jget_invalid_none (hr props hp)
                (by rw [Bool.eq_false_iff]; exact hv)]
          · rw [if_neg (by
              intro hcon
              apply ht
              simp only [Bool.and_eq_true, bne_iff_ne, ne_eq,
                decide_eq_true_eq] at hcon
              exact ⟨by simpa using hcon.1, hcon.2⟩)]
            exact ⟨st1, rfl⟩
    obtain ⟨st1b, hstep⟩ := hstep
    rw [hstep]
    exact ih st1b r hr

/-- The synthetic `data` parameter schema is a fixed point of the
transformation. -/
theorem tps_data_fix (n : Nat) :
    transformPropertySchema (dataParamSchema n) = dataParamSchema n := by
  rw [tps_eq]
  rfl

/-- The synthetic `data` parameter schema is a fixed point of the
erasure. -/
theorem erase_data_fix (n : Nat) :
    eraseRequiredSchema (dataParamSchema n) = dataParamSchema n := by
  rw [eraseReq_eq]
  rfl

/-- Every entry the `transformProperties` loop produces has a valid name
and a transformed value. -/
theorem topFold_entries :
    ∀ (l acc : List (String × JValue)),
    (∀ kv ∈ acc, isValidParamName kv.1 = true ∧
      ∃ w, kv.2 = transformPropertySchema w) →
    ∀ kv ∈ l.foldl topStep acc,
      isValidParamName kv.1 = true ∧ ∃ w, kv.2 = transformPropertySchema w := by
  intro l
  induction l with
  | nil => intro acc hacc kv hkv; exact hacc kv hkv
  | cons kv2 rest ih =>
    intro acc hacc kv hkv
    rw [List.foldl_cons] at hkv
    refine ih _ ?_ kv hkv
    intro kv3 h3
    unfold topStep at h3
    by_cases hv : isValidParamName
        (if isValidParamName kv2.1 then kv2.1 else transformParamName kv2.1)
    · rw [if_pos hv] at h3
      rcases jset_mem h3 with h4 | h4
      · exact hacc kv3 h4
      · rw [h4]
        exact ⟨hv, kv2.2, rfl⟩
    · rw [if_neg hv] at h3
      exact hacc kv3 h3

/-- The `transformProperties` loop keeps keys distinct. -/
theorem topFold_distinct :
    ∀ (l acc : List (String × JValue)), keysDistinct acc = true →
    keysDistinct (l.foldl topStep acc) = true := by
  intro l
  induction l with
  | nil => intro acc h; exact h
  | cons kv rest ih =>
    intro acc h
    rw [List.foldl_cons]
    apply ih
    unfold topStep
    by_cases hv : isValidParamName
        (if isValidParamName kv.1 then kv.1 else transformParamName kv.1)
    · rw [if_pos hv]; exact keysDistinct_jset h
    · rw [if_neg hv]; exact h

/-- The `transformProperties` loop adds at most one binding per property. -/
theorem topFold_length :
    ∀ (l acc : List (String × JValue)),
    (l.foldl topStep acc).length ≤ acc.length + l.length := by
  intro l
  induction l with
  | nil => intro acc; simp
  | cons kv rest ih =>
    intro acc
    rw [List.foldl_cons]
    have h1 : (topStep acc kv).length ≤ acc.length + 1 := by
      unfold topStep
      by_cases hv : isValidParamName
          (if isValidParamName kv.1 then kv.1 else transformParamName kv.1)
      · rw [if_pos hv]; exact jset_length_le _ _ _
      · rw [if_neg hv]; omega
    have h2 := ih (topStep acc kv)
    simp only [List.length_cons]
    omega

/-- The collapse loop preserves entry goodness and key distinctness. -/
theorem collapseFold_inv :
    ∀ (props : List (String × JValue))
      (st : List (String × JValue) × List String × Nat),
    (∀ kv ∈ st.1, isValidParamName kv.1 = true ∧
      ∃ w, kv.2 = transformPropertySchema w) →
    keysDistinct st.1 = true →
    (∀ kv ∈ (props.foldl collapseStep st).1,
      isValidParamName kv.1 = true ∧ ∃ w, kv.2 = transformPropertySchema w) ∧
    keysDistinct (props.foldl collapseStep st).1 = true := by
  intro props
  induction props with
  | nil => intro st h1 h2; exact ⟨h1, h2⟩
  | cons kv rest ih =>
    intro st h1 h2
    rw [List.foldl_cons]
    apply ih
    · intro kv3 h3
      unfold collapseStep at h3
      by_cases hc : st.2.2 ≥ 5
      · rw [if_pos hc] at h3; exact h1 kv3 h3
      · rw [if_neg hc] at h3
        by_cases hv : isValidParamName
            (if isValidParamName kv.1 then kv.1 else transformParamName kv.1)
        · rw [if_pos hv] at h3
          dsimp only at h3
          rcases jset_mem h3 with h4 | h4
          · exact h1 kv3 h4
          · rw [h4]
            exact ⟨hv, kv.2, rfl⟩
        · rw [if_neg hv] at h3; exact h1 kv3 h3
    · unfold collapseStep
      by_cases hc : st.2.2 ≥ 5
      · rw [if_pos hc]; exact h2
      · rw [if_neg hc]
        by_cases hv : isValidParamName
            (if isValidParamName kv.1 then kv.1 else transformParamName kv.1)
        · rw [if_pos hv]
          exact keysDistinct_jset h2
        · rw [if_neg hv]; exact h2

/-- The collapse loop adds at most `5 - counter` bindings. -/
theorem collapseFold_len :
    ∀ (props : List (String × JValue))
      (st : List (String × JValue) × List String × Nat),
    (props.foldl collapseStep st).1.length ≤ st.1.length + (5 - st.2.2) := by
  intro props
  induction props with
  | nil => intro st; simp
  | cons kv rest ih =>
    intro st
    rw [List.foldl_cons]
    have := ih (collapseStep st kv)
    unfold collapseStep at this ⊢
    by_cases hc : st.2.2 ≥ 5
    · rw [if_pos hc] at this ⊢
      exact this
    · rw [if_neg hc] at this ⊢
      by_cases hv : isValidParamName
          (if isValidParamName kv.1 then kv.1 else transformParamName kv.1)
      · rw [if_pos hv] at this ⊢
        dsimp only at this ⊢
        have hj := jset_length_le st.1
          (if isValidParamName kv.1 then kv.1 else transformParamName kv.1)
          (transformPropertySchema kv.2)
        omega
      · rw [if_neg hv] at this ⊢
        exact this

/-- Shape of the `type` stage of `transformParameters`. -/
theorem tpTypeStage_nf (m : List (String × JValue)) :
    ∃ tPart, (tPart = [] ∨ ∃ tv, tPart = [("type", tv)]) ∧
      tpTypeStage m = tPart := by
  unfold tpTypeStage
  cases jget m "type" with
  | none => exact ⟨[], Or.inl rfl, rfl⟩
  | some tv => exact ⟨[("type", tv)], Or.inr ⟨tv, rfl⟩, rfl⟩

/-- Shape of the `properties` stage of `transformParameters`: it appends an
optional properties binding (valid, distinct keys; at most 15 entries; each
value a transformed schema) and an optional `[]string` `required`
binding. -/
theorem tpPropsStage_nf (m tPart : List (String × JValue))
    (htpP : jget tPart "properties" = none)
    (htpR : jget tPart "required" = none) :
    ∃ pPart rPart0,
      (pPart = [] ∨ ∃ P1, pPart = [("properties", JValue.obj P1)] ∧
        (∀ kv ∈ P1, isValidParamName kv.1 = true ∧
          ∃ w, kv.2 = transformPropertySchema w) ∧
        keysDistinct P1 = true ∧ P1.length ≤ 15) ∧
      (rPart0 = [] ∨ ∃ R, rPart0 = [("required", JValue.strArr R)]) ∧
      tpPropsStage m tPart = (tPart ++ pPart) ++ rPart0 := by
  unfold tpPropsStage
  cases hp : (jget m "properties").bind asObj with
  | none =>
    refine ⟨[], [], Or.inl rfl, Or.inl rfl, by simp⟩
  | some props =>
    dsimp only
    by_cases hlen : props.length > 15
    · rw [if_pos hlen]
      have h0 : ∀ kv0 ∈ [("data", dataParamSchema props.length)],
          isValidParamName kv0.1 = true ∧
          ∃ w, kv0.2 = transformPropertySchema w := by
        intro kv0 h0
        rw [List.mem_singleton.mp h0]
        refine ⟨?_, dataParamSchema props.length,
          (tps_data_fix props.length).symm⟩
        show isValidParamName "data" = true
        decide
      have hinv := collapseFold_inv props
        ([("data", dataParamSchema props.length)], [], 0) h0 rfl
      refine ⟨[("properties", JValue.obj
          (collapseExtras props [("data", dataParamSchema props.length)]).1)],
        [("required", JValue.strArr
          ("data" :: (collapseExtras props [("data", dataParamSchema props.length)]).2))],
        Or.inr ⟨_, rfl, ?_, ?_, ?_⟩, Or.inr ⟨_, rfl⟩, ?_⟩
      · exact hinv.1
      · exact hinv.2
      · have := collapseFold_len props
          ([("data", dataParamSchema props.length)], [], 0)
        show (List.foldl collapseStep
          ([("data", dataParamSchema props.length)], [], 0) props).1.length ≤ 15
        simp only [List.length_singleton] at this
        omega
      · rw [jset_of_none _ htpP]
        rw [jset_of_none _ (by rw [jget_append_right htpR]; simp [jget])]
    · rw [if_neg hlen]
      refine ⟨[("properties", JValue.obj (transformProperties props))], [],
        Or.inr ⟨_, rfl, ?_, ?_, ?_⟩, Or.inl rfl, ?_⟩
      · exact topFold_entries props []
          (fun kv h => absurd h (List.not_mem_nil kv))
      · exact topFold_distinct props [] rfl
      · show (props.foldl topStep []).length ≤ 15
        have := topFold_length props []
        simp only [List.length_nil, Nat.zero_add] at this
        omega
      · rw [jset_of_none _ htpP]
        simp

/-- Shape of the top-level `required` stage: the input map is never
changed (renames look up invalid names that cannot be keys), and the
`required` binding — if any — is a `[]string`. -/
theorem tpReqStage_nf (m a rPart0 : List (String × JValue))
    (hP : ∀ ps, (jget (a ++ rPart0) "properties").bind asObj = some ps →
      ∀ kv ∈ ps, isValidParamName kv.1 = true)
    (hra : jget a "required" = none)
    (hrp0 : rPart0 = [] ∨ ∃ R, rPart0 = [("required", JValue.strArr R)]) :
    ∃ rPart, (rPart = [] ∨ ∃ R, rPart = [("required", JValue.strArr R)]) ∧
      tpReqStage m (a ++ rPart0) = a ++ rPart := by
  unfold tpReqStage
  cases hr : (jget m "required").bind asArr with
  | none => exact ⟨rPart0, hrp0, rfl⟩
  | some reqs =>
    dsimp only
    rw [reqFold_snd reqs [] (a ++ rPart0) hP]
    by_cases hR0 : (reqs.foldl reqFold ([], a ++ rPart0)).1 ≠ []
    · rw [if_pos hR0]
      refine ⟨[("required",
          JValue.strArr (reqs.foldl reqFold ([], a ++ rPart0)).1)],
        Or.inr ⟨_, rfl⟩, ?_⟩
      rcases hrp0 with hrp0 | ⟨R, hrp0⟩ <;> subst hrp0
      · rw [List.append_nil]
        exact jset_of_none _ hra
      · rw [jset_append_right _ _ hra]
        rfl
    · rw [if_neg hR0]
      exact ⟨rPart0, hrp0, rfl⟩

/-- Normal form of `transformParameters`: an optional verbatim `type`, an
optional transformed `properties` map, an optional `[]string` `required`,
and a final `additionalProperties: false`. -/
theorem transformParameters_nf (p : Option (List (String × JValue))) :
    ∃ tPart pPart rPart,
      (tPart = [] ∨ ∃ tv, tPart = [("type", tv)]) ∧
      (pPart = [] ∨ ∃ P1, pPart = [("properties", JValue.obj P1)] ∧
        (∀ kv ∈ P1, isValidParamName kv.1 = true ∧
          ∃ w, kv.2 = transformPropertySchema w) ∧
        keysDistinct P1 = true ∧ P1.length ≤ 15) ∧
      (rPart = [] ∨ ∃ R, rPart = [("required", JValue.strArr R)]) ∧
      transformParameters p =
        tPart ++ pPart ++ rPart ++ [("additionalProperties", JValue.bool false)] := by
  cases p with
  | none =>
    refine ⟨[("type", JValue.str "object")], [("properties", JValue.obj [])],
      [], Or.inr ⟨_, rfl⟩, Or.inr ⟨[], rfl, ?_, rfl, by decide⟩,
      Or.inl rfl, rfl⟩
    intro kv hkv
    cases hkv
  | some m =>
    obtain ⟨tPart, htp, hr0⟩ := tpTypeStage_nf m
    have htpP : jget tPart "properties" = none := by
      rcases htp with h | ⟨tv, h⟩ <;> subst h
      · rfl
      · simp [jget]
    have htpR : jget tPart "required" = none := by
      rcases htp with h | ⟨tv, h⟩ <;> subst h
      · rfl
      · simp [jget]
    have htpA : jget tPart "additionalProperties" = none := by
      rcases htp with h | ⟨tv, h⟩ <;> subst h
      · rfl
      · simp [jget]
    obtain ⟨pPart, rPart0, hpp, hrp0, hr1⟩ := tpPropsStage_nf m tPart htpP htpR
    have hppP : ∀ ps, (jget ((tPart ++ pPart) ++ rPart0) "properties").bind asObj
        = some ps → ∀ kv ∈ ps, isValidParamName kv.1 = true := by
      intro ps hps kv hkv
      rcases hpp with hpp | ⟨P1, hpp, hgood, _, _⟩ <;> subst hpp
      · rcases hrp0 with hrp0 | ⟨R, hrp0⟩ <;> subst hrp0
        · simp only [List.append_nil] at hps
          rw [htpP] at hps
          simp at hps
        · rw [List.append_nil, jget_append_right htpP] at hps
          simp [jget] at hps
      · rw [List.append_assoc, jget_append_right htpP] at hps
        rw [show jget ([("properties", JValue.obj P1)] ++ rPart0) "properties"
            = some (JValue.obj P1) from by simp [jget]] at hps
        simp only [Option.some_bind, asObj] at hps
        cases hps
        exact (hgood kv hkv).1
    have hppR : jget (tPart ++ pPart) "required" = none := by
      rw [jget_append_right htpR]
      rcases hpp with hpp | ⟨P1, hpp, _, _, _⟩ <;> subst hpp
      · rfl
      · simp [jget]
    obtain ⟨rPart, hrp, hr2⟩ := tpReqStage_nf m (tPart ++ pPart) rPart0
      hppP hppR hrp0
    refine ⟨tPart, pPart, rPart, htp, hpp, hrp, ?_⟩
    show jset (tpReqStage m (tpPropsStage m (tpTypeStage m)))
      "additionalProperties" (JValue.bool false) = _
    rw [hr0, hr1, hr2]
    have hA : jget ((tPart ++ pPart) ++ rPart) "additionalProperties" = none := by
      rw [jget_append_right (by
        rw [jget_append_right htpA]
        rcases hpp with hpp | ⟨P1, hpp, _, _, _⟩ <;> subst hpp
        · rfl
        · simp [jget])]
      rcases hrp with hrp | ⟨R, hrp⟩ <;> subst hrp
      · rfl
      · simp [jget]
    rw [jset_of_none _ hA]

/-- **Second pass of `transformParameters`.**  Re-sanitizing a sanitized
parameter map equals `required`-erasure of it: the `[]string`-typed
`required` keys are dropped (the `[]any` assertions fail on them) and
everything else is reproduced. -/
theorem transformParameters_second_pass (p : Option (List (String × JValue))) :
    transformParameters (some (transformParameters p)) =
      eraseRequiredParams (transformParameters p) := by
  obtain ⟨tPart, pPart, rPart, htp, hpp, hrp, heq⟩ := transformParameters_nf p
  rw [heq]
  clear heq
  rcases hpp with hpp | ⟨P1, hpp, hgood, hdist, hlen⟩
  · subst hpp
    rcases htp with htp | ⟨tv, htp⟩ <;> subst htp <;>
      (rcases hrp with hrp | ⟨R, hrp⟩ <;> subst hrp) <;> rfl
  · subst hpp
    have hmap : transformProperties P1 =
        P1.map (fun kv => (kv.1, eraseRequiredSchema kv.2)) := by
      rw [transformProperties_map (fun kv hkv => (hgood kv hkv).1)
        (keysDistinct_iff.mp hdist)]
      apply List.map_congr_left
      intro kv hkv
      obtain ⟨w, hw⟩ := (hgood kv hkv).2
      rw [hw, tps_second_pass w]
    have hnot : ¬(P1.length > 15) := by omega
    rcases htp with htp | ⟨tv, htp⟩ <;> subst htp <;>
      (rcases hrp with hrp | ⟨R, hrp⟩ <;> subst hrp)
    · show transformParameters (some [("properties", JValue.obj P1),
        ("additionalProperties", JValue.bool false)]) =
        eraseRequiredParams [("properties", JValue.obj P1),
        ("additionalProperties", JValue.bool false)]
      have h2 : tpPropsStage [("properties", JValue.obj P1),
          ("additionalProperties", JValue.bool false)] [] =
          [("properties", JValue.obj (transformProperties P1))] := by
        unfold tpPropsStage
        rw [show (jget [("properties", JValue.obj P1),
          ("additionalProperties", JValue.bool false)] "properties").bind asObj =
          some P1 from rfl]
        dsimp only
        rw [if_neg hnot]
        simp [jset]
      show jset (tpReqStage [("properties", JValue.obj P1),
        ("additionalProperties", JValue.bool false)]
        (tpPropsStage [("properties", JValue.obj P1),
          ("additionalProperties", JValue.bool false)]
          (tpTypeStage [("properties", JValue.obj P1),
            ("additionalProperties", JValue.bool false)])))
        "additionalProperties" (JValue.bool false) = _
      rw [show tpTypeStage [("properties", JValue.obj P1),
        ("additionalProperties", JValue.bool false)] =
        ([] : List (String × JValue)) from rfl, h2, hmap]
      rfl
    · show transformParameters (some [("properties", JValue.obj P1),
        ("required", JValue.strArr R),
        ("additionalProperties", JValue.bool false)]) =
        eraseRequiredParams [("properties", JValue.obj P1),
        ("required", JValue.strArr R),
        ("additionalProperties", JValue.bool false)]
      have h2 : tpPropsStage [("properties", JValue.obj P1),
          ("required", JValue.strArr R),
          ("additionalProperties", JValue.bool false)] [] =
          [("properties", JValue.obj (transformProperties P1))] := by
        unfold tpPropsStage
        rw [show (jget [("properties", JValue.obj P1),
          ("required", JValue.strArr R),
          ("additionalProperties", JValue.bool false)] "properties").bind asObj =
          some P1 from rfl]
        dsimp only
        rw [if_neg hnot]
        simp [jset]
      show jset (tpReqStage [("properties", JValue.obj P1),
        ("required", JValue.strArr R),
        ("additionalProperties", JValue.bool false)]
        (tpPropsStage [("properties", JValue.obj P1),
          ("required", JValue.strArr R),
          ("additionalProperties", JValue.bool false)]
          (tpTypeStage [("properties", JValue.obj P1),
            ("required", JValue.strArr R),
            ("additionalProperties", JValue.bool false)])))
        "additionalProperties" (JValue.bool false) = _
      rw [show tpTypeStage [("properties", JValue.obj P1),
        ("required", JValue.strArr R),
        ("additionalProperties", JValue.bool false)] =
        ([] : List (String × JValue)) from rfl, h2, hmap]
      rfl
    · show transformParameters (some [("type", tv), ("properties", JValue.obj P1),
        ("additionalProperties", JValue.bool false)]) =
        eraseRequiredParams [("type", tv), ("properties", JValue.obj P1),
        ("additionalProperties", JValue.bool false)]
      have h2 : tpPropsStage [("type", tv), ("properties", JValue.obj P1),
          ("additionalProperties", JValue.bool false)] [("type", tv)] =
          [("type", tv), ("properties", JValue.obj (transformProperties P1))] := by
        unfold tpPropsStage
        rw [show (jget [("type", tv), ("properties", JValue.obj P1),
          ("additionalProperties", JValue.bool false)] "properties").bind asObj =
          some P1 from rfl]
        dsimp only
        rw [if_neg hnot]
        simp [jset]
      show jset (tpReqStage [("type", tv), ("properties", JValue.obj P1),
        ("additionalProperties", JValue.bool false)]
        (tpPropsStage [("type", tv), ("properties", JValue.obj P1),
          ("additionalProperties", JValue.bool false)]
          (tpTypeStage [("type", tv), ("properties", JValue.obj P1),
            ("additionalProperties", JValue.bool false)])))
        "additionalProperties" (JValue.bool false) = _
      rw [show tpTypeStage [("type", tv), ("properties", JValue.obj P1),
        ("additionalProperties", JValue.bool false)] = [("type", tv)] from rfl,
        h2, hmap]
      rfl
    · show transformParameters (some [("type", tv), ("properties", JValue.obj P1),
        ("required", JValue.strArr R),
        ("additionalProperties", JValue.bool false)]) =
        eraseRequiredParams [("type", tv), ("properties", JValue.obj P1),
        ("required", JValue.strArr R),
        ("additionalProperties", JValue.bool false)]
      have h2 : tpPropsStage [("type", tv), ("properties", JValue.obj P1),
          ("required", JValue.strArr R),
          ("additionalProperties", JValue.bool false)] [("type", tv)] =
          [("type", tv), ("properties", JValue.obj (transformProperties P1))] := by
        unfold tpPropsStage
        rw [show (jget [("type", tv), ("properties", JValue.obj P1),
          ("required", JValue.strArr R),
          ("additionalProperties", JValue.bool false)] "properties").bind asObj =
          some P1 from rfl]
        dsimp only
        rw [if_neg hnot]
        simp [jset]
      show jset (tpReqStage [("type", tv), ("properties", JValue.obj P1),
        ("required", JValue.strArr R),
        ("additionalProperties", JValue.bool false)]
        (tpPropsStage [("type", tv), ("properties", JValue.obj P1),
          ("required", JValue.strArr R),
          ("additionalProperties", JValue.bool false)]
          (tpTypeStage [("type", tv), ("properties", JValue.obj P1),
            ("required", JValue.strArr R),
            ("additionalProperties", JValue.bool false)])))
        "additionalProperties" (JValue.bool false) = _
      rw [show tpTypeStage [("type", tv), ("properties", JValue.obj P1),
        ("required", JValue.strArr R),
        ("additionalProperties", JValue.bool false)] = [("type", tv)] from rfl,
        h2, hmap]
      rfl

/-- The tool loop step on a concatenated accumulator. -/
theorem vttStep_append (a b : List Tool) (t : Tool) :
    vttStep (a ++ b) t = a ++ vttStep b t := by
  unfold vttStep
  by_cases hv : isValidParamName t.function.name
  · rw [if_pos hv, if_pos hv, List.append_assoc]
  · rw [if_neg hv, if_neg hv]

/-- The tool loop only appends to its accumulator. -/
theorem vttFold_shift : ∀ (ts a : List Tool),
    ts.foldl vttStep a = a ++ ts.foldl vttStep [] := by
  intro ts
  induction ts with
  | nil => intro a; simp
  | cons t ts ih =>
    intro a
    rw [List.foldl_cons, List.foldl_cons, ih (vttStep a t), ih (vttStep [] t)]
    rw [show vttStep a t = a ++ vttStep [] t from by
      have := vttStep_append a [] t
      rwa [List.append_nil] at this]
    rw [List.append_assoc]

/-- `validateAndTransformTools` unfolded on a cons. -/
theorem vtt_cons (t : Tool) (ts : List Tool) :
    validateAndTransformTools (t :: ts) =
      vttStep [] t ++ validateAndTransformTools ts := by
  unfold validateAndTransformTools
  rw [List.foldl_cons, vttFold_shift ts (vttStep [] t)]

/-- `validateAndTransformTools` distributes over concatenation. -/
theorem vtt_append (a b : List Tool) :
    validateAndTransformTools (a ++ b) =
      validateAndTransformTools a ++ validateAndTransformTools b := by
  unfold validateAndTransformTools
  rw [List.foldl_append, vttFold_shift b (a.foldl vttStep [])]

/-- `eraseRequiredTools` distributes over concatenation. -/
theorem eraseTools_append (a b : List Tool) :
    eraseRequiredTools (a ++ b) =
      eraseRequiredTools a ++ eraseRequiredTools b := by
  unfold eraseRequiredTools
  rw [List.map_append]

/-- A second sanitizer pass on one already-sanitized tool erases its
`required` keys. -/
theorem vtt_single_pass2 (t : Tool) :
    validateAndTransformTools (vttStep [] t) =
      eraseRequiredTools (vttStep [] t) := by
  by_cases hv : isValidParamName t.function.name
  · have hstep : vttStep [] t = [⟨t.type, ⟨t.function.name,
        t.function.description,
        some (transformParameters t.function.parameters)⟩⟩] := by
      unfold vttStep
      rw [if_pos hv]
      rfl
    rw [hstep]
    show vttStep [] _ = _
    unfold vttStep
    dsimp only
    rw [if_pos hv]
    rw [transformParameters_second_pass]
    rfl
  · have hstep : vttStep [] t = [] := by
      unfold vttStep
      rw [if_neg hv]
    rw [hstep]
    rfl

/-! ### C1: sanitizer idempotence -/

set_option maxRecDepth 10000 in
/-- C1 fails as stated: the sanitizer is not idempotent.  On the tool
`reqDropTool` (an `object` schema with one property and
`required: ["x"]`), the first pass keeps a `required` key (as a Go
`[]string`), but the second pass drops it: its `[]any` type assertion on
the stored `[]string` fails.  The two outputs differ. -/
theorem sanitizer_not_idempotent :
    validateAndTransformTools (validateAndTransformTools [reqDropTool]) ≠
      validateAndTransformTools [reqDropTool] := by
  intro h
  have h2 := congrArg (fun l : List Tool =>
    match l with
    | [t] =>
      match t.function.parameters with
      | some p => jhas p "required"
      | none => false
    | _ => false) h
  exact absurd h2 (by decide)

/-- C1 amended: the sanitizer is idempotent up to `required`-erasure.  For
every tool list, re-sanitizing the sanitized tools equals erasing every
`required` key (at the top level of each parameters map and at every nested
schema position along `properties`) from the sanitized tools; everything
else — names, descriptions, types, the whole rest of every schema — is
reproduced exactly. -/
theorem sanitizer_idempotent_mod_required : ∀ tools : List Tool,
    validateAndTransformTools (validateAndTransformTools tools) =
      eraseRequiredTools (validateAndTransformTools tools) := by
  intro tools
  induction tools with
  | nil => rfl
  | cons t ts ih =>
    rw [vtt_cons, vtt_append, ih, vtt_single_pass2, eraseTools_append]

/-! ### Closedness of sanitizer outputs -/

/-- Introduction rule for `closedSchema` on an object from facts about its
keys. -/
theorem closed_obj_of (fields : List (String × JValue))
    (hany : jget fields "anyOf" = none) (hone : jget fields "oneOf" = none)
    (hall : jget fields "allOf" = none)
    (hitems : jget fields "items" = none ∨
      ∃ it, jget fields "items" = some it ∧ closedSchema it = true)
    (hprops : jget fields "properties" = none ∨
      ∃ P1, jget fields "properties" = some (.obj P1) ∧
        jget fields "additionalProperties" = some (.bool false) ∧
        ∀ kv ∈ P1, isValidParamName kv.1 = true ∧ closedSchema kv.2 = true) :
    closedSchema (.obj fields) = true := by
  rw [closed_eq]
  show closedStep closedSchema (.obj fields) = true
  unfold closedStep
  dsimp only
  have h1 : jhas fields "anyOf" = false := by unfold jhas; rw [hany]; rfl
  have h2 : jhas fields "oneOf" = false := by unfold jhas; rw [hone]; rfl
  have h3 : jhas fields "allOf" = false := by unfold jhas; rw [hall]; rfl
  have hI : closedItemsPart closedSchema fields = true := by
    unfold closedItemsPart
    rcases hitems with hi | ⟨it, hi, hit⟩
    · rw [hi]
    · rw [hi]
      exact hit
  have hP : closedPropsPart closedSchema fields = true := by
    unfold closedPropsPart
    rcases hprops with hp | ⟨P1, hp, hap, hgood⟩
    · rw [hp]
    · rw [hp, hap]
      dsimp only
      simp only [Bool.and_true]
      exact List.all_eq_true.mpr (fun kv hkv => by
        simp only [Bool.and_eq_true]
        exact hgood kv hkv)
  rw [h1, h2, h3, hI, hP]
  rfl

/-- The nested-object replacement schema is closed. -/
theorem closed_nested (k0 : String) :
    closedSchema (nestedStringSchema k0) = true := by
  rw [closed_eq]
  rfl

/-- A one-key `items` schema is closed. -/
theorem closed_itemval (IT : JValue) :
    closedSchema (.obj [("type", IT)]) = true := by
  rw [closed_eq]
  rfl

/-- The synthetic `data` parameter schema is closed. -/
theorem closed_data (n : Nat) :
    closedSchema (dataParamSchema n) = true := by
  rw [closed_eq]
  rfl

/-- Size-bounded induction: every transformed property schema is closed. -/
theorem closed_tps_bounded : ∀ (N : Nat) (w : JValue), jsize w ≤ N →
    closedSchema (transformPropertySchema w) = true := by
  intro N
  induction N with
  | zero => intro w hw; exfalso; have := jsize_pos w; omega
  | succ N ih =>
    intro w hw
    rcases tps_normal_form w with
      ⟨V, t, htt, heq, hV⟩ | ⟨IT, t, htt, heq⟩ |
      ⟨m, props, reqPart, t, htt, hweq, _, _, _, _, hp, hlen, hreq, heq⟩
    · rw [heq]
      have hj : ∀ k, k ∉ scalarKeys ++ ["format"] → k ≠ "type" →
          jget (("type", V) :: t) k = none := by
        intro k hk1 hk2
        rw [jget_cons_ne _ _ (Ne.symm hk2)]
        exact tail_jget_none htt hk1
      exact closed_obj_of _ (hj "anyOf" (by decide) (by decide))
        (hj "oneOf" (by decide) (by decide)) (hj "allOf" (by decide) (by decide))
        (Or.inl (hj "items" (by decide) (by decide)))
        (Or.inl (hj "properties" (by decide) (by decide)))
    · rw [heq]
      have hj : ∀ k, k ∉ scalarKeys ++ ["format"] → k ≠ "type" → k ≠ "items" →
          jget (("type", JValue.str "array") ::
            ("items", JValue.obj [("type", IT)]) :: t) k = none := by
        intro k hk1 hk2 hk3
        rw [jget_cons_ne _ _ (Ne.symm hk2), jget_cons_ne _ _ (Ne.symm hk3)]
        exact tail_jget_none htt hk1
      refine closed_obj_of _ (hj "anyOf" (by decide) (by decide) (by decide))
        (hj "oneOf" (by decide) (by decide) (by decide))
        (hj "allOf" (by decide) (by decide) (by decide))
        (Or.inr ⟨JValue.obj [("type", IT)], ?_, closed_itemval IT⟩)
        (Or.inl (hj "properties" (by decide) (by decide) (by decide)))
      rw [jget_cons_ne _ _ (by decide), jget_cons_self]
    · subst hweq
      rw [heq]
      have hreqget : ∀ k, k ∉ scalarKeys ++ ["format"] → k ≠ "required" →
          jget (reqPart ++ ("additionalProperties", JValue.bool false) :: t) k =
            jget (("additionalProperties", JValue.bool false) :: t) k := by
        intro k hk1 hk2
        rcases hreq with hreq | ⟨vr, hreq⟩ <;> subst hreq
        · rfl
        · rw [List.singleton_append, jget_cons_ne _ _ (Ne.symm hk2)]
      have hj : ∀ k, k ∉ scalarKeys ++ ["format"] → k ≠ "type" →
          k ≠ "properties" → k ≠ "required" → k ≠ "additionalProperties" →
          jget (("type", JValue.str "object") ::
            ("properties", JValue.obj (innerProps transformPropertySchema props)) ::
            (reqPart ++ ("additionalProperties", JValue.bool false) :: t)) k =
            none := by
        intro k h1 h2 h3 h4 h5
        rw [jget_cons_ne _ _ (Ne.symm h2), jget_cons_ne _ _ (Ne.symm h3),
          hreqget k h1 h4, jget_cons_ne _ _ (Ne.symm h5)]
        exact tail_jget_none htt h1
      refine closed_obj_of _
        (hj "anyOf" (by decide) (by decide) (by decide) (by decide) (by decide))
        (hj "oneOf" (by decide) (by decide) (by decide) (by decide) (by decide))
        (hj "allOf" (by decide) (by decide) (by decide) (by decide) (by decide))
        (Or.inl (hj "items" (by decide) (by decide) (by decide) (by decide)
          (by decide)))
        (Or.inr ⟨innerProps transformPropertySchema props, ?_, ?_, ?_⟩)
      · rw [jget_cons_ne _ _ (by decide), jget_cons_self]
      · rw [jget_cons_ne _ _ (by decide), jget_cons_ne _ _ (by decide),
          hreqget "additionalProperties" (by decide) (by decide),
          jget_cons_self]
      · intro kv hkv
        rcases innerProps_entries transformPropertySchema props kv hkv with
          ⟨hvalid, hchar⟩
        refine ⟨hvalid, ?_⟩
        rcases hchar with ⟨k0, hkv2⟩ | ⟨k0, z, hzmem, _, hkv2⟩
        · rw [hkv2]; exact closed_nested k0
        · rw [hkv2]
          apply ih
          have hsz : jsize z < jsize (JValue.obj m) := size_chain hp hzmem
          omega

/-- Every transformed property schema is closed. -/
theorem closed_tps (w : JValue) :
    closedSchema (transformPropertySchema w) = true :=
  closed_tps_bounded (jsize w) w (le_refl _)

/-- Every transformed parameters map is closed. -/
theorem closed_params (p : Option (List (String × JValue))) :
    closedSchema (.obj (transformParameters p)) = true := by
  obtain ⟨tPart, pPart, rPart, htp, hpp, hrp, heq⟩ := transformParameters_nf p
  rw [heq]
  have hjO : ∀ k, k ≠ "type" → k ≠ "properties" → k ≠ "required" →
      k ≠ "additionalProperties" →
      jget (tPart ++ pPart ++ rPart ++
        [("additionalProperties", JValue.bool false)]) k = none := by
    intro k h1 h2 h3 h4
    rcases htp with h | ⟨tv, h⟩ <;> subst h <;>
      (rcases hpp with h | ⟨P1, h, _, _, _⟩ <;> subst h) <;>
      (rcases hrp with h | ⟨R, h⟩ <;> subst h) <;>
      simp [jget, Ne.symm h1, Ne.symm h2, Ne.symm h3, Ne.symm h4]
  apply closed_obj_of
  · exact hjO "anyOf" (by decide) (by decide) (by decide) (by decide)
  · exact hjO "oneOf" (by decide) (by decide) (by decide) (by decide)
  · exact hjO "allOf" (by decide) (by decide) (by decide) (by decide)
  · exact Or.inl (hjO "items" (by decide) (by decide) (by decide) (by decide))
  · rcases hpp with hpp | ⟨P1, hpp, hgood, hdist, hlen⟩ <;> subst hpp
    · refine Or.inl ?_
      rcases htp with h | ⟨tv, h⟩ <;> subst h <;>
        (rcases hrp with h | ⟨R, h⟩ <;> subst h) <;> simp [jget]
    · refine Or.inr ⟨P1, ?_, ?_, ?_⟩
      · rcases htp with h | ⟨tv, h⟩ <;> subst h <;>
          (rcases hrp with h | ⟨R, h⟩ <;> subst h) <;> simp [jget]
      · rcases htp with h | ⟨tv, h⟩ <;> subst h <;>
          (rcases hrp with h | ⟨R, h⟩ <;> subst h) <;> simp [jget]
      · intro kv hkv
        obtain ⟨hvalid, w, hw⟩ := hgood kv hkv
        exact ⟨hvalid, by rw [hw]; exact closed_tps w⟩

/-! ### C2: sanitizer closure -/

set_option maxRecDepth 10000 in
/-- C2 fails as stated: on the tool `leakyTool`, the sanitized output still
contains an `anyOf` key and an invalid property name (both inside a
verbatim-copied `enum` value) and an `items` schema of declared type
`object` without `additionalProperties: false`, so the claimed deep
closure predicate (valid property names, no composer keys at any nesting
level, `additionalProperties: false` on every object schema) is false on
the output. -/
theorem sanitizer_not_closed :
    (validateAndTransformTools [leakyTool]).all (fun t =>
      match t.function.parameters with
      | some p => claimClosed (.obj p)
      | none => true) = false := by
  decide

/-- C2 amended: the sanitizer's outputs are closed along schema positions.
For every tool list and every sanitized tool, the parameters map and
every schema reachable from it through `properties` values and `items`
carries no `anyOf` / `oneOf` / `allOf` key of its own, its `properties`
keys are valid parameter names, and whenever it has a `properties` map it
also has `additionalProperties: false`.  (Verbatim-copied annotation
values — `enum`, `pattern`, numeric bounds, a non-string `type` — are data,
not schema positions, and may still contain arbitrary maps, which is what
the original claim missed.) -/
theorem sanitizer_closure_amended : ∀ tools : List Tool,
    (validateAndTransformTools tools).all (fun t =>
      match t.function.parameters with
      | some p => closedSchema (.obj p)
      | none => true) = true := by
  intro tools
  induction tools with
  | nil => rfl
  | cons t ts ih =>
    rw [vtt_cons, List.all_append, ih, Bool.and_true]
    by_cases hv : isValidParamName t.function.name
    · have hstep : vttStep [] t = [⟨t.type, ⟨t.function.name,
          t.function.description,
          some (transformParameters t.function.parameters)⟩⟩] := by
        unfold vttStep
        rw [if_pos hv]
        rfl
      rw [hstep]
      simp only [List.all_cons, List.all_nil, Bool.and_true]
      exact closed_params t.function.parameters
    · have hstep : vttStep [] t = [] := by
        unfold vttStep; rw [if_neg hv]
      rw [hstep]
      rfl
